import Mathlib

/-!
Shallow embedding of the classical-cipher core of `src/app.py`.

Python strings are modelled as lists of Unicode code points (`Str := List Nat`),
so `ord` and `chr` become the identity. The character predicates
`str.isalpha` / `str.isupper` and the case maps `str.upper` / `str.lower`
are modelled on the ASCII range, which is the alphabet these ciphers act on.
Python `%` and `//` on integers are floor operations; they are modelled by
`Int.fmod` / `Int.fdiv` (and by `Int.emod` where the modulus is a positive
literal, on which the two agree).  Functions that can raise `ValueError`
return `Option`, with `none` standing for the raised error.
-/

namespace Crypto

abbrev Str := List Nat

def isAlpha (c : Nat) : Bool := (65 ≤ c && c ≤ 90) || (97 ≤ c && c ≤ 122)

def isUpper (c : Nat) : Bool := 65 ≤ c && c ≤ 90

/-- ASCII model of Python `ch.upper()` for a single character. -/
def toUp (c : Nat) : Nat := if 97 ≤ c && c ≤ 122 then c - 32 else c

/-- ASCII model of Python `ch.lower()` for a single character. -/
def toLow (c : Nat) : Nat := if 65 ≤ c && c ≤ 90 then c + 32 else c

/-- Python `s.rstrip("X")` ('X' = 88). -/
def rstripX (s : Str) : Str := (s.reverse.dropWhile (fun c => c == 88)).reverse

/-- `updateAt i f l` applies `f` to the `i`-th entry of `l` (Python `l[i] = f(l[i])`). -/
def updateAt (i : Nat) (f : α → α) : List α → List α
  | [] => []
  | x :: xs =>
    match i with
    | 0 => f x :: xs
    | i + 1 => x :: updateAt i f xs

/- ----------------------------------------------------------------
   Vigenère  (src/app.py lines 211-315)
   ---------------------------------------------------------------- -/

/-- `vigenere_prepare_key` from src/app.py: keep the key letters, uppercase
them, default to `"A"`, then cyclically extend to the requested length. -/
def vigenere_prepare_key (key : Str) (length : Nat) : Str :=
  let keyClean := (key.filter isAlpha).map toUp
  let keyClean := if keyClean = [] then [65] else keyClean
  (List.flatten (List.replicate (length / keyClean.length + 1) keyClean)).take length

/-- One letter of `vigenere_encrypt`: Caesar shift by the key letter. -/
def vigEncChar (k c : Nat) : Nat :=
  let shift : Int := (toUp k : Int) - 65
  let code : Int := ((toUp c : Int) - 65 + shift) % 26 + 65
  if isUpper c then code.toNat else toLow code.toNat

/-- One letter of `vigenere_decrypt`: the inverse Caesar shift. -/
def vigDecChar (k c : Nat) : Nat :=
  let shift : Int := (toUp k : Int) - 65
  let code : Int := ((toUp c : Int) - 65 - shift + 26) % 26 + 65
  if isUpper c then code.toNat else toLow code.toNat

/-- The character loop of `vigenere_encrypt`: the key index advances only on
letters, non-letters pass through unchanged. -/
def vigEncAux (kp : Str) : Nat → Str → Str
  | _, [] => []
  | idx, c :: cs =>
    if isAlpha c then vigEncChar (kp.getD idx 0) c :: vigEncAux kp (idx + 1) cs
    else c :: vigEncAux kp idx cs

/-- The character loop of `vigenere_decrypt`. -/
def vigDecAux (kp : Str) : Nat → Str → Str
  | _, [] => []
  | idx, c :: cs =>
    if isAlpha c then vigDecChar (kp.getD idx 0) c :: vigDecAux kp (idx + 1) cs
    else c :: vigDecAux kp idx cs

def vigenere_encrypt (text key : Str) : Str :=
  if key = [] then text
  else vigEncAux (vigenere_prepare_key key text.length) 0 text

def vigenere_decrypt (cipher key : Str) : Str :=
  if key = [] then cipher
  else vigDecAux (vigenere_prepare_key key cipher.length) 0 cipher

/- Lemmas about the Vigenère loops. -/

lemma toUp_bounds {c : Nat} (h : isAlpha c = true) : 65 ≤ toUp c ∧ toUp c ≤ 90 := by
  simp only [isAlpha, Bool.or_eq_true, Bool.and_eq_true, decide_eq_true_eq] at h
  unfold toUp
  split <;> rename_i h2 <;>
    simp only [Bool.and_eq_true, decide_eq_true_eq] at h2 ⊢ <;> omega

lemma isUpper_iff {c : Nat} : isUpper c = true ↔ 65 ≤ c ∧ c ≤ 90 := by
  simp [isUpper]

lemma isAlpha_iff {c : Nat} : isAlpha c = true ↔ (65 ≤ c ∧ c ≤ 90) ∨ (97 ≤ c ∧ c ≤ 122) := by
  simp [isAlpha]

lemma toUp_of_upper {c : Nat} (h : 65 ≤ c ∧ c ≤ 90) : toUp c = c := by
  unfold toUp
  split <;> rename_i h2 <;>
    simp only [Bool.and_eq_true, decide_eq_true_eq] at h2 <;> omega

lemma toUp_of_lower {c : Nat} (h : 97 ≤ c ∧ c ≤ 122) : toUp c = c - 32 := by
  unfold toUp
  split <;> rename_i h2 <;>
    simp only [Bool.and_eq_true, decide_eq_true_eq, not_and, not_le] at h2 <;> omega

lemma toLow_of_upper {c : Nat} (h : 65 ≤ c ∧ c ≤ 90) : toLow c = c + 32 := by
  unfold toLow
  split <;> rename_i h2 <;>
    simp only [Bool.and_eq_true, decide_eq_true_eq, not_and, not_le] at h2 <;> omega

lemma emod26_bounds (a : Int) : 0 ≤ a % 26 ∧ a % 26 < 26 :=
  ⟨Int.emod_nonneg a (by norm_num), Int.emod_lt_of_pos a (by norm_num)⟩

lemma isUpper_false_iff {c : Nat} : isUpper c = false ↔ ¬(65 ≤ c ∧ c ≤ 90) := by
  rw [← Bool.not_eq_true, isUpper_iff]

lemma isAlpha_false_iff {c : Nat} :
    isAlpha c = false ↔ ¬((65 ≤ c ∧ c ≤ 90) ∨ (97 ≤ c ∧ c ≤ 122)) := by
  rw [← Bool.not_eq_true, isAlpha_iff]

lemma vigEncChar_eq_of_upper {c : Nat} (k : Nat) (hc : 65 ≤ c ∧ c ≤ 90) :
    vigEncChar k c = (((c : Int) - 65 + ((toUp k : Int) - 65)) % 26 + 65).toNat := by
  have hu : isUpper c = true := isUpper_iff.mpr hc
  simp only [vigEncChar]
  rw [toUp_of_upper hc, hu]
  simp

lemma vigDecChar_eq_of_upper {c : Nat} (k : Nat) (hc : 65 ≤ c ∧ c ≤ 90) :
    vigDecChar k c = (((c : Int) - 65 - ((toUp k : Int) - 65) + 26) % 26 + 65).toNat := by
  have hu : isUpper c = true := isUpper_iff.mpr hc
  simp only [vigDecChar]
  rw [toUp_of_upper hc, hu]
  simp

lemma vigEncChar_eq_of_lower {c : Nat} (k : Nat) (hc : 97 ≤ c ∧ c ≤ 122) :
    vigEncChar k c
      = ((((c - 32 : Nat) : Int) - 65 + ((toUp k : Int) - 65)) % 26 + 65).toNat + 32 := by
  have hu : isUpper c = false := isUpper_false_iff.mpr (by omega)
  have h1 := emod26_bounds (((c - 32 : Nat) : Int) - 65 + ((toUp k : Int) - 65))
  simp only [vigEncChar]
  rw [toUp_of_lower hc, hu]
  simp only [Bool.false_eq_true, if_false]
  rw [toLow_of_upper (by omega)]

lemma vigDecChar_eq_of_lower {c : Nat} (k : Nat) (hc : 97 ≤ c ∧ c ≤ 122) :
    vigDecChar k c
      = ((((c - 32 : Nat) : Int) - 65 - ((toUp k : Int) - 65) + 26) % 26 + 65).toNat + 32 := by
  have hu : isUpper c = false := isUpper_false_iff.mpr (by omega)
  have h1 := emod26_bounds (((c - 32 : Nat) : Int) - 65 - ((toUp k : Int) - 65) + 26)
  simp only [vigDecChar]
  rw [toUp_of_lower hc, hu]
  simp only [Bool.false_eq_true, if_false]
  rw [toLow_of_upper (by omega)]

/-- Per-character facts: encryption sends letters to letters, preserves the
case class, and `vigDecChar` with the same key letter inverts it. -/
lemma vigEncChar_spec {c : Nat} (k : Nat) (h : isAlpha c = true) :
    isAlpha (vigEncChar k c) = true ∧
    isUpper (vigEncChar k c) = isUpper c ∧
    vigDecChar k (vigEncChar k c) = c := by
  rcases isAlpha_iff.mp h with hc | hc
  · have hu : isUpper c = true := isUpper_iff.mpr hc
    have h1 := emod26_bounds ((c : Int) - 65 + ((toUp k : Int) - 65))
    have henc := vigEncChar_eq_of_upper k hc
    have hbe : 65 ≤ vigEncChar k c ∧ vigEncChar k c ≤ 90 := by rw [henc]; omega
    have hdec := vigDecChar_eq_of_upper k hbe
    refine ⟨isAlpha_iff.mpr (Or.inl hbe), ?_, ?_⟩
    · rw [isUpper_iff.mpr hbe, hu]
    · rw [hdec, henc]
      have h2 := emod26_bounds
        (((((c : Int) - 65 + ((toUp k : Int) - 65)) % 26 + 65).toNat : Int) - 65
          - ((toUp k : Int) - 65) + 26)
      omega
  · have hu : isUpper c = false := isUpper_false_iff.mpr (by omega)
    have h1 := emod26_bounds (((c - 32 : Nat) : Int) - 65 + ((toUp k : Int) - 65))
    have henc := vigEncChar_eq_of_lower k hc
    have hbe : 97 ≤ vigEncChar k c ∧ vigEncChar k c ≤ 122 := by rw [henc]; omega
    have hdec := vigDecChar_eq_of_lower k hbe
    refine ⟨isAlpha_iff.mpr (Or.inr hbe), ?_, ?_⟩
    · rw [isUpper_false_iff.mpr (by omega), hu]
    · rw [hdec, henc]
      have h2 := emod26_bounds
        ((((((c - 32 : Nat) : Int) - 65 + ((toUp k : Int) - 65)) % 26 + 65).toNat + 32 - 32
            : Nat) - 65 - ((toUp k : Int) - 65) + 26)
      omega

lemma vigEncAux_length (kp : Str) : ∀ idx t, (vigEncAux kp idx t).length = t.length := by
  intro idx t
  induction t generalizing idx with
  | nil => rfl
  | cons c cs ih =>
    unfold vigEncAux
    split <;> simp [ih]

lemma vig_roundtrip_aux (kp : Str) : ∀ t idx, vigDecAux kp idx (vigEncAux kp idx t) = t := by
  intro t
  induction t with
  | nil => intro idx; rfl
  | cons c cs ih =>
    intro idx
    by_cases h : isAlpha c = true
    · obtain ⟨ha, _, hrt⟩ := vigEncChar_spec (kp.getD idx 0) h
      unfold vigEncAux
      rw [if_pos h]
      unfold vigDecAux
      rw [if_pos ha, hrt, ih]
    · have h' : isAlpha c = false := by revert h; cases isAlpha c <;> simp
      unfold vigEncAux
      rw [if_neg (by simp [h'])]
      unfold vigDecAux
      rw [if_neg (by simp [h']), ih]

/-- Pointwise behaviour of the encrypt loop: non-letters are left in place,
and the case class of every position is preserved. -/
lemma vigEncAux_pointwise (kp : Str) :
    ∀ t idx i,
      (isAlpha (t.getD i 0) = false → (vigEncAux kp idx t).getD i 0 = t.getD i 0) ∧
      (isUpper ((vigEncAux kp idx t).getD i 0) = isUpper (t.getD i 0)) := by
  intro t
  induction t with
  | nil => intro idx i; exact ⟨fun _ => rfl, rfl⟩
  | cons c cs ih =>
    intro idx i
    by_cases h : isAlpha c = true
    · unfold vigEncAux
      rw [if_pos h]
      cases i with
      | zero =>
        obtain ⟨_, hcase, _⟩ := vigEncChar_spec (kp.getD idx 0) h
        constructor
        · intro hf
          simp only [List.getD_cons_zero] at hf
          rw [h] at hf
          exact absurd hf (by decide)
        · simpa using hcase
      | succ i => simpa using ih (idx + 1) i
    · have h' : isAlpha c = false := by revert h; cases isAlpha c <;> simp
      unfold vigEncAux
      rw [if_neg (by simp [h'])]
      cases i with
      | zero => exact ⟨fun _ => rfl, rfl⟩
      | succ i => simpa using ih idx i

/-- C6: for every text and every non-empty key,
`vigenere_decrypt (vigenere_encrypt text key) key = text`, the output has the
same length as the input, non-letters are preserved at their original
positions, and the upper/lower case class of every position is preserved. -/
theorem claim_C6_vigenere_roundtrip (text key : Str) (hk : key ≠ []) :
    vigenere_decrypt (vigenere_encrypt text key) key = text ∧
    (vigenere_encrypt text key).length = text.length ∧
    (∀ i, isAlpha (text.getD i 0) = false →
      (vigenere_encrypt text key).getD i 0 = text.getD i 0) ∧
    (∀ i, isUpper ((vigenere_encrypt text key).getD i 0) = isUpper (text.getD i 0)) := by
  unfold vigenere_encrypt vigenere_decrypt
  rw [if_neg hk, if_neg hk]
  rw [vigEncAux_length]
  exact ⟨vig_roundtrip_aux _ text 0, rfl,
    fun i h => (vigEncAux_pointwise _ text 0 i).1 h,
    fun i => (vigEncAux_pointwise _ text 0 i).2⟩

/-- Witness for C6 at text `"At!b"` and key `"LeM0N"`. -/
theorem claim_C6_witness :
    ([76, 101, 77, 48, 78] : Str) ≠ [] ∧
    vigenere_decrypt (vigenere_encrypt [65, 116, 33, 98] [76, 101, 77, 48, 78])
      [76, 101, 77, 48, 78] = [65, 116, 33, 98] :=
  ⟨by decide, (claim_C6_vigenere_roundtrip [65, 116, 33, 98] [76, 101, 77, 48, 78]
    (by decide)).1⟩

/- ----------------------------------------------------------------
   Rail Fence  (src/app.py lines 110-203)
   ---------------------------------------------------------------- -/

/-- One step of the zigzag walk shared by all three loops of the Rail Fence
code: the direction is re-examined at the current row (down at row `0`, up at
row `rails - 1`) and then the row advances by the direction. -/
def rfNext (rails row : Nat) (dir : Int) : Nat × Int :=
  let dir := if row = 0 then 1 else if row = rails - 1 then -1 else dir
  (((row : Int) + dir).toNat, dir)

/-- The per-rail buffers built by the `rail_fence_encrypt` loop (`lines`). -/
def rfLines (rails : Nat) : Nat → Int → Str → List Str
  | _, _, [] => List.replicate rails []
  | row, dir, c :: cs =>
    let rd := rfNext rails row dir
    updateAt row (fun l => c :: l) (rfLines rails rd.1 rd.2 cs)

/-- The per-rail counts computed by the first loop of `rail_fence_decrypt`. -/
def rfCounts (rails : Nat) : Nat → Int → Nat → List Nat
  | _, _, 0 => List.replicate rails 0
  | row, dir, n + 1 =>
    let rd := rfNext rails row dir
    updateAt row (fun k => k + 1) (rfCounts rails rd.1 rd.2 n)

/-- The slicing loop of `rail_fence_decrypt` (`rails_arr`). -/
def sliceBy : List Nat → Str → List Str
  | [], _ => []
  | k :: ks, s => s.take k :: sliceBy ks (s.drop k)

/-- The final loop of `rail_fence_decrypt`: replay the zigzag, popping the
front of the buffer of the current rail at each step. -/
def rfRead (rails : Nat) : Nat → Nat → Int → List Str → Str
  | 0, _, _, _ => []
  | n + 1, row, dir, bufs =>
    let rd := rfNext rails row dir
    (bufs.getD row []).headD 0 ::
      rfRead rails n rd.1 rd.2 (updateAt row List.tail bufs)

def rail_fence_encrypt (text : Str) (rails : Int) : Str :=
  if rails < 2 ∨ text.length = 0 then text
  else List.flatten (rfLines rails.toNat 0 1 text)

def rail_fence_decrypt (cipher : Str) (rails : Int) : Str :=
  if rails < 2 ∨ cipher.length = 0 then cipher
  else rfRead rails.toNat cipher.length 0 1
    (sliceBy (rfCounts rails.toNat 0 1 cipher.length) cipher)

/- List-surgery lemmas about `updateAt`. -/

lemma updateAt_length (f : α → α) : ∀ (i : Nat) (l : List α),
    (updateAt i f l).length = l.length := by
  intro i l
  induction l generalizing i with
  | nil => cases i <;> rfl
  | cons x xs ih =>
    cases i with
    | zero => rfl
    | succ i => simp [updateAt, ih]

lemma getD_updateAt_self (f : α → α) (d : α) :
    ∀ (i : Nat) (l : List α), i < l.length →
      (updateAt i f l).getD i d = f (l.getD i d) := by
  intro i l
  induction l generalizing i with
  | nil => intro h; simp at h
  | cons x xs ih =>
    intro h
    cases i with
    | zero => rfl
    | succ i =>
      simp only [updateAt, List.getD_cons_succ]
      exact ih i (by simpa using h)

lemma updateAt_updateAt (f g : α → α) : ∀ (i : Nat) (l : List α),
    updateAt i f (updateAt i g l) = updateAt i (fun x => f (g x)) l := by
  intro i l
  induction l generalizing i with
  | nil => cases i <;> rfl
  | cons x xs ih =>
    cases i with
    | zero => rfl
    | succ i => simp [updateAt, ih]

lemma updateAt_congr {f g : α → α} (h : ∀ x, f x = g x) : ∀ (i : Nat) (l : List α),
    updateAt i f l = updateAt i g l := by
  intro i l
  induction l generalizing i with
  | nil => cases i <;> rfl
  | cons x xs ih =>
    cases i with
    | zero => simp [updateAt, h]
    | succ i => simp [updateAt, ih]

lemma updateAt_id : ∀ (i : Nat) (l : List α), updateAt i (fun x => x) l = l := by
  intro i l
  induction l generalizing i with
  | nil => cases i <;> rfl
  | cons x xs ih =>
    cases i with
    | zero => rfl
    | succ i => simp [updateAt, ih]

/- Facts about the zigzag state. -/

lemma rfNext_dir (rails row : Nat) {dir : Int} (hd : dir = 1 ∨ dir = -1) :
    (rfNext rails row dir).2 = 1 ∨ (rfNext rails row dir).2 = -1 := by
  unfold rfNext
  dsimp only
  split_ifs <;> simp [hd]

lemma rfNext_row_lt (rails row : Nat) {dir : Int} (h2 : 2 ≤ rails)
    (hrow : row < rails) (hd : dir = 1 ∨ dir = -1) :
    (rfNext rails row dir).1 < rails := by
  unfold rfNext
  dsimp only
  split_ifs with ha hb <;> rcases hd with hd | hd <;> subst hd <;> omega

lemma rfLines_length (rails : Nat) : ∀ (t : Str) (row : Nat) (dir : Int),
    (rfLines rails row dir t).length = rails := by
  intro t
  induction t with
  | nil => intro row dir; simp [rfLines]
  | cons c cs ih =>
    intro row dir
    simp [rfLines, updateAt_length, ih]

lemma map_length_updateAt_cons (c : Nat) : ∀ (i : Nat) (L : List Str),
    (updateAt i (fun l => c :: l) L).map List.length
      = updateAt i (fun k => k + 1) (L.map List.length) := by
  intro i L
  induction L generalizing i with
  | nil => cases i <;> rfl
  | cons x xs ih =>
    cases i with
    | zero => rfl
    | succ i => simp [updateAt, ih]

lemma rfCounts_eq_map_length (rails : Nat) : ∀ (t : Str) (row : Nat) (dir : Int),
    rfCounts rails row dir t.length = (rfLines rails row dir t).map List.length := by
  intro t
  induction t with
  | nil => intro row dir; simp [rfCounts, rfLines]
  | cons c cs ih =>
    intro row dir
    simp only [List.length_cons, rfCounts, rfLines, map_length_updateAt_cons, ih]

lemma sliceBy_flatten : ∀ (L : List Str),
    sliceBy (L.map List.length) L.flatten = L := by
  intro L
  induction L with
  | nil => rfl
  | cons x xs ih =>
    simp only [List.map_cons, List.flatten_cons, sliceBy]
    rw [List.take_left, List.drop_left, ih]

lemma flatten_updateAt_cons_length (c : Nat) : ∀ (i : Nat) (L : List Str),
    i < L.length →
    (updateAt i (fun l => c :: l) L).flatten.length = L.flatten.length + 1 := by
  intro i L
  induction L generalizing i with
  | nil => intro h; simp at h
  | cons x xs ih =>
    intro h
    cases i with
    | zero => simp [updateAt]
    | succ i =>
      simp only [updateAt, List.flatten_cons, List.length_append]
      rw [ih i (by simpa using h)]
      omega

lemma rfLines_flatten_length (rails : Nat) (h2 : 2 ≤ rails) :
    ∀ (t : Str) (row : Nat) (dir : Int), row < rails → (dir = 1 ∨ dir = -1) →
      (rfLines rails row dir t).flatten.length = t.length := by
  intro t
  induction t with
  | nil =>
    intro row dir _ _
    simp [rfLines]
  | cons c cs ih =>
    intro row dir hrow hd
    unfold rfLines
    dsimp only
    rw [flatten_updateAt_cons_length _ _ _ (by rw [rfLines_length]; exact hrow)]
    rw [ih _ _ (rfNext_row_lt rails row h2 hrow hd) (rfNext_dir rails row hd)]
    simp

lemma rfRead_rfLines (rails : Nat) (h2 : 2 ≤ rails) :
    ∀ (t : Str) (row : Nat) (dir : Int), row < rails → (dir = 1 ∨ dir = -1) →
      rfRead rails t.length row dir (rfLines rails row dir t) = t := by
  intro t
  induction t with
  | nil => intro row dir _ _; rfl
  | cons c cs ih =>
    intro row dir hrow hd
    have hLlen : (rfLines rails (rfNext rails row dir).1 (rfNext rails row dir).2 cs).length
        = rails := rfLines_length rails cs _ _
    simp only [List.length_cons]
    unfold rfLines rfRead
    dsimp only
    rw [getD_updateAt_self _ _ _ _ (by rw [hLlen]; exact hrow)]
    rw [List.headD_cons]
    rw [updateAt_updateAt]
    rw [updateAt_congr (fun x => List.tail_cons), updateAt_id]
    rw [ih _ _ (rfNext_row_lt rails row h2 hrow hd) (rfNext_dir rails row hd)]

/-- C7: for every text and every number of rails at least 2,
`rail_fence_decrypt (rail_fence_encrypt text rails) rails = text`. -/
theorem claim_C7_rail_fence_roundtrip (text : Str) (rails : Int) (h : 2 ≤ rails) :
    rail_fence_decrypt (rail_fence_encrypt text rails) rails = text := by
  by_cases ht : text.length = 0
  · have : text = [] := List.length_eq_zero.mp ht
    subst this
    simp [rail_fence_encrypt, rail_fence_decrypt]
  · have h2 : 2 ≤ rails.toNat := by omega
    have hng : ¬(rails < 2 ∨ text.length = 0) := by
      push_neg
      exact ⟨by omega, ht⟩
    unfold rail_fence_encrypt
    rw [if_neg hng]
    have hlen : (List.flatten (rfLines rails.toNat 0 1 text)).length = text.length :=
      rfLines_flatten_length rails.toNat h2 text 0 1 (by omega) (Or.inl rfl)
    unfold rail_fence_decrypt
    rw [if_neg (by push_neg; exact ⟨by omega, by rw [hlen]; exact ht⟩)]
    rw [hlen, rfCounts_eq_map_length, sliceBy_flatten]
    exact rfRead_rfLines rails.toNat h2 text 0 1 (by omega) (Or.inl rfl)

/-- Witness for C7 at text `"HELLO!x"` and `rails = 3`. -/
theorem claim_C7_witness :
    (2 : Int) ≤ 3 ∧
    rail_fence_decrypt (rail_fence_encrypt [72, 69, 76, 76, 79, 33, 120] 3) 3
      = [72, 69, 76, 76, 79, 33, 120] :=
  ⟨by decide, claim_C7_rail_fence_roundtrip [72, 69, 76, 76, 79, 33, 120] 3 (by decide)⟩

/- ----------------------------------------------------------------
   Modular arithmetic and Affine  (src/app.py lines 733-854)
   ---------------------------------------------------------------- -/

/-- Bounding `Int.fmod` by the divisor in absolute value (needed because the
Python recursion `gcd_extended(b % a, a)` uses floor-mod). -/
lemma fmod_natAbs_lt (b : Int) : ∀ {a : Int}, a ≠ 0 → (Int.fmod b a).natAbs < a.natAbs := by
  intro a ha
  rcases lt_trichotomy a 0 with h | h | h
  · match a, h with
    | Int.negSucc n, _ =>
      have hneg : Int.negSucc n = -((n : Int) + 1) := Int.negSucc_eq n
      have hb : Int.negSucc n < Int.fmod b (Int.negSucc n) ∧
          Int.fmod b (Int.negSucc n) ≤ 0 := by
        match b with
        | Int.ofNat 0 =>
          have h1 : Int.fmod (Int.ofNat 0) (Int.negSucc n) = 0 := rfl
          rw [h1, hneg]
          constructor <;> omega
        | Int.ofNat (m + 1) =>
          have h1 : Int.fmod (Int.ofNat (m + 1)) (Int.negSucc n)
              = Int.subNatNat (m % (n + 1)) n := rfl
          rw [h1, Int.subNatNat_eq_coe, hneg]
          have h2 : m % (n + 1) < n + 1 := Nat.mod_lt m (by omega)
          constructor <;> omega
        | Int.negSucc m =>
          have h1 : Int.fmod (Int.negSucc m) (Int.negSucc n)
              = -(((m + 1) % (n + 1) : Nat) : Int) := rfl
          rw [h1, hneg]
          have h2 : (m + 1) % (n + 1) < n + 1 := Nat.mod_lt (m + 1) (by omega)
          constructor <;> omega
      rw [hneg] at hb ⊢
      omega
  · exact absurd h ha
  · have h1 : 0 ≤ Int.fmod b a := Int.fmod_nonneg' b h
    have h2 : Int.fmod b a < a := Int.fmod_lt_of_pos b h
    omega

/-- Fueled form of `gcd_extended` from src/app.py.  The recursion body is
exactly the Python one (`gcd, x1, y1 = gcd_extended(b % a, a)`,
`x = y1 - (b // a) * x1`, `y = x1`); the fuel only realises its termination
(the absolute value of the first argument strictly decreases), so that the
function stays kernel-computable. -/
def gcdEA : Nat → Int → Int → Int × Int × Int
  | 0, _, b => (b, 0, 1)
  | fuel + 1, a, b =>
    if a = 0 then (b, 0, 1)
    else
      let t := gcdEA fuel (Int.fmod b a) a
      (t.1, t.2.2 - (Int.fdiv b a) * t.2.1, t.2.1)

/-- `gcd_extended(a, b)` returning `(g, x, y)` with `g = a*x + b*y`. -/
def gcd_extended (a b : Int) : Int × Int × Int := gcdEA (a.natAbs + 1) a b

lemma gcdEA_congr : ∀ (f₁ f₂ : Nat) (a b : Int),
    a.natAbs < f₁ → a.natAbs < f₂ → gcdEA f₁ a b = gcdEA f₂ a b := by
  intro f₁
  induction f₁ with
  | zero => intro f₂ a b h1 _; omega
  | succ f ih =>
    intro f₂ a b h1 h2
    match f₂, h2 with
    | g + 1, h2 =>
      by_cases ha : a = 0
      · simp [gcdEA, ha]
      · have hlt := fmod_natAbs_lt b ha
        simp only [gcdEA, ha, if_false]
        rw [ih g (Int.fmod b a) a (by omega) (by omega)]

/-- The base case of the Python recursion. -/
lemma gcd_extended_zero (b : Int) : gcd_extended 0 b = (b, 0, 1) := by
  simp [gcd_extended, gcdEA]

/-- The recursive case of the Python recursion, as an unfolding equation. -/
lemma gcd_extended_rec {a : Int} (b : Int) (ha : a ≠ 0) :
    gcd_extended a b =
      ((gcd_extended (Int.fmod b a) a).1,
        (gcd_extended (Int.fmod b a) a).2.2
          - (Int.fdiv b a) * (gcd_extended (Int.fmod b a) a).2.1,
        (gcd_extended (Int.fmod b a) a).2.1) := by
  have hlt := fmod_natAbs_lt b ha
  have h1 : gcdEA (a.natAbs + 1) a b
      = ((gcdEA a.natAbs (Int.fmod b a) a).1,
          (gcdEA a.natAbs (Int.fmod b a) a).2.2
            - (Int.fdiv b a) * (gcdEA a.natAbs (Int.fmod b a) a).2.1,
          (gcdEA a.natAbs (Int.fmod b a) a).2.1) := by
    simp [gcdEA, ha]
  show gcdEA (a.natAbs + 1) a b = _
  rw [h1,
    gcdEA_congr a.natAbs ((Int.fmod b a).natAbs + 1) (Int.fmod b a) a (by omega) (by omega)]
  rfl

/-- `mod_inverse` from src/app.py: `None` when the gcd is not 1, otherwise
`(x % m + m) % m` (Python `%` is floor-mod). -/
def mod_inverse (a m : Int) : Option Int :=
  let t := gcd_extended a m
  if t.1 ≠ 1 then none
  else some (Int.fmod (Int.fmod t.2.1 m + m) m)

/-- For nonnegative arguments the first component of `gcd_extended` is the
mathematical gcd. -/
lemma gcd_extended_fst : ∀ (n : Nat) (a b : Int), a.natAbs ≤ n → 0 ≤ a → 0 ≤ b →
    (gcd_extended a b).1 = Int.gcd a b := by
  intro n
  induction n with
  | zero =>
    intro a b hn ha hb
    have ha0 : a = 0 := by omega
    subst ha0
    rw [gcd_extended_zero, Int.gcd_zero_left, Int.natAbs_of_nonneg hb]
  | succ n ih =>
    intro a b hn ha hb
    by_cases ha0 : a = 0
    · subst ha0
      rw [gcd_extended_zero, Int.gcd_zero_left, Int.natAbs_of_nonneg hb]
    · have hpos : 0 < a := by omega
      have hm : Int.fmod b a = b % a := Int.fmod_eq_emod b ha
      rw [gcd_extended_rec b ha0]
      dsimp only
      rw [ih (Int.fmod b a) a (by have := fmod_natAbs_lt b ha0; omega)
        (Int.fmod_nonneg' b hpos) ha]
      rw [hm]
      congr 1
      obtain ⟨p, rfl⟩ := Int.eq_ofNat_of_zero_le ha
      obtain ⟨q, rfl⟩ := Int.eq_ofNat_of_zero_le hb
      rw [← Int.ofNat_emod]
      simp only [Int.gcd_natCast_natCast]
      rw [Nat.gcd_rec p q]

/-- `affine_encrypt` from src/app.py; `none` models the raised `ValueError`. -/
def affine_encrypt (text : Str) (a b : Int) : Option Str :=
  if (gcd_extended a 26).1 ≠ 1 then none
  else some (text.map (fun ch =>
    if isAlpha ch then
      let code := (a * ((toUp ch : Int) - 65) + b) % 26
      if isUpper ch then (code + 65).toNat else toLow (code + 65).toNat
    else ch))

/-- `affine_decrypt` from src/app.py; `none` models the raised `ValueError`. -/
def affine_decrypt (cipher : Str) (a b : Int) : Option Str :=
  match mod_inverse a 26 with
  | none => none
  | some ai => some (cipher.map (fun ch =>
      if isAlpha ch then
        let code := (ai * (((toUp ch : Int) - 65) - b + 26)) % 26
        if isUpper ch then (code + 65).toNat else toLow (code + 65).toNat
      else ch))

lemma mod_inverse_none_iff (a m : Int) :
    mod_inverse a m = none ↔ (gcd_extended a m).1 ≠ 1 := by
  unfold mod_inverse
  dsimp only
  split_ifs with h
  · simp [h]
  · simp [h]

/-- C8 (amended): for every `a ≥ 0`, `affine_encrypt` fails (with the
invalid-key `ValueError`, i.e. returns `none`, producing no output) if and
only if `gcd a 26 ≠ 1`, and `affine_decrypt` fails under exactly the same
condition. -/
theorem claim_C8_affine_invalid_key (text cipher : Str) (a b : Int) (ha : 0 ≤ a) :
    ((affine_encrypt text a b = none) ↔ Int.gcd a 26 ≠ 1) ∧
    ((affine_decrypt cipher a b = none) ↔ Int.gcd a 26 ≠ 1) := by
  have hg : (gcd_extended a 26).1 = Int.gcd a 26 :=
    gcd_extended_fst a.natAbs a 26 le_rfl ha (by norm_num)
  have hcond : ((gcd_extended a 26).1 ≠ 1) ↔ Int.gcd a 26 ≠ 1 := by
    rw [hg]
    exact not_congr Nat.cast_eq_one
  constructor
  · unfold affine_encrypt
    split_ifs with h
    · simp [hcond.mp h]
    · have h1 : Int.gcd a 26 = 1 := by
        have h2 := not_not.mp h
        rw [hg] at h2
        exact_mod_cast h2
      simp [h1]
  · unfold affine_decrypt
    have hmi := mod_inverse_none_iff a 26
    rcases hmo : mod_inverse a 26 with _ | ai
    · exact iff_of_true rfl (hcond.mp (hmi.mp hmo))
    · have h1 : Int.gcd a 26 = 1 := by
        by_contra hne
        have h2 := hmi.mpr (hcond.mpr hne)
        rw [hmo] at h2
        exact absurd h2 (by simp)
      simp [h1]

/-- Witness for C8 at `a = 3`, `b = 5`. -/
theorem claim_C8_witness :
    (0 : Int) ≤ 3 ∧
    ((affine_encrypt [65] 3 5 = none ↔ Int.gcd 3 26 ≠ 1) ∧
      (affine_decrypt [66] 3 5 = none ↔ Int.gcd 3 26 ≠ 1)) :=
  ⟨by decide, claim_C8_affine_invalid_key [65] [66] 3 5 (by decide)⟩

/-- Counterexample to C8 as stated: at `a = -1` the mathematical gcd with 26
is 1, yet both `affine_encrypt` and `affine_decrypt` raise the invalid-key
error, because `gcd_extended` returns `-1` for negative first arguments. -/
theorem claim_C8_counterexample :
    Int.gcd (-1) 26 = 1 ∧
    affine_encrypt [65] (-1) 0 = none ∧
    affine_decrypt [65] (-1) 0 = none := by
  refine ⟨by decide, ?_, ?_⟩ <;> decide

/- ----------------------------------------------------------------
   Playfair  (src/app.py lines 374-627)
   ---------------------------------------------------------------- -/

/-- The cleaning step shared by `playfair_prepare_text` and
`playfair_create_matrix`: keep letters, uppercase, replace J (74) by I (73). -/
def pfClean (text : Str) : Str :=
  ((text.filter isAlpha).map toUp).map (fun c => if c = 74 then 73 else c)

/-- The digraph-building `while` loop of `playfair_prepare_text`: a lone last
letter gets 'X' appended; an identical pair gets 'X' inserted after its first
letter (the second letter starts the next digraph); otherwise two letters are
consumed. -/
def pfPairs : Str → List Str
  | [] => []
  | [a] => [[a, 88]]
  | a :: b :: rest =>
    if a = b then [a, 88] :: pfPairs (b :: rest)
    else [a, b] :: pfPairs rest

/-- Python `" ".join(ps)` (space = 32). -/
def joinSpace : List Str → Str
  | [] => []
  | [p] => p
  | p :: ps => p ++ 32 :: joinSpace ps

def playfair_prepare_text (text : Str) : Str :=
  let tc := pfClean text
  if tc = [] then [] else joinSpace (pfPairs tc)

/-- Whitespace test for Python `str.split()` (only the space character can
occur in the strings these ciphers build). -/
def isSpaceCh (c : Nat) : Bool :=
  c = 32 || c = 9 || c = 10 || c = 11 || c = 12 || c = 13

/-- Python `s.split()`: split on whitespace runs, dropping empty pieces. -/
def splitWS : Str → List Str
  | [] => []
  | c :: cs =>
    if isSpaceCh c then splitWS cs
    else (c :: cs.takeWhile (fun d => !isSpaceCh d))
      :: splitWS (cs.dropWhile (fun d => !isSpaceCh d))
  termination_by s => s.length
  decreasing_by
  · simp
  · have h := (List.dropWhile_sublist (l := cs) (p := fun d => !isSpaceCh d)).length_le
    simp
    omega

/-- The deduplication loop of `playfair_create_matrix` (`seen` set). -/
def pfDedupAux (seen : Str) : Str → Str
  | [] => []
  | c :: cs => if c ∈ seen then pfDedupAux seen cs else c :: pfDedupAux (c :: seen) cs

/-- The 25-letter Playfair alphabet "ABCDEFGHIKLMNOPQRSTUVWXYZ" (no J). -/
def pfAlphabet : Str :=
  [65, 66, 67, 68, 69, 70, 71, 72, 73, 75, 76, 77, 78,
   79, 80, 81, 82, 83, 84, 85, 86, 87, 88, 89, 90]

/-- `playfair_create_matrix`, kept in the flat row-major form `matrix_str`
(the code slices this 25-character string into 5 rows; cell `(i, j)` is
index `i*5 + j`). -/
def playfair_create_matrix (key : Str) : Str :=
  let ku := pfDedupAux [] (pfClean key)
  ku ++ pfAlphabet.filter (fun c => !(ku.contains c))

/-- `playfair_find_position`: first row-major match, `(0, 0)` if absent. -/
def pfFindPos (m : Str) (c : Nat) : Nat × Nat :=
  if c ∈ m then (m.indexOf c / 5, m.indexOf c % 5) else (0, 0)

/-- `playfair_encrypt_pair`. -/
def pfEncPair (m : Str) (p : Str) : Str :=
  if p.length < 2 then p
  else
    let c₁ := p.getD 0 0
    let c₂ := p.getD 1 0
    let q₁ := pfFindPos m c₁
    let q₂ := pfFindPos m c₂
    if q₁.1 = q₂.1 then
      [m.getD (q₁.1 * 5 + (q₁.2 + 1) % 5) 0, m.getD (q₂.1 * 5 + (q₂.2 + 1) % 5) 0]
    else if q₁.2 = q₂.2 then
      [m.getD ((q₁.1 + 1) % 5 * 5 + q₁.2) 0, m.getD ((q₂.1 + 1) % 5 * 5 + q₂.2) 0]
    else
      [m.getD (q₁.1 * 5 + q₂.2) 0, m.getD (q₂.1 * 5 + q₁.2) 0]

/-- `playfair_decrypt_pair` (Python `(col - 1) % 5` is floor-mod, hence the
`Int` round-trip). -/
def pfDecPair (m : Str) (p : Str) : Str :=
  if p.length < 2 then p
  else
    let c₁ := p.getD 0 0
    let c₂ := p.getD 1 0
    let q₁ := pfFindPos m c₁
    let q₂ := pfFindPos m c₂
    if q₁.1 = q₂.1 then
      [m.getD (q₁.1 * 5 + (((q₁.2 : Int) - 1) % 5).toNat) 0,
       m.getD (q₂.1 * 5 + (((q₂.2 : Int) - 1) % 5).toNat) 0]
    else if q₁.2 = q₂.2 then
      [m.getD ((((q₁.1 : Int) - 1) % 5).toNat * 5 + q₁.2) 0,
       m.getD ((((q₂.1 : Int) - 1) % 5).toNat * 5 + q₂.2) 0]
    else
      [m.getD (q₁.1 * 5 + q₂.2) 0, m.getD (q₂.1 * 5 + q₁.2) 0]

def playfair_encrypt (text key : Str) : Str :=
  if key = [] ∨ text = [] then text
  else
    let m := playfair_create_matrix key
    let pairs := splitWS (playfair_prepare_text text)
    List.flatten (pairs.map (fun p => if p.length = 2 then pfEncPair m p else p))

/-- Fueled chunking (Python `for i in range(0, len(s), n)` slicing `s[i:i+n]`);
the fuel only realises termination, `length s` is always enough for `n ≥ 1`. -/
def chunksOfAux (n : Nat) : Nat → Str → List Str
  | 0, _ => []
  | _, [] => []
  | fuel + 1, l => l.take n :: chunksOfAux n fuel (l.drop n)

def chunksOf (n : Nat) (l : Str) : List Str :=
  if n = 0 then [] else chunksOfAux n l.length l

/-- The re-padding step of `playfair_decrypt`: an odd-length cleaned
ciphertext gets an 'X' appended before pairing. -/
def pfPad (clean : Str) : Str :=
  if clean.length % 2 ≠ 0 then clean ++ [88] else clean

def playfair_decrypt (cipher key : Str) : Str :=
  if key = [] ∨ cipher = [] then cipher
  else
    let m := playfair_create_matrix key
    let padded := pfPad ((cipher.filter isAlpha).map toUp)
    List.flatten ((chunksOf 2 padded).map
      (fun p => if p.length = 2 then pfDecPair m p else p))

/- Chunking lemmas. -/

lemma chunksOfAux_nil (n : Nat) : ∀ f, chunksOfAux n f [] = [] := by
  intro f
  cases f <;> rfl

lemma chunksOfAux_congr (n : Nat) (hn : n ≠ 0) : ∀ (f₁ f₂ : Nat) (l : Str),
    l.length ≤ f₁ → l.length ≤ f₂ → chunksOfAux n f₁ l = chunksOfAux n f₂ l := by
  intro f₁
  induction f₁ with
  | zero =>
    intro f₂ l h1 _
    have : l = [] := by
      cases l with
      | nil => rfl
      | cons c cs => simp at h1
    subst this
    rw [chunksOfAux_nil, chunksOfAux_nil]
  | succ f ih =>
    intro f₂ l h1 h2
    cases l with
    | nil => rw [chunksOfAux_nil, chunksOfAux_nil]
    | cons c cs =>
      match f₂, h2 with
      | g + 1, h2 =>
        show (c :: cs).take n :: chunksOfAux n f ((c :: cs).drop n)
            = (c :: cs).take n :: chunksOfAux n g ((c :: cs).drop n)
        have hd : ((c :: cs).drop n).length = cs.length + 1 - n := by
          simp [List.length_drop]
        rw [ih g ((c :: cs).drop n) (by simp at h1 ⊢; omega) (by simp at h2 ⊢; omega)]

lemma chunksOf_nil (n : Nat) : chunksOf n [] = [] := by
  unfold chunksOf
  split_ifs <;> rfl

lemma chunksOf_two_cons (a b : Nat) (t : Str) :
    chunksOf 2 (a :: b :: t) = [a, b] :: chunksOf 2 t := by
  unfold chunksOf
  rw [if_neg (by omega), if_neg (by omega)]
  show (a :: b :: t).take 2 :: chunksOfAux 2 (t.length + 1) ((a :: b :: t).drop 2)
      = [a, b] :: chunksOfAux 2 t.length t
  rw [show (a :: b :: t).drop 2 = t from rfl, show (a :: b :: t).take 2 = [a, b] from rfl]
  rw [chunksOfAux_congr 2 (by omega) (t.length + 1) t.length t (by omega) le_rfl]

/-- Induction on even-length strings, two characters at a time. -/
lemma evenListInd {P : Str → Prop} (h0 : P [])
    (hstep : ∀ a b t, t.length % 2 = 0 → P t → P (a :: b :: t)) :
    ∀ l : Str, l.length % 2 = 0 → P l := by
  have key : ∀ (n : Nat) (l : Str), l.length ≤ n → l.length % 2 = 0 → P l := by
    intro n
    induction n with
    | zero =>
      intro l h1 h2
      have : l = [] := by
        cases l with
        | nil => rfl
        | cons c cs => simp at h1
      subst this
      exact h0
    | succ n ih =>
      intro l h1 h2
      match l with
      | [] => exact h0
      | [a] => simp at h2
      | a :: b :: t =>
        simp only [List.length_cons] at h1 h2
        exact hstep a b t (by omega) (ih t (by omega) (by omega))
  intro l hl
  exact key l.length l le_rfl hl

/- Facts about `pfPairs` and `splitWS`. -/

lemma pfPairs_shape : ∀ s : Str, ∀ p ∈ pfPairs s,
    p.length = 2 ∧ (p.getD 0 0 = p.getD 1 0 → p.getD 1 0 = 88) := by
  intro s
  induction s using pfPairs.induct with
  | case1 => intro p hp; simp [pfPairs] at hp
  | case2 a =>
    intro p hp
    simp only [pfPairs, List.mem_singleton] at hp
    subst hp
    exact ⟨rfl, fun _ => rfl⟩
  | case3 b rest ih =>
    intro p hp
    rw [pfPairs, if_pos rfl] at hp
    rcases List.mem_cons.mp hp with hp | hp
    · subst hp
      exact ⟨rfl, fun _ => rfl⟩
    · exact ih p hp
  | case4 a b rest hab ih =>
    intro p hp
    rw [pfPairs, if_neg hab] at hp
    rcases List.mem_cons.mp hp with hp | hp
    · subst hp
      exact ⟨rfl, fun h => absurd h hab⟩
    · exact ih p hp

lemma pfPairs_entries : ∀ s : Str, ∀ p ∈ pfPairs s, ∀ c ∈ p, c ∈ s ∨ c = 88 := by
  intro s
  induction s using pfPairs.induct with
  | case1 => intro p hp; simp [pfPairs] at hp
  | case2 a =>
    intro p hp c hc
    simp only [pfPairs, List.mem_singleton] at hp
    subst hp
    rcases List.mem_cons.mp hc with h | h
    · exact Or.inl (by simp [h])
    · simp only [List.mem_singleton] at h
      exact Or.inr h
  | case3 b rest ih =>
    intro p hp c hc
    rw [pfPairs, if_pos rfl] at hp
    rcases List.mem_cons.mp hp with hp | hp
    · subst hp
      rcases List.mem_cons.mp hc with h | h
      · exact Or.inl (by simp [h])
      · simp only [List.mem_singleton] at h
        exact Or.inr h
    · rcases ih p hp c hc with h | h
      · exact Or.inl (List.mem_cons_of_mem b h)
      · exact Or.inr h
  | case4 a b rest hab ih =>
    intro p hp c hc
    rw [pfPairs, if_neg hab] at hp
    rcases List.mem_cons.mp hp with hp | hp
    · subst hp
      rcases List.mem_cons.mp hc with h | h
      · exact Or.inl (by simp [h])
      · simp only [List.mem_singleton] at h
        exact Or.inl (by simp [h])
    · rcases ih p hp c hc with h | h
      · exact Or.inl (by simp [List.mem_cons]; tauto)
      · exact Or.inr h

lemma pfPairs_of_chain : ∀ s : Str, List.Chain' (fun a b => a ≠ b) s →
    pfPairs s = chunksOf 2 (s ++ if s.length % 2 = 1 then [88] else []) := by
  intro s
  induction s using pfPairs.induct with
  | case1 =>
    intro _
    simp [pfPairs, chunksOf_nil]
  | case2 a =>
    intro _
    show [[a, 88]] = chunksOf 2 ([a] ++ [88])
    rw [show ([a] ++ [88] : Str) = a :: 88 :: [] by rfl, chunksOf_two_cons, chunksOf_nil]
  | case3 b rest ih =>
    intro hch
    exact absurd (List.chain'_cons.mp hch).1 (by simp)
  | case4 a b rest hab ih =>
    intro hch
    rw [pfPairs, if_neg hab]
    have hch2 : List.Chain' (fun a b => a ≠ b) rest := (List.chain'_cons.mp hch).2.tail
    rw [ih hch2]
    have hpad : (if (a :: b :: rest).length % 2 = 1 then ([88] : Str) else [])
        = (if rest.length % 2 = 1 then ([88] : Str) else []) := by
      simp only [List.length_cons]
      by_cases h : rest.length % 2 = 1
      · rw [if_pos h, if_pos (by omega)]
      · rw [if_neg h, if_neg (by omega)]
    rw [List.cons_append, List.cons_append, hpad, chunksOf_two_cons]

lemma isSpaceCh_false_of_ge {c : Nat} (h : 33 ≤ c) : isSpaceCh c = false := by
  simp only [isSpaceCh, Bool.or_eq_false_iff, decide_eq_false_iff_not]
  omega

lemma takeWhile_all_app (x : Nat) (l₂ : Str) (hx : isSpaceCh x = true) :
    ∀ l₁ : Str, (∀ c ∈ l₁, isSpaceCh c = false) →
      (l₁ ++ x :: l₂).takeWhile (fun d => !isSpaceCh d) = l₁ := by
  intro l₁
  induction l₁ with
  | nil =>
    intro _
    simp [List.takeWhile_cons, hx]
  | cons c cs ih =>
    intro h
    have hc : isSpaceCh c = false := h c (by simp)
    simp only [List.cons_append, List.takeWhile_cons, hc, Bool.not_false, if_true]
    rw [ih (fun d hd => h d (by simp [hd]))]

lemma dropWhile_all_app (x : Nat) (l₂ : Str) (hx : isSpaceCh x = true) :
    ∀ l₁ : Str, (∀ c ∈ l₁, isSpaceCh c = false) →
      (l₁ ++ x :: l₂).dropWhile (fun d => !isSpaceCh d) = x :: l₂ := by
  intro l₁
  induction l₁ with
  | nil =>
    intro _
    simp [List.dropWhile_cons, hx]
  | cons c cs ih =>
    intro h
    have hc : isSpaceCh c = false := h c (by simp)
    simp only [List.cons_append, List.dropWhile_cons, hc, Bool.not_false, if_true]
    exact ih (fun d hd => h d (by simp [hd]))

lemma takeWhile_all : ∀ l : Str, (∀ c ∈ l, isSpaceCh c = false) →
    l.takeWhile (fun d => !isSpaceCh d) = l := by
  intro l
  induction l with
  | nil => intro _; rfl
  | cons c cs ih =>
    intro h
    have hc : isSpaceCh c = false := h c (by simp)
    simp only [List.takeWhile_cons, hc, Bool.not_false, if_true]
    rw [ih (fun d hd => h d (by simp [hd]))]

lemma dropWhile_all : ∀ l : Str, (∀ c ∈ l, isSpaceCh c = false) →
    l.dropWhile (fun d => !isSpaceCh d) = [] := by
  intro l
  induction l with
  | nil => intro _; rfl
  | cons c cs ih =>
    intro h
    have hc : isSpaceCh c = false := h c (by simp)
    simp only [List.dropWhile_cons, hc, Bool.not_false, if_true]
    exact ih (fun d hd => h d (by simp [hd]))

lemma splitWS_token (p : Str) (hne : p ≠ []) (h : ∀ c ∈ p, isSpaceCh c = false) :
    splitWS p = [p] := by
  match p with
  | c :: cs =>
    have hc : isSpaceCh c = false := h c (by simp)
    rw [splitWS, if_neg (by simp [hc])]
    rw [takeWhile_all cs (fun d hd => h d (by simp [hd]))]
    rw [dropWhile_all cs (fun d hd => h d (by simp [hd]))]
    rw [show splitWS [] = [] from by rw [splitWS]]

lemma splitWS_app (p rest : Str) (hne : p ≠ []) (h : ∀ c ∈ p, isSpaceCh c = false) :
    splitWS (p ++ 32 :: rest) = p :: splitWS rest := by
  match p with
  | c :: cs =>
    have hc : isSpaceCh c = false := h c (by simp)
    rw [List.cons_append, splitWS, if_neg (by simp [hc])]
    rw [takeWhile_all_app 32 rest rfl cs (fun d hd => h d (by simp [hd]))]
    rw [dropWhile_all_app 32 rest rfl cs (fun d hd => h d (by simp [hd]))]
    rw [splitWS, if_pos (show isSpaceCh 32 = true from rfl)]

lemma splitWS_joinSpace : ∀ ps : List Str,
    (∀ p ∈ ps, p ≠ [] ∧ ∀ c ∈ p, isSpaceCh c = false) →
    splitWS (joinSpace ps) = ps := by
  intro ps
  induction ps with
  | nil =>
    intro _
    rw [show joinSpace [] = [] from rfl, show splitWS [] = [] from by rw [splitWS]]
  | cons p ps ih =>
    intro h
    cases ps with
    | nil =>
      show splitWS (joinSpace [p]) = [p]
      rw [show joinSpace [p] = p from rfl]
      exact splitWS_token p (h p (by simp)).1 (h p (by simp)).2
    | cons q qs =>
      rw [show joinSpace (p :: q :: qs) = p ++ 32 :: joinSpace (q :: qs) from rfl]
      rw [splitWS_app p (joinSpace (q :: qs)) (h p (by simp)).1 (h p (by simp)).2]
      rw [ih (fun r hr => h r (by simp [hr]))]

lemma pfClean_bounds (text : Str) : ∀ c ∈ pfClean text, 65 ≤ c ∧ c ≤ 90 := by
  intro c hc
  simp only [pfClean, List.mem_map, List.mem_filter] at hc
  obtain ⟨e, ⟨d, ⟨hd, hda⟩, rfl⟩, rfl⟩ := hc
  have hb := toUp_bounds hda
  split_ifs <;> omega

lemma splitWS_prepare (text : Str) :
    splitWS (playfair_prepare_text text) = pfPairs (pfClean text) := by
  unfold playfair_prepare_text
  dsimp only
  by_cases h0 : pfClean text = []
  · rw [if_pos h0, h0]
    rw [show splitWS [] = [] from by rw [splitWS]]
    rfl
  · rw [if_neg h0]
    apply splitWS_joinSpace
    intro p hp
    have hshape := pfPairs_shape _ p hp
    constructor
    · intro hpe
      rw [hpe] at hshape
      simp at hshape
    · intro c hcp
      rcases pfPairs_entries _ p hp c hcp with hcs | hc88
      · have hb := pfClean_bounds text c hcs
        exact isSpaceCh_false_of_ge (by omega)
      · subst hc88
        rfl

/-- C5 (amended): in Playfair text preparation the filler is always 'X'
(never 'Y', even for an identical pair "XX"): every digraph has exactly two
letters; a digraph with two identical letters can only be an 'X' followed by
the filler 'X'; and on a cleaned text with no two adjacent identical letters
the preparation is exactly the pairing of the cleaned text with 'X' appended
when its length is odd (an identical adjacent pair instead gets 'X' inserted
after its first letter, which can leave no trailing filler even for an
odd-length cleaned text). -/
theorem claim_C5_playfair_prepare (text : Str) :
    (∀ p ∈ splitWS (playfair_prepare_text text),
        p.length = 2 ∧ (p.getD 0 0 = p.getD 1 0 → p.getD 1 0 = 88)) ∧
    (List.Chain' (fun a b => a ≠ b) (pfClean text) →
      splitWS (playfair_prepare_text text)
        = chunksOf 2 (pfClean text
            ++ if (pfClean text).length % 2 = 1 then [88] else [])) := by
  rw [splitWS_prepare]
  exact ⟨pfPairs_shape _, pfPairs_of_chain _⟩

/-- Witness for C5 at text `"Hi"`. -/
theorem claim_C5_witness :
    List.Chain' (fun a b => a ≠ b) (pfClean [72, 105]) ∧
    splitWS (playfair_prepare_text [72, 105])
      = chunksOf 2 (pfClean [72, 105]
          ++ if (pfClean [72, 105]).length % 2 = 1 then [88] else []) := by
  have hcl : pfClean [72, 105] = [72, 73] := by decide
  have hch : List.Chain' (fun a b => a ≠ b) (pfClean [72, 105]) := by
    rw [hcl]
    simp
  exact ⟨hch, (claim_C5_playfair_prepare [72, 105]).2 hch⟩

/-- Counterexample to C5 as stated: for the text `"XX"` the inserted filler
is 'X' (88), not 'Y' (89) — the prepared text is `"XX XX"` and contains no
'Y' at all. -/
theorem claim_C5_counterexample :
    playfair_prepare_text [88, 88] = [88, 88, 32, 88, 88] ∧
    (89 : Nat) ∉ playfair_prepare_text [88, 88] := by
  constructor <;> decide

/- C2: playfair_decrypt re-pads but does not trim. -/

lemma pfDecPair_length (m p : Str) (hp : p.length = 2) : (pfDecPair m p).length = 2 := by
  unfold pfDecPair
  rw [if_neg (by omega)]
  dsimp only
  split_ifs <;> rfl

lemma pfPad_even (l : Str) : (pfPad l).length % 2 = 0 := by
  unfold pfPad
  split_ifs with h
  · simp only [List.length_append, List.length_cons, List.length_nil]
    omega
  · omega

lemma pfPad_entries (cipher : Str) :
    ∀ c ∈ pfPad ((cipher.filter isAlpha).map toUp), 65 ≤ c ∧ c ≤ 90 := by
  intro c hc
  have base : ∀ d ∈ (cipher.filter isAlpha).map toUp, 65 ≤ d ∧ d ≤ 90 := by
    intro d hd
    simp only [List.mem_map, List.mem_filter] at hd
    obtain ⟨e, ⟨he, hea⟩, rfl⟩ := hd
    exact toUp_bounds hea
  unfold pfPad at hc
  split_ifs at hc with h
  · rcases List.mem_append.mp hc with h1 | h1
    · exact base c h1
    · simp only [List.mem_singleton] at h1
      omega
  · exact base c hc

lemma clean_idem : ∀ l : Str, (∀ c ∈ l, 65 ≤ c ∧ c ≤ 90) →
    (l.filter isAlpha).map toUp = l := by
  intro l
  induction l with
  | nil => intro _; rfl
  | cons c cs ih =>
    intro h
    have hb := h c (by simp)
    have ha : isAlpha c = true := isAlpha_iff.mpr (Or.inl hb)
    rw [List.filter_cons, if_pos ha, List.map_cons, toUp_of_upper hb]
    rw [ih (fun d hd => h d (by simp [hd]))]

lemma flatten_chunks2_len (f : Str → Str) (hf : ∀ p : Str, p.length = 2 → (f p).length = 2) :
    ∀ l : Str, l.length % 2 = 0 →
      (List.flatten ((chunksOf 2 l).map
        (fun p => if p.length = 2 then f p else p))).length = l.length := by
  apply evenListInd
  · simp [chunksOf_nil]
  · intro a b t _ ih
    rw [chunksOf_two_cons, List.map_cons, List.flatten_cons]
    rw [if_pos (show ([a, b] : Str).length = 2 from rfl)]
    simp only [List.length_append, List.length_cons]
    rw [hf [a, b] rfl, ih]
    omega

/-- C2 (amended): for every non-empty key, `playfair_decrypt` re-pads an
odd-length letters-only ciphertext with the filler 'X' before splitting into
pairs — decrypting a ciphertext is the same as decrypting its cleaned,
'X'-padded form — but it does NOT trim trailing filler letters: the output
has exactly the length of the padded cleaned ciphertext. -/
theorem claim_C2_playfair_decrypt_repad (cipher key : Str) (hk : key ≠ []) :
    playfair_decrypt cipher key
      = playfair_decrypt (pfPad ((cipher.filter isAlpha).map toUp)) key ∧
    (playfair_decrypt cipher key).length
      = (pfPad ((cipher.filter isAlpha).map toUp)).length := by
  have hpad_even : ∀ l : Str, l.length % 2 = 0 → pfPad l = l := by
    intro l h
    unfold pfPad
    rw [if_neg (by omega)]
  by_cases hc : cipher = []
  · subst hc
    have hd : playfair_decrypt ([] : Str) key = [] := by
      rw [playfair_decrypt, if_pos (Or.inr rfl)]
    rw [show ((([] : Str).filter isAlpha).map toUp) = ([] : Str) from rfl]
    rw [hpad_even [] rfl, hd]
    exact ⟨rfl, rfl⟩
  · by_cases hcl : (cipher.filter isAlpha).map toUp = []
    · constructor
      · rw [playfair_decrypt, if_neg (by simp [hk, hc]), hcl]
        rw [hpad_even [] rfl]
        simp only [chunksOf_nil, List.map_nil, List.flatten_nil]
        rw [playfair_decrypt, if_pos (Or.inr rfl)]
      · rw [playfair_decrypt, if_neg (by simp [hk, hc]), hcl]
        rw [hpad_even [] rfl]
        simp only [chunksOf_nil, List.map_nil, List.flatten_nil, List.length_nil]
    · have hpne : pfPad ((cipher.filter isAlpha).map toUp) ≠ [] := by
        unfold pfPad
        split_ifs
        · simp
        · exact hcl
      have hinner :
          pfPad (((pfPad ((cipher.filter isAlpha).map toUp)).filter isAlpha).map toUp)
            = pfPad ((cipher.filter isAlpha).map toUp) := by
        rw [clean_idem _ (pfPad_entries cipher)]
        exact hpad_even _ (pfPad_even _)
      constructor
      · rw [playfair_decrypt, if_neg (by simp [hk, hc])]
        rw [playfair_decrypt, if_neg (by simp [hk, hpne])]
        rw [hinner]
      · rw [playfair_decrypt, if_neg (by simp [hk, hc])]
        exact flatten_chunks2_len (pfDecPair (playfair_create_matrix key))
          (pfDecPair_length (playfair_create_matrix key)) _
          (pfPad_even ((cipher.filter isAlpha).map toUp))

/-- Witness for C2 at the odd-length ciphertext `"CVD"` and key `"A"`. -/
theorem claim_C2_witness :
    ([65] : Str) ≠ [] ∧
    (playfair_decrypt [67, 86, 68] [65]
        = playfair_decrypt (pfPad ((([67, 86, 68] : Str).filter isAlpha).map toUp)) [65] ∧
      (playfair_decrypt [67, 86, 68] [65]).length
        = (pfPad ((([67, 86, 68] : Str).filter isAlpha).map toUp)).length) :=
  ⟨by decide, claim_C2_playfair_decrypt_repad [67, 86, 68] [65] (by decide)⟩

/-- Counterexample to C2 as stated: decrypting `"CV"` with key `"A"` yields
`"AX"`, whose trailing filler letter 'X' is not trimmed (the trimmed output
the claim describes would be `"A"`). -/
theorem claim_C2_counterexample :
    playfair_decrypt [67, 86] [65] = [65, 88] ∧
    playfair_decrypt [67, 86] [65] ≠ [65] := by
  constructor <;> decide

/- ----------------------------------------------------------------
   Vernam  (src/app.py lines 323-365)
   ---------------------------------------------------------------- -/

def vernam_encrypt (text key : Str) : Str :=
  if key = [] then text
  else
    let ke := (List.flatten (List.replicate (text.length / key.length + 1) key)).take text.length
    (List.zip text ke).map (fun pc => pc.1 ^^^ pc.2)

def vernam_decrypt (cipher key : Str) : Str := vernam_encrypt cipher key

/- ----------------------------------------------------------------
   Hill  (src/app.py lines 862-1098)
   ---------------------------------------------------------------- -/

/-- The key-letter string of `hill_create_matrix`: letters of the key,
uppercased, padded with 'A' or truncated to `size*size`. -/
def hillKC (key : Str) (size : Nat) : Str :=
  let kc := (key.filter isAlpha).map toUp
  if kc.length < size * size then kc ++ List.replicate (size * size - kc.length) 65
  else kc.take (size * size)

def hill_create_matrix (key : Str) (size : Nat) : List (List Int) :=
  (List.range size).map (fun i =>
    (List.range size).map (fun j => ((hillKC key size).getD (i * size + j) 0 : Int) - 65))

def hill_matrix_determinant (m : List (List Int)) : Int :=
  if m.length = 2 then
    ((m.getD 0 []).getD 0 0 * (m.getD 1 []).getD 1 0
      - (m.getD 0 []).getD 1 0 * (m.getD 1 []).getD 0 0) % 26
  else 0

/-- `hill_matrix_inverse`; `none` models the raised `ValueError`. -/
def hill_matrix_inverse (m : List (List Int)) : Option (List (List Int)) :=
  match mod_inverse (hill_matrix_determinant m) 26 with
  | none => none
  | some di =>
    some [[(di * (m.getD 1 []).getD 1 0) % 26, (-di * (m.getD 0 []).getD 1 0) % 26],
          [(-di * (m.getD 1 []).getD 0 0) % 26, (di * (m.getD 0 []).getD 0 0) % 26]]

def hill_multiply_matrix_vector (m : List (List Int)) (v : List Int) : List Int :=
  m.map (fun row => ((List.range v.length).map (fun i => row.getD i 0 * v.getD i 0)).sum % 26)

/-- The per-block loop shared by `hill_encrypt` and `hill_decrypt`: letters
to 0-25 vectors, multiply by the matrix mod 26, back to letters. -/
def hillBlocks (m : List (List Int)) (size : Nat) (clean : Str) : Str :=
  List.flatten ((chunksOf size clean).map (fun block =>
    (hill_multiply_matrix_vector m (block.map (fun ch => (ch : Int) - 65))).map
      (fun code => (code + 65).toNat)))

/-- The position-restoration loop of `hill_encrypt`/`hill_decrypt`: walk the
original text, substituting the next transformed letter (case-restored) at
each letter position while transformed letters remain. -/
def reinterleave : Str → Str → Str
  | [], _ => []
  | c :: cs, rs =>
    if isAlpha c then
      match rs with
      | r :: rs2 => (if isUpper c then r else toLow r) :: reinterleave cs rs2
      | [] => c :: reinterleave cs []
    else c :: reinterleave cs rs

def hill_encrypt (text key : Str) (size : Int) : Str :=
  let sz := if size < 2 ∨ 3 < size then 2 else size.toNat
  let m := hill_create_matrix key sz
  let clean := (text.filter isAlpha).map toUp
  if clean = [] then text
  else
    let padded := if clean.length % sz ≠ 0
      then clean ++ List.replicate (sz - clean.length % sz) 88 else clean
    reinterleave text (hillBlocks m sz padded)

/-- `hill_decrypt`; `none` models the `ValueError` raised when the key matrix
is not invertible (checked before the ciphertext is touched), and the final
`rstrip("X")` removes trailing padding letters. -/
def hill_decrypt (cipher key : Str) (size : Int) : Option Str :=
  let sz := if size < 2 ∨ 3 < size then 2 else size.toNat
  match hill_matrix_inverse (hill_create_matrix key sz) with
  | none => none
  | some mi =>
    let clean := (cipher.filter isAlpha).map toUp
    if clean = [] then some cipher
    else
      let padded := if clean.length % sz ≠ 0
        then clean ++ List.replicate (sz - clean.length % sz) 88 else clean
      some (rstripX (reinterleave cipher (hillBlocks mi sz padded)))

/- Bezout property of gcd_extended, and correctness of mod_inverse. -/

lemma gcd_extended_bezout : ∀ (n : Nat) (a b : Int), a.natAbs ≤ n →
    (gcd_extended a b).1
      = a * (gcd_extended a b).2.1 + b * (gcd_extended a b).2.2 := by
  intro n
  induction n with
  | zero =>
    intro a b hn
    have ha0 : a = 0 := by omega
    subst ha0
    rw [gcd_extended_zero]
    ring
  | succ n ih =>
    intro a b hn
    by_cases ha0 : a = 0
    · subst ha0
      rw [gcd_extended_zero]
      ring
    · have hfm := fmod_natAbs_lt b ha0
      have hIH := ih (Int.fmod b a) a (by omega)
      rw [gcd_extended_rec b ha0]
      dsimp only
      have hfd : Int.fmod b a = b - a * Int.fdiv b a := by
        have h := Int.fmod_add_fdiv b a
        linarith
      rw [hIH, hfd]
      ring

/-- When `mod_inverse a 26` succeeds it returns a modular inverse in `[0, 26)`. -/
lemma mod_inverse_spec (a : Int) {e : Int} (he : mod_inverse a 26 = some e) :
    (a * e) % 26 = 1 ∧ 0 ≤ e ∧ e < 26 := by
  unfold mod_inverse at he
  dsimp only at he
  by_cases hg : (gcd_extended a 26).1 ≠ 1
  · rw [if_pos hg] at he
    exact absurd he (by simp)
  · rw [if_neg hg] at he
    have hg1 : (gcd_extended a 26).1 = 1 := not_not.mp hg
    have hbez := gcd_extended_bezout a.natAbs a 26 le_rfl
    rw [hg1] at hbez
    set x := (gcd_extended a 26).2.1 with hx
    set y := (gcd_extended a 26).2.2 with hy
    have hee : e = Int.fmod (Int.fmod x 26 + 26) 26 := by
      injection he with h1
      exact h1.symm
    rw [Int.fmod_eq_emod _ (by norm_num), Int.fmod_eq_emod _ (by norm_num)] at hee
    have hax : a * x = 1 - 26 * y := by linarith
    have hb1 := emod26_bounds x
    have hb2 := emod26_bounds (x % 26 + 26)
    refine ⟨?_, by omega, by omega⟩
    have h1 : e % 26 = x % 26 := by omega
    calc (a * e) % 26 = (a % 26) * (e % 26) % 26 := by rw [Int.mul_emod]
      _ = (a % 26) * (x % 26) % 26 := by rw [h1]
      _ = (a * x) % 26 := by rw [← Int.mul_emod]
      _ = 1 := by rw [hax]; omega

/- The 2x2 adjugate-inverse identity mod 26. -/

lemma zmodCast_emod (x : Int) : (((x % 26 : Int) : ZMod 26)) = ((x : Int) : ZMod 26) := by
  have h : (x % 26 : Int) = x - 26 * (x / 26) := by
    have h2 := Int.emod_add_ediv x 26
    linarith
  rw [h]
  push_cast
  have h26 : (26 : ZMod 26) = 0 := by decide
  rw [h26]
  ring

lemma emod_eq_of_zmod {x y : Int} (h : ((x : Int) : ZMod 26) = ((y : Int) : ZMod 26))
    (hx : 0 ≤ x ∧ x < 26) (hy : 0 ≤ y ∧ y < 26) : x = y := by
  have h2 := (ZMod.intCast_eq_intCast_iff' x y 26).mp h
  simp only [Nat.cast_ofNat] at h2
  omega

lemma hill_multiply_pair (r₀ r₁ : List Int) (x y : Int) :
    hill_multiply_matrix_vector [r₀, r₁] [x, y]
      = [(r₀.getD 0 0 * x + (r₀.getD 1 0 * y + 0)) % 26,
         (r₁.getD 0 0 * x + (r₁.getD 1 0 * y + 0)) % 26] := rfl

lemma hill_pair_identity (a b c d di : Int)
    (hdi : (((a * d - b * c) % 26) * di) % 26 = 1)
    (x y : Int) (hx : 0 ≤ x ∧ x < 26) (hy : 0 ≤ y ∧ y < 26) :
    hill_multiply_matrix_vector
        [[(di * d) % 26, (-di * b) % 26], [(-di * c) % 26, (di * a) % 26]]
        [(a * x + (b * y + 0)) % 26, (c * x + (d * y + 0)) % 26] = [x, y] := by
  rw [hill_multiply_pair]
  simp only [List.getD_cons_zero, List.getD_cons_succ]
  have hdi2 : (((a : Int) : ZMod 26) * ((d : Int) : ZMod 26)
        - ((b : Int) : ZMod 26) * ((c : Int) : ZMod 26)) * ((di : Int) : ZMod 26) = 1 := by
    have h0 : ((((a * d - b * c) % 26 * di) % 26 : Int) : ZMod 26) = ((1 : Int) : ZMod 26) := by
      rw [hdi]
    rw [zmodCast_emod, Int.cast_mul, zmodCast_emod, Int.cast_one] at h0
    push_cast at h0
    exact h0
  congr 1
  · refine emod_eq_of_zmod ?_ (emod26_bounds _) hx
    rw [zmodCast_emod]
    push_cast [zmodCast_emod]
    linear_combination ((x : Int) : ZMod 26) * hdi2
  congr 1
  · refine emod_eq_of_zmod ?_ (emod26_bounds _) hy
    rw [zmodCast_emod]
    push_cast [zmodCast_emod]
    linear_combination ((y : Int) : ZMod 26) * hdi2

/- Hill pipeline lemmas. -/

lemma hillBlocks_nil (m : List (List Int)) (sz : Nat) : hillBlocks m sz [] = [] := by
  unfold hillBlocks
  rw [chunksOf_nil]
  rfl

lemma hillBlocks_two_cons (m : List (List Int)) (u v : Nat) (t : Str) :
    hillBlocks m 2 (u :: v :: t)
      = (hill_multiply_matrix_vector m [(u : Int) - 65, (v : Int) - 65]).map
          (fun code => (code + 65).toNat)
        ++ hillBlocks m 2 t := by
  unfold hillBlocks
  rw [chunksOf_two_cons, List.map_cons, List.flatten_cons]
  rfl

lemma hill_multiply_length (m : List (List Int)) (v : List Int) :
    (hill_multiply_matrix_vector m v).length = m.length := by
  unfold hill_multiply_matrix_vector
  simp

lemma hill_multiply_entries (m : List (List Int)) (v : List Int) :
    ∀ x ∈ hill_multiply_matrix_vector m v, 0 ≤ x ∧ x < 26 := by
  intro x hx
  unfold hill_multiply_matrix_vector at hx
  simp only [List.mem_map] at hx
  obtain ⟨row, _, rfl⟩ := hx
  exact emod26_bounds _

lemma hillBlocks_length (m : List (List Int)) (hm : m.length = 2) :
    ∀ U : Str, U.length % 2 = 0 → (hillBlocks m 2 U).length = U.length := by
  apply evenListInd
  · rw [hillBlocks_nil]
  · intro u v t _ ih
    rw [hillBlocks_two_cons]
    simp only [List.length_append, List.length_map, List.length_cons]
    rw [hill_multiply_length, hm, ih]
    omega

lemma hillBlocks_entries (m : List (List Int)) (sz : Nat) (U : Str) :
    ∀ ch ∈ hillBlocks m sz U, 65 ≤ ch ∧ ch ≤ 90 := by
  intro ch hch
  unfold hillBlocks at hch
  simp only [List.mem_flatten, List.mem_map] at hch
  obtain ⟨blk, ⟨block, hbm, rfl⟩, hch⟩ := hch
  simp only [List.mem_map] at hch
  obtain ⟨code, hcode, rfl⟩ := hch
  have hb := hill_multiply_entries m _ code hcode
  omega

lemma hill_create_matrix_two (key : Str) :
    hill_create_matrix key 2
      = [[((hillKC key 2).getD 0 0 : Int) - 65, ((hillKC key 2).getD 1 0 : Int) - 65],
         [((hillKC key 2).getD 2 0 : Int) - 65, ((hillKC key 2).getD 3 0 : Int) - 65]] := rfl

lemma hill_det_two (a b c d : Int) :
    hill_matrix_determinant [[a, b], [c, d]] = (a * d - b * c) % 26 := rfl

lemma hill_inverse_two (a b c d di : Int)
    (hdi : mod_inverse ((a * d - b * c) % 26) 26 = some di) :
    hill_matrix_inverse [[a, b], [c, d]]
      = some [[(di * d) % 26, (-di * b) % 26], [(-di * c) % 26, (di * a) % 26]] := by
  unfold hill_matrix_inverse
  rw [hill_det_two, hdi]
  rfl

lemma hillBlocks_roundtrip (a b c d di : Int)
    (hdi : mod_inverse ((a * d - b * c) % 26) 26 = some di) :
    ∀ U : Str, U.length % 2 = 0 → ((∀ ch ∈ U, 65 ≤ ch ∧ ch ≤ 90) →
      hillBlocks [[(di * d) % 26, (-di * b) % 26], [(-di * c) % 26, (di * a) % 26]] 2
        (hillBlocks [[a, b], [c, d]] 2 U) = U) := by
  have hmul := (mod_inverse_spec _ hdi).1
  refine evenListInd ?_ ?_
  · intro _
    rw [hillBlocks_nil, hillBlocks_nil]
  · intro u v t ht ih hent
    have hu := hent u (by simp)
    have hv := hent v (by simp)
    rw [hillBlocks_two_cons, hill_multiply_pair]
    simp only [List.getD_cons_zero, List.getD_cons_succ]
    rw [List.map_cons, List.map_cons, List.map_nil]
    rw [List.cons_append, List.cons_append, List.nil_append]
    rw [hillBlocks_two_cons]
    have hc1 : (((a * ((u : Int) - 65) + (b * ((v : Int) - 65) + 0)) % 26 + 65).toNat : Int)
        - 65 = (a * ((u : Int) - 65) + (b * ((v : Int) - 65) + 0)) % 26 := by omega
    have hc2 : (((c * ((u : Int) - 65) + (d * ((v : Int) - 65) + 0)) % 26 + 65).toNat : Int)
        - 65 = (c * ((u : Int) - 65) + (d * ((v : Int) - 65) + 0)) % 26 := by omega
    rw [hc1, hc2]
    rw [hill_pair_identity a b c d di hmul ((u : Int) - 65) ((v : Int) - 65)
      (by omega) (by omega)]
    rw [List.map_cons, List.map_cons, List.map_nil]
    rw [show (((u : Int) - 65) + 65).toNat = u from by omega,
      show (((v : Int) - 65) + 65).toNat = v from by omega]
    rw [List.cons_append, List.cons_append, List.nil_append]
    rw [ih (fun ch hch => hent ch (by simp [hch]))]

/-- The case-restoration facts about `reinterleave` on all-letter input:
it is `zipWith` of the case-apply step, whose output is all letters, whose
uppercasing recovers the transformed letters, and which is undone by a second
application with the uppercased original. -/
lemma reinterleave_zip : ∀ (L rs : Str), (∀ ch ∈ L, isAlpha ch = true) →
    L.length ≤ rs.length →
    reinterleave L rs
      = List.zipWith (fun ch r => if isUpper ch then r else toLow r) L rs := by
  intro L
  induction L with
  | nil => intro rs _ _; rfl
  | cons c cs ih =>
    intro rs hal hlen
    match rs, hlen with
    | r :: rs2, hlen2 =>
      rw [reinterleave, List.zipWith_cons_cons]
      rw [if_pos (hal c (by simp))]
      simp only [List.length_cons] at hlen2
      rw [ih rs2 (fun ch hch => hal ch (by simp [hch])) (by omega)]

lemma zip_case_spec : ∀ (L E : Str), E.length = L.length →
    (∀ r ∈ E, 65 ≤ r ∧ r ≤ 90) → (∀ ch ∈ L, isAlpha ch = true) →
    (∀ ch ∈ List.zipWith (fun ch r => if isUpper ch then r else toLow r) L E,
        isAlpha ch = true) ∧
    (List.zipWith (fun ch r => if isUpper ch then r else toLow r) L E).map toUp = E ∧
    List.zipWith (fun ch r => if isUpper ch then r else toLow r)
      (List.zipWith (fun ch r => if isUpper ch then r else toLow r) L E)
      (L.map toUp) = L ∧
    (List.zipWith (fun ch r => if isUpper ch then r else toLow r) L E).length
      = L.length := by
  intro L
  induction L with
  | nil =>
    intro E hlen _ _
    have hE : E = [] := List.length_eq_zero.mp hlen
    subst hE
    exact ⟨by intro ch hch; simp at hch, rfl, rfl, rfl⟩
  | cons c cs ih =>
    intro E hlen hE hal
    match E, hlen with
    | r :: es, hlen =>
      have hr := hE r (by simp)
      have hc := hal c (by simp)
      simp only [List.length_cons] at hlen
      obtain ⟨ih1, ih2, ih3, ih4⟩ := ih es (by omega)
        (fun d hd => hE d (by simp [hd])) (fun ch hch => hal ch (by simp [hch]))
      by_cases hup : isUpper c = true
      · have hcu := isUpper_iff.mp hup
        refine ⟨?_, ?_, ?_, ?_⟩
        · intro ch hch
          rw [List.zipWith_cons_cons, if_pos hup] at hch
          rcases List.mem_cons.mp hch with h | h
          · subst h
            exact isAlpha_iff.mpr (Or.inl hr)
          · exact ih1 ch h
        · rw [List.zipWith_cons_cons, if_pos hup, List.map_cons, toUp_of_upper hr, ih2]
        · rw [List.zipWith_cons_cons, if_pos hup, List.map_cons, List.zipWith_cons_cons]
          rw [if_pos (isUpper_iff.mpr hr), toUp_of_upper hcu, ih3]
        · rw [List.zipWith_cons_cons, if_pos hup]
          simp only [List.length_cons]
          rw [ih4]
      · have hup' : isUpper c = false := by
          revert hup
          cases isUpper c <;> simp
        have hcl : 97 ≤ c ∧ c ≤ 122 := by
          rcases isAlpha_iff.mp hc with h | h
          · exact absurd (isUpper_iff.mpr h) (by simp [hup'])
          · exact h
        have hlow : toLow r = r + 32 := toLow_of_upper hr
        refine ⟨?_, ?_, ?_, ?_⟩
        · intro ch hch
          rw [List.zipWith_cons_cons, if_neg (by simp [hup'])] at hch
          rcases List.mem_cons.mp hch with h | h
          · subst h
            rw [hlow]
            exact isAlpha_iff.mpr (Or.inr (by omega))
          · exact ih1 ch h
        · rw [List.zipWith_cons_cons, if_neg (by simp [hup']), List.map_cons, hlow]
          rw [toUp_of_lower (by omega), ih2, show r + 32 - 32 = r from by omega]
        · rw [List.zipWith_cons_cons, if_neg (by simp [hup']), List.map_cons,
            List.zipWith_cons_cons, hlow]
          rw [if_neg (by rw [Bool.not_eq_true, isUpper_false_iff]; omega)]
          rw [toUp_of_lower hcl, toLow_of_upper (by omega), ih3,
            show c - 32 + 32 = c from by omega]
        · rw [List.zipWith_cons_cons, if_neg (by simp [hup'])]
          simp only [List.length_cons]
          rw [ih4]

lemma hill_size_two : (if (2 : Int) < 2 ∨ 3 < (2 : Int) then 2 else (2 : Int).toNat) = 2 := by
  decide

/-- C1 (amended): for every text and every key whose 2x2 Hill matrix has a
determinant invertible mod 26, and whose letters-only projection has even
length, `hill_decrypt (hill_encrypt (lettersOnly text) key 2) key 2` equals
the letters-only projection of the text with its original case preserved (not
uppercased) and with trailing 'X' characters stripped; odd-length
projections do not round-trip to the 'X'-padded text. -/
theorem claim_C1_hill_roundtrip (text key : Str)
    (hinv : mod_inverse (hill_matrix_determinant (hill_create_matrix key 2)) 26 ≠ none)
    (heven : (text.filter isAlpha).length % 2 = 0) :
    hill_decrypt (hill_encrypt (text.filter isAlpha) key 2) key 2
      = some (rstripX (text.filter isAlpha)) := by
  obtain ⟨di, hdi⟩ : ∃ di,
      mod_inverse (hill_matrix_determinant (hill_create_matrix key 2)) 26 = some di := by
    rcases h : mod_inverse (hill_matrix_determinant (hill_create_matrix key 2)) 26 with _ | di
    · exact absurd h hinv
    · exact ⟨di, rfl⟩
  have hM := hill_create_matrix_two key
  rw [hM, hill_det_two] at hdi
  have hmi : hill_matrix_inverse (hill_create_matrix key 2)
      = some [[(di * (((hillKC key 2).getD 3 0 : Int) - 65)) % 26,
               (-di * (((hillKC key 2).getD 1 0 : Int) - 65)) % 26],
              [(-di * (((hillKC key 2).getD 2 0 : Int) - 65)) % 26,
               (di * (((hillKC key 2).getD 0 0 : Int) - 65)) % 26]] := by
    rw [hM]
    exact hill_inverse_two _ _ _ _ di hdi
  have halL : ∀ ch ∈ text.filter isAlpha, isAlpha ch = true :=
    fun ch hch => (List.mem_filter.mp hch).2
  have hfilter : (text.filter isAlpha).filter isAlpha = text.filter isAlpha :=
    List.filter_eq_self.mpr halL
  by_cases hL0 : text.filter isAlpha = []
  · rw [hL0]
    have henc : hill_encrypt [] key 2 = [] := rfl
    rw [henc]
    simp only [hill_decrypt, hill_size_two]
    rw [hmi]
    dsimp only
    rw [if_pos (show List.map toUp (List.filter isAlpha ([] : Str)) = [] from rfl)]
    rfl
  · have hUb : ∀ ch ∈ (text.filter isAlpha).map toUp, 65 ≤ ch ∧ ch ≤ 90 := by
      intro ch hch
      obtain ⟨d, hd, rfl⟩ := List.mem_map.mp hch
      exact toUp_bounds (halL d hd)
    have hevenU : ((text.filter isAlpha).map toUp).length % 2 = 0 := by
      rw [List.length_map]
      exact heven
    have hU0 : (text.filter isAlpha).map toUp ≠ [] := by
      intro h
      have h2 := congrArg List.length h
      rw [List.length_map] at h2
      exact hL0 (List.length_eq_zero.mp h2)
    have hMlen : (hill_create_matrix key 2).length = 2 := by
      rw [hM]
      rfl
    have hElen : (hillBlocks (hill_create_matrix key 2) 2
        ((text.filter isAlpha).map toUp)).length
        = ((text.filter isAlpha).map toUp).length :=
      hillBlocks_length _ hMlen _ hevenU
    have hEb := hillBlocks_entries (hill_create_matrix key 2) 2
      ((text.filter isAlpha).map toUp)
    obtain ⟨hz1, hz2, hz3, hz4⟩ := zip_case_spec (text.filter isAlpha)
      (hillBlocks (hill_create_matrix key 2) 2 ((text.filter isAlpha).map toUp))
      (by rw [hElen, List.length_map]) hEb halL
    have henc : hill_encrypt (text.filter isAlpha) key 2
        = List.zipWith (fun ch r => if isUpper ch then r else toLow r)
            (text.filter isAlpha)
            (hillBlocks (hill_create_matrix key 2) 2 ((text.filter isAlpha).map toUp)) := by
      simp only [hill_encrypt, hill_size_two]
      rw [hfilter]
      rw [if_neg hU0]
      rw [if_neg (by omega)]
      exact reinterleave_zip _ _ halL (by rw [hElen, List.length_map])
    rw [henc]
    simp only [hill_decrypt, hill_size_two]
    rw [hmi]
    dsimp only
    have hcfilter : (List.zipWith (fun ch r => if isUpper ch then r else toLow r)
        (text.filter isAlpha)
        (hillBlocks (hill_create_matrix key 2) 2
          ((text.filter isAlpha).map toUp))).filter isAlpha
        = List.zipWith (fun ch r => if isUpper ch then r else toLow r)
            (text.filter isAlpha)
            (hillBlocks (hill_create_matrix key 2) 2 ((text.filter isAlpha).map toUp)) :=
      List.filter_eq_self.mpr hz1
    rw [hcfilter, hz2]
    have hE0 : hillBlocks (hill_create_matrix key 2) 2
        ((text.filter isAlpha).map toUp) ≠ [] := by
      intro h
      rw [h] at hElen
      exact hU0 (List.length_eq_zero.mp hElen.symm)
    rw [if_neg hE0]
    have hEeven : (hillBlocks (hill_create_matrix key 2) 2
        ((text.filter isAlpha).map toUp)).length % 2 = 0 := by
      rw [hElen]
      exact hevenU
    rw [if_neg (by omega)]
    have hrt : hillBlocks
        [[(di * (((hillKC key 2).getD 3 0 : Int) - 65)) % 26,
          (-di * (((hillKC key 2).getD 1 0 : Int) - 65)) % 26],
         [(-di * (((hillKC key 2).getD 2 0 : Int) - 65)) % 26,
          (di * (((hillKC key 2).getD 0 0 : Int) - 65)) % 26]] 2
        (hillBlocks (hill_create_matrix key 2) 2 ((text.filter isAlpha).map toUp))
        = (text.filter isAlpha).map toUp := by
      conv_lhs => rw [hM]
      exact hillBlocks_roundtrip _ _ _ _ di hdi _ hevenU hUb
    rw [hrt]
    have hri : reinterleave
        (List.zipWith (fun ch r => if isUpper ch then r else toLow r)
          (text.filter isAlpha)
          (hillBlocks (hill_create_matrix key 2) 2 ((text.filter isAlpha).map toUp)))
        ((text.filter isAlpha).map toUp)
        = text.filter isAlpha := by
      rw [reinterleave_zip _ _ hz1 (by rw [List.length_map, hz4])]
      exact hz3
    rw [hri]

/-- Witness for C1 at text `"ab"` and key `"HILL"`. -/
theorem claim_C1_witness :
    (mod_inverse (hill_matrix_determinant (hill_create_matrix [72, 73, 76, 76] 2)) 26
        ≠ none) ∧
    (([97, 98] : Str).filter isAlpha).length % 2 = 0 ∧
    hill_decrypt (hill_encrypt (([97, 98] : Str).filter isAlpha) [72, 73, 76, 76] 2)
      [72, 73, 76, 76] 2 = some (rstripX (([97, 98] : Str).filter isAlpha)) :=
  ⟨by decide, by decide,
    claim_C1_hill_roundtrip [97, 98] [72, 73, 76, 76] (by decide) (by decide)⟩

/-- Counterexample to C1 as stated: for text `"A"` and key `"HILL"` (whose
matrix determinant 15 is invertible mod 26) the round trip yields `"K"`,
not the uppercased padded projection `"AX"`: the last encrypted letter of the
padded block is dropped on re-interleaving, so odd-length projections do not
round-trip, and the final result is `rstrip`ped of 'X'. -/
theorem claim_C1_counterexample :
    hill_decrypt (hill_encrypt (([65] : Str).filter isAlpha) [72, 73, 76, 76] 2)
      [72, 73, 76, 76] 2 = some [75] ∧
    some ([75] : Str) ≠ some ([65, 88] : Str) := by
  constructor <;> decide

/- ----------------------------------------------------------------
   Columnar transposition  (src/app.py lines 1100-1266)
   ---------------------------------------------------------------- -/

/-- Insertion of an element into a sorted list according to a boolean
comparator (`le x y = true` meaning `x` sorts no later than `y`). -/
def insertLe (le : Nat × Nat → Nat × Nat → Bool) (x : Nat × Nat) :
    List (Nat × Nat) → List (Nat × Nat)
  | [] => [x]
  | y :: ys => if le x y then x :: y :: ys else y :: insertLe le x ys

/-- Insertion sort by a boolean comparator.  `columnar_get_key_order`
sorts the (position, character) pairs with Python's `sorted` under the
key `lambda x: (x[1], x[0])`, i.e. by the lexicographic order on
(character, position); as the positions are pairwise distinct this order
is total and strict on the pairs involved, so the sorted arrangement is
unique and insertion sort computes exactly it. -/
def sortBy (le : Nat × Nat → Nat × Nat → Bool) : List (Nat × Nat) → List (Nat × Nat)
  | [] => []
  | x :: xs => insertLe le x (sortBy le xs)

/-- The comparator `(x[1], x[0]) ≤ (y[1], y[0])` of the sort in
`columnar_get_key_order` (character first, then original position). -/
def kcLe (x y : Nat × Nat) : Bool :=
  decide (x.2 < y.2) || (decide (x.2 = y.2) && decide (x.1 ≤ y.1))

/-- The write-back loop
`for new_pos, (old_pos, _) in enumerate(key_chars_sorted): order[old_pos] = new_pos`. -/
def buildOrderAux : List (Nat × Nat) → Nat → List Nat → List Nat
  | [], _, acc => acc
  | p :: rest, n, acc => buildOrderAux rest (n + 1) (acc.set p.1 n)

def columnar_get_key_order (key : Str) : List Nat :=
  buildOrderAux (sortBy kcLe ((key.map toUp).enum)) 0 (List.replicate key.length 0)

/-- The grid of `columnar_encrypt`: `numRows` rows of `k` characters,
row `i` column `j` holding character `i*k+j` of the cleaned text, or the
padding 'X' once the text is exhausted (the source advances a running
`text_idx`, whose value at row `i`, column `j` is exactly `i*k+j`). -/
def cgrid (tc : Str) (numRows k : Nat) : List Str :=
  (List.range numRows).map (fun i => (List.range k).map (fun j => tc.getD (i * k + j) 88))

/-- `columnar_encrypt`.  The column read `row[order.index(col_pos)]` is
modelled with `List.indexOf` and a default that is never used: the order
list always contains every column position (proved below), which also
rules out the `ValueError`/`IndexError` of the source. -/
def columnar_encrypt (text key : Str) : Str :=
  if key = [] then text
  else
    let tc := text.filter isAlpha
    if tc = [] then text
    else
      let k := key.length
      let numRows := (tc.length + k - 1) / k
      let grid := cgrid tc numRows k
      let order := columnar_get_key_order key
      (List.map (fun colPos => grid.map (fun row => row.getD (order.indexOf colPos) 88))
        (List.range k)).flatten

/-- `chars_per_col`: `num_rows` for every column, then the loop
`for i in range(excess): chars_per_col[key_len - 1 - i] -= 1`. -/
def cpcList (k numRows excess : Nat) : List Nat :=
  (List.range excess).foldl
    (fun acc i => acc.set (k - 1 - i) (acc.getD (k - 1 - i) 0 - 1))
    (List.replicate k numRows)

/-- One column of the distribution loop of `columnar_decrypt`: writes the
next characters of the cleaned cipher into `grid[row][colIdx]` for the
listed rows, advancing the running cipher index (the write is skipped
once the cipher is exhausted). -/
def writeColAux (colIdx : Nat) (cc : Str) :
    List Nat → List (List (Option Nat)) × Nat → List (List (Option Nat)) × Nat
  | [], st => st
  | row :: rows, st =>
      writeColAux colIdx cc rows
        (if st.2 < cc.length then
          (st.1.set row ((st.1.getD row []).set colIdx (some (cc.getD st.2 0))), st.2 + 1)
         else st)

/-- The outer distribution loop of `columnar_decrypt` over the column
positions `col_pos`. -/
def fillCols (order : List Nat) (cpc : List Nat) (cc : Str) :
    List Nat → List (List (Option Nat)) × Nat → List (List (Option Nat)) × Nat
  | [], st => st
  | p :: ps, st =>
      fillCols order cpc cc ps
        (writeColAux (order.indexOf p) cc
          (List.range (cpc.getD (order.indexOf p) 0)) st)

/-- `columnar_decrypt`.  The source also computes
`columnar_get_key_order_reverse(key)` but never uses the result, so that
call is omitted here; `None` grid cells are dropped by the final
`if ch:` read, modelled with `filterMap id`. -/
def columnar_decrypt (cipher key : Str) : Str :=
  if key = [] then cipher
  else
    let cc := cipher.filter isAlpha
    if cc = [] then cipher
    else
      let k := key.length
      let numRows := (cc.length + k - 1) / k
      let order := columnar_get_key_order key
      let cpc := cpcList k numRows (numRows * k - cc.length)
      let grid0 : List (List (Option Nat)) := List.replicate numRows (List.replicate k none)
      let grid := (fillCols order cpc cc (List.range k) (grid0, 0)).1
      rstripX ((grid.map (fun row => row.filterMap id)).flatten)

/- Sorting and order-list lemmas. -/

lemma insertLe_perm (le : Nat × Nat → Nat × Nat → Bool) (x : Nat × Nat) :
    ∀ l : List (Nat × Nat), (insertLe le x l).Perm (x :: l) := by
  intro l
  induction l with
  | nil => exact List.Perm.refl _
  | cons y ys ih =>
    rw [insertLe]
    by_cases h : le x y = true
    · rw [if_pos h]
    · rw [if_neg h]
      exact (ih.cons y).trans (List.Perm.swap x y ys)

lemma sortBy_perm (le : Nat × Nat → Nat × Nat → Bool) :
    ∀ l : List (Nat × Nat), (sortBy le l).Perm l := by
  intro l
  induction l with
  | nil => exact List.Perm.refl _
  | cons x xs ih =>
    rw [sortBy]
    exact (insertLe_perm le x (sortBy le xs)).trans (ih.cons x)

lemma buildOrderAux_length :
    ∀ (s : List (Nat × Nat)) (n : Nat) (acc : List Nat),
      (buildOrderAux s n acc).length = acc.length := by
  intro s
  induction s with
  | nil => intro n acc; rfl
  | cons p rest ih =>
    intro n acc
    rw [buildOrderAux, ih, List.length_set]

lemma getD_set_ne {l : List Nat} {i j : Nat} (v d : Nat) (h : i ≠ j) :
    (l.set i v).getD j d = l.getD j d := by
  unfold List.getD
  rw [List.get?_set_ne _ _ h]

lemma getD_set_self {l : List Nat} {i : Nat} (v d : Nat) (h : i < l.length) :
    (l.set i v).getD i d = v := by
  rw [List.getD_eq_getElem _ _ (by simpa using h)]
  simp [List.getElem_set]

lemma buildOrderAux_getD_notmem :
    ∀ (s : List (Nat × Nat)) (n : Nat) (acc : List Nat) (i d : Nat),
      i ∉ s.map Prod.fst →
      (buildOrderAux s n acc).getD i d = acc.getD i d := by
  intro s
  induction s with
  | nil => intro n acc i d _; rfl
  | cons p rest ih =>
    intro n acc i d hmem
    rw [List.map_cons, List.mem_cons] at hmem
    push_neg at hmem
    rw [buildOrderAux, ih (n + 1) (acc.set p.1 n) i d hmem.2]
    exact getD_set_ne n d (fun h => hmem.1 h.symm)

lemma buildOrderAux_getD :
    ∀ (s : List (Nat × Nat)) (n : Nat) (acc : List Nat) (j : Nat),
      (s.map Prod.fst).Nodup → j < s.length →
      (s.getD j (0, 0)).1 < acc.length →
      (buildOrderAux s n acc).getD (s.getD j (0, 0)).1 0 = n + j := by
  intro s
  induction s with
  | nil => intro n acc j _ hj; exact absurd hj (by simp)
  | cons p rest ih =>
    intro n acc j hnd hj hlt
    rw [List.map_cons, List.nodup_cons] at hnd
    match j with
    | 0 =>
      have hni : ((p :: rest).getD 0 (0, 0)).1 = p.1 := rfl
      rw [hni] at hlt ⊢
      rw [buildOrderAux]
      rw [buildOrderAux_getD_notmem rest (n + 1) (acc.set p.1 n) p.1 0 hnd.1]
      rw [getD_set_self n 0 hlt]
      omega
    | j' + 1 =>
      have hj' : j' < rest.length := by simpa using hj
      have hg : ((p :: rest).getD (j' + 1) (0, 0)) = rest.getD j' (0, 0) := rfl
      rw [hg] at hlt ⊢
      rw [buildOrderAux]
      rw [ih (n + 1) (acc.set p.1 n) j' hnd.2 hj' (by simpa using hlt)]
      omega

lemma getD_map_range {α : Type} (g : Nat → α) {n j : Nat} (d : α) (hj : j < n) :
    ((List.range n).map g).getD j d = g j := by
  rw [List.getD_eq_getElem _ _ (by simpa using hj)]
  simp

lemma map_getD_self {α : Type} (l : List α) (d : α) :
    (List.range l.length).map (fun n => l.getD n d) = l := by
  apply List.ext_getElem
  · simp
  · intro n h1 h2
    simp only [List.getElem_map, List.getElem_range]
    rw [List.getD_eq_getElem _ _ h2]

lemma replicate_eq_range_map {α : Type} (n : Nat) (x : α) :
    List.replicate n x = (List.range n).map (fun _ => x) := by
  apply List.ext_getElem
  · simp
  · intro i h1 h2
    simp

lemma order_facts (key : Str) :
    (∀ p, p < key.length →
        (columnar_get_key_order key).indexOf p < key.length ∧
        (columnar_get_key_order key).getD
          ((columnar_get_key_order key).indexOf p) 0 = p) ∧
    (∀ j, j < key.length → (columnar_get_key_order key).getD j 0 < key.length) ∧
    (∀ j1 j2, j1 < key.length → j2 < key.length →
        (columnar_get_key_order key).getD j1 0 =
          (columnar_get_key_order key).getD j2 0 → j1 = j2) := by
  have hsperm : (sortBy kcLe ((key.map toUp).enum)).Perm ((key.map toUp).enum) :=
    sortBy_perm _ _
  generalize hs : sortBy kcLe ((key.map toUp).enum) = s at hsperm
  have horder : columnar_get_key_order key = buildOrderAux s 0 (List.replicate key.length 0) := by
    unfold columnar_get_key_order
    rw [hs]
  rw [horder]
  have hslen : s.length = key.length := by
    rw [hsperm.length_eq]
    simp
  have hfstperm : (s.map Prod.fst).Perm (List.range key.length) := by
    have h := hsperm.map Prod.fst
    rw [List.enum_map_fst, List.length_map] at h
    exact h
  have hfstnodup : (s.map Prod.fst).Nodup :=
    hfstperm.nodup_iff.mpr (List.nodup_range key.length)
  have holen : (buildOrderAux s 0 (List.replicate key.length 0)).length = key.length := by
    rw [buildOrderAux_length]
    simp
  have hsig : ∀ j, j < key.length →
      (s.getD j (0, 0)).1 < key.length ∧
      (buildOrderAux s 0 (List.replicate key.length 0)).getD (s.getD j (0, 0)).1 0 = j := by
    intro j hj
    have hjs : j < s.length := by rw [hslen]; exact hj
    have hmem : (s.getD j (0, 0)).1 ∈ s.map Prod.fst := by
      refine List.mem_map.mpr ⟨s.getD j (0, 0), ?_, rfl⟩
      rw [List.getD_eq_getElem _ _ hjs]
      exact List.getElem_mem hjs
    have hlt : (s.getD j (0, 0)).1 < key.length := by
      have := hfstperm.mem_iff.mp hmem
      simpa using this
    refine ⟨hlt, ?_⟩
    have := buildOrderAux_getD s 0 (List.replicate key.length 0) j hfstnodup hjs
      (by simpa using hlt)
    rw [this]
    omega
  have hsur : ∀ i, i < key.length → ∃ j, j < key.length ∧ (s.getD j (0, 0)).1 = i := by
    intro i hi
    have hmem : i ∈ s.map Prod.fst := hfstperm.mem_iff.mpr (by simpa using hi)
    obtain ⟨pr, hpr, hfst⟩ := List.mem_map.mp hmem
    obtain ⟨n, hn⟩ := List.mem_iff_get.mp hpr
    refine ⟨n.val, by rw [← hslen]; exact n.isLt, ?_⟩
    rw [List.getD_eq_getElem _ _ n.isLt]
    rw [← hfst]
    congr
  have hU3 : ∀ j, j < key.length →
      (buildOrderAux s 0 (List.replicate key.length 0)).getD j 0 < key.length := by
    intro j hj
    obtain ⟨j0, hj0, hsj⟩ := hsur j hj
    have h2 := (hsig j0 hj0).2
    rw [hsj] at h2
    rw [h2]
    exact hj0
  have hU4 : ∀ j1 j2, j1 < key.length → j2 < key.length →
      (buildOrderAux s 0 (List.replicate key.length 0)).getD j1 0 =
        (buildOrderAux s 0 (List.replicate key.length 0)).getD j2 0 → j1 = j2 := by
    intro j1 j2 hj1 hj2 heq
    obtain ⟨a1, ha1, hs1⟩ := hsur j1 hj1
    obtain ⟨a2, ha2, hs2⟩ := hsur j2 hj2
    have e1 := (hsig a1 ha1).2
    have e2 := (hsig a2 ha2).2
    rw [hs1] at e1
    rw [hs2] at e2
    rw [e1, e2] at heq
    rw [← hs1, ← hs2, heq]
  refine ⟨?_, hU3, hU4⟩
  intro p hp
  have he := (hsig p hp).2
  have hσ := (hsig p hp).1
  have hlt : (s.getD p (0, 0)).1 <
      (buildOrderAux s 0 (List.replicate key.length 0)).length := by
    rw [holen]
    exact hσ
  have hg : (buildOrderAux s 0 (List.replicate key.length 0)).getD ((s.getD p (0, 0)).1) 0
      = p := he
  have hmem : p ∈ buildOrderAux s 0 (List.replicate key.length 0) := by
    rw [← hg, List.getD_eq_getElem _ 0 hlt]
    exact List.getElem_mem hlt
  have hidx : (buildOrderAux s 0 (List.replicate key.length 0)).indexOf p <
      (buildOrderAux s 0 (List.replicate key.length 0)).length :=
    List.indexOf_lt_length.mpr hmem
  refine ⟨Nat.lt_of_lt_of_eq hidx holen, ?_⟩
  rw [List.getD_eq_getElem _ 0 hidx]
  exact List.indexOf_get hidx

/- Grid and flatten lemmas. -/

lemma sum_map_const (n c : Nat) : ((List.range n).map (fun _ => c)).sum = n * c := by
  induction n with
  | zero => simp
  | succ m ih =>
    rw [List.range_succ]
    simp [ih]
    ring

lemma flatten_blocks_getD (b : Nat) :
    ∀ (l : List Str) (m i d : Nat), (∀ s ∈ l, s.length = b) → m < l.length → i < b →
      l.flatten.getD (m * b + i) d = (l.getD m []).getD i d := by
  intro l
  induction l with
  | nil => intro m i d _ hm; exact absurd hm (by simp)
  | cons s rest ih =>
    intro m i d hlen hm hi
    have hsb : s.length = b := hlen s (List.mem_cons_self s rest)
    match m with
    | 0 =>
      rw [List.flatten_cons]
      rw [show 0 * b + i = i from by omega]
      rw [List.getD_append _ _ _ _ (by omega)]
      rfl
    | m' + 1 =>
      rw [List.flatten_cons]
      rw [List.getD_append_right _ _ _ _ (by rw [hsb]; nlinarith [Nat.succ_mul m' b])]
      rw [hsb, show (m' + 1) * b + i - b = m' * b + i from by
        rw [Nat.succ_mul]
        omega]
      exact ih m' i d (fun t ht => hlen t (List.mem_cons_of_mem s ht)) (by simpa using hm) hi

lemma flatten_range_map (b : Nat) (F : Nat → Nat) :
    ∀ a : Nat,
      (List.flatten ((List.range a).map
        (fun i => (List.range b).map (fun j => F (i * b + j)))))
      = (List.range (a * b)).map F := by
  intro a
  induction a with
  | zero => simp
  | succ m ih =>
    rw [List.range_succ, List.map_append, List.flatten_append, ih]
    rw [Nat.succ_mul, List.range_add, List.map_append]
    simp only [List.map_cons, List.map_nil, List.flatten_cons, List.flatten_nil,
      List.append_nil, List.map_map]
    rfl

lemma writeColAux_append (colIdx : Nat) (cc : Str) :
    ∀ (l1 l2 : List Nat) (st : List (List (Option Nat)) × Nat),
      writeColAux colIdx cc (l1 ++ l2) st
        = writeColAux colIdx cc l2 (writeColAux colIdx cc l1 st) := by
  intro l1
  induction l1 with
  | nil => intro l2 st; rfl
  | cons r rs ih =>
    intro l2 st
    rw [List.cons_append, writeColAux, writeColAux, ih]

lemma set_range_map {α : Type} (g : Nat → α) {n i : Nat} (v : α) (hi : i < n) :
    ((List.range n).map g).set i v
      = (List.range n).map (fun j => if j = i then v else g j) := by
  apply List.ext_getElem
  · simp
  · intro m h1 h2
    simp only [List.getElem_set, List.getElem_map, List.getElem_range] at h1 h2 ⊢
    split
    · next h => simp [h]
    · next h => rw [if_neg (fun hc => h hc.symm)]

lemma writeCol_spec (colIdx k numRows : Nat) (cc : Str) (hc : colIdx < k) :
    ∀ (cnt idx : Nat) (F : Nat → Nat → Option Nat), cnt ≤ numRows →
      idx + cnt ≤ cc.length →
      writeColAux colIdx cc (List.range cnt)
          ((List.range numRows).map (fun i => (List.range k).map (F i)), idx)
        = ((List.range numRows).map (fun i => (List.range k).map (fun j =>
            if j = colIdx ∧ i < cnt then some (cc.getD (idx + i) 0) else F i j)),
           idx + cnt) := by
  intro cnt
  induction cnt with
  | zero =>
    intro idx F _ _
    rw [List.range_zero, writeColAux]
    refine Prod.ext ?_ rfl
    refine List.map_congr_left (fun i hi => ?_)
    refine List.map_congr_left (fun j hj => ?_)
    rw [if_neg (by omega)]
  | succ m ih =>
    intro idx F hcnt hidx
    rw [List.range_succ, writeColAux_append]
    rw [ih idx F (by omega) (by omega)]
    rw [writeColAux]
    rw [if_pos (show idx + m < cc.length from by omega)]
    rw [writeColAux]
    have hmR : m < numRows := by omega
    have hrow : (((List.range numRows).map (fun i => (List.range k).map (fun j =>
        if j = colIdx ∧ i < m then some (cc.getD (idx + i) 0) else F i j))).getD m [])
        = (List.range k).map (fun j =>
            if j = colIdx ∧ m < m then some (cc.getD (idx + m) 0) else F m j) := by
      rw [getD_map_range _ _ hmR]
    refine Prod.ext ?_ (by simp; omega)
    show ((List.range numRows).map (fun i => (List.range k).map (fun j =>
        if j = colIdx ∧ i < m then some (cc.getD (idx + i) 0) else F i j))).set m _ = _
    rw [hrow]
    rw [set_range_map _ _ hmR]
    rw [set_range_map _ _ hc]
    refine List.map_congr_left (fun i hi => ?_)
    rw [List.mem_range] at hi
    by_cases him : i = m
    · subst him
      rw [if_pos rfl]
      refine List.map_congr_left (fun j hj => ?_)
      rw [List.mem_range] at hj
      by_cases hjc : j = colIdx
      · subst hjc
        rw [if_pos rfl, if_pos ⟨rfl, by omega⟩]
      · rw [if_neg hjc, if_neg (by omega), if_neg (by omega)]
    · rw [if_neg him]
      refine List.map_congr_left (fun j hj => ?_)
      by_cases hjc : j = colIdx ∧ i < m
      · rw [if_pos hjc, if_pos ⟨hjc.1, by omega⟩]
      · rw [if_neg hjc, if_neg (by omega)]

lemma fillCols_append (order cpc : List Nat) (cc : Str) :
    ∀ (l1 l2 : List Nat) (st : List (List (Option Nat)) × Nat),
      fillCols order cpc cc (l1 ++ l2) st
        = fillCols order cpc cc l2 (fillCols order cpc cc l1 st) := by
  intro l1
  induction l1 with
  | nil => intro l2 st; rfl
  | cons p ps ih =>
    intro l2 st
    rw [List.cons_append, fillCols, fillCols, ih]

/- Trailing-'X' stripping lemmas. -/

lemma dropWhile88_replicate_app (l : Str) :
    ∀ n : Nat, List.dropWhile (fun c => c == 88) (List.replicate n 88 ++ l)
      = List.dropWhile (fun c => c == 88) l := by
  intro n
  induction n with
  | zero => rfl
  | succ m ih =>
    rw [List.replicate_succ, List.cons_append, List.dropWhile_cons_of_pos (by decide)]
    exact ih

lemma rstripX_append_replicate (s : Str) (n : Nat) :
    rstripX (s ++ List.replicate n 88) = rstripX s := by
  unfold rstripX
  rw [List.reverse_append, List.reverse_replicate, dropWhile88_replicate_app]

lemma rstripX_eq_self (s : Str) (h : s.getLastD 0 ≠ 88) : rstripX s = s := by
  cases hs : s.reverse with
  | nil =>
    have hnil : s = [] := by simpa using congrArg List.reverse hs
    rw [hnil]
    rfl
  | cons a t =>
    have hsa : s = t.reverse ++ [a] := by
      have := congrArg List.reverse hs
      simpa using this
    have ha : a ≠ 88 := by
      intro hc
      apply h
      rw [hsa, List.getLastD_concat, hc]
    unfold rstripX
    rw [hs, List.dropWhile_cons_of_neg (by simpa using ha), ← hs, List.reverse_reverse]

lemma getD_replicate {n i : Nat} (c : Nat) (h : i < n) :
    (List.replicate n c).getD i 0 = c := by
  rw [List.getD_eq_getElem _ _ (by simpa using h)]
  simp

lemma filterMap_id_map_some {α : Type} (v : Nat → α) (l : List Nat) :
    List.filterMap id (l.map (fun j => some (v j))) = l.map v := by
  rw [List.filterMap_map]
  exact List.filterMap_eq_map v ▸ rfl

/-- The distribution loop of `columnar_decrypt`, run over the first `m`
column positions on a cipher whose block `p` holds the grid column
`order.indexOf p`: after `m` columns the grid holds exactly the columns
`order.indexOf 0, …, order.indexOf (m-1)` and the running index is
`m * nR`. -/
lemma fillCols_range_spec (order : List Nat) (k nR : Nat) (cc : Str) (G : Nat → Nat → Nat)
    (hlen : cc.length = k * nR)
    (hU1 : ∀ p, p < k → order.indexOf p < k)
    (hU2 : ∀ p, p < k → order.getD (order.indexOf p) 0 = p)
    (hU4 : ∀ j1 j2, j1 < k → j2 < k →
      order.getD j1 0 = order.getD j2 0 → j1 = j2)
    (hget : ∀ m i, m < k → i < nR →
      cc.getD (m * nR + i) 0 = G i (order.indexOf m)) :
    ∀ m, m ≤ k →
      fillCols order (List.replicate k nR) cc (List.range m)
        ((List.range nR).map (fun i => (List.range k).map
          (fun j => (none : Option Nat))), 0)
      = ((List.range nR).map (fun i => (List.range k).map (fun j =>
          if order.getD j 0 < m then some (G i j) else none)), m * nR) := by
  intro m
  induction m with
  | zero =>
    intro _
    rw [List.range_zero, fillCols]
    refine Prod.ext ?_ (by simp)
    show (List.range nR).map _ = _
    refine List.map_congr_left (fun i _ => ?_)
    refine List.map_congr_left (fun j _ => ?_)
    rw [if_neg (by omega)]
  | succ m ih =>
    intro hm1
    have hmk : m < k := by omega
    rw [List.range_succ, fillCols_append, ih (by omega), fillCols, fillCols]
    have hfm : order.indexOf m < k := hU1 m hmk
    have hgfm : order.getD (order.indexOf m) 0 = m := hU2 m hmk
    rw [getD_replicate nR hfm]
    have hmul : m * nR + nR ≤ k * nR := by
      have h2 := Nat.mul_le_mul_right nR (show m + 1 ≤ k from hm1)
      rw [Nat.succ_mul] at h2
      omega
    rw [writeCol_spec (order.indexOf m) k nR cc hfm nR (m * nR)
      (fun i j => if order.getD j 0 < m then some (G i j) else none)
      (le_refl nR) (by omega)]
    refine Prod.ext ?_ (by show m * nR + nR = (m + 1) * nR; rw [Nat.succ_mul])
    show (List.range nR).map _ = _
    refine List.map_congr_left (fun i hi => ?_)
    rw [List.mem_range] at hi
    refine List.map_congr_left (fun j hj => ?_)
    rw [List.mem_range] at hj
    by_cases hjf : j = order.indexOf m
    · subst hjf
      rw [if_pos ⟨rfl, hi⟩, hget m i hmk hi, if_pos (by omega)]
    · rw [if_neg (fun hc => hjf hc.1)]
      have hne : order.getD j 0 ≠ m := by
        intro hc
        exact hjf (hU4 j (order.indexOf m) hj hfm (by rw [hc, hgfm]))
      by_cases h2 : order.getD j 0 < m
      · rw [if_pos h2, if_pos (by omega)]
      · rw [if_neg h2, if_neg (by omega)]

/-- C10: for every non-empty key and every non-empty all-letter text not
ending in 'X', the columnar transposition decryption inverts encryption:
the cleaned cipher splits back into full columns (the excess is zero),
each column is written back to its original grid position, and the
row-major read followed by `rstrip("X")` recovers the text. -/
theorem claim_C10_columnar_roundtrip (text key : Str) (hk : key ≠ [])
    (ht : text ≠ []) (hal : ∀ ch ∈ text, isAlpha ch = true)
    (hlast : text.getLastD 0 ≠ 88) :
    columnar_decrypt (columnar_encrypt text key) key = text := by
  obtain ⟨hU12, hU3, hU4⟩ := order_facts key
  have hk1 : 1 ≤ key.length := List.length_pos.mpr hk
  have hL1 : 1 ≤ text.length := List.length_pos.mpr ht
  have htc : text.filter isAlpha = text := List.filter_eq_self.mpr hal
  have hdm := Nat.div_add_mod (text.length + key.length - 1) key.length
  have hmod : (text.length + key.length - 1) % key.length < key.length :=
    Nat.mod_lt _ (by omega)
  set k := key.length with hkdef
  set nR := (text.length + k - 1) / k with hnRdef
  have hLle : text.length ≤ k * nR := by omega
  have hltk : k * nR < text.length + k := by omega
  have henc : columnar_encrypt text key
      = ((List.range k).map (fun p => (List.range nR).map
          (fun i => text.getD (i * k + (columnar_get_key_order key).indexOf p) 88))).flatten := by
    simp only [columnar_encrypt]
    rw [if_neg hk, htc, if_neg ht]
    congr 1
    refine List.map_congr_left (fun p hp => ?_)
    rw [List.mem_range] at hp
    unfold cgrid
    rw [List.map_map]
    refine List.map_congr_left (fun i _ => ?_)
    show ((List.range k).map _).getD _ 88 = _
    rw [getD_map_range _ _ (hU12 p hp).1]
  rw [henc]
  set EE := ((List.range k).map (fun p => (List.range nR).map
      (fun i => text.getD (i * k + (columnar_get_key_order key).indexOf p) 88))).flatten
    with hEE
  have hblockslen : ∀ blk ∈ (List.range k).map (fun p => (List.range nR).map
      (fun i => text.getD (i * k + (columnar_get_key_order key).indexOf p) 88)),
      blk.length = nR := by
    intro blk hblk
    obtain ⟨p, _, rfl⟩ := List.mem_map.mp hblk
    simp
  have hElen : EE.length = k * nR := by
    rw [hEE, List.length_flatten, List.map_map]
    have : (List.range k).map (List.length ∘ fun p => (List.range nR).map
        (fun i => text.getD (i * k + (columnar_get_key_order key).indexOf p) 88))
        = (List.range k).map (fun _ => nR) := by
      refine List.map_congr_left (fun p _ => ?_)
      simp
    rw [this, sum_map_const]
  have hEalpha : ∀ ch ∈ EE, isAlpha ch = true := by
    intro ch hch
    rw [hEE] at hch
    obtain ⟨blk, hblk, hchblk⟩ := List.mem_flatten.mp hch
    obtain ⟨p, _, rfl⟩ := List.mem_map.mp hblk
    obtain ⟨i, _, rfl⟩ := List.mem_map.mp hchblk
    by_cases hin : i * k + (columnar_get_key_order key).indexOf p < text.length
    · rw [List.getD_eq_getElem _ _ hin]
      exact hal _ (List.getElem_mem hin)
    · rw [List.getD_eq_default _ _ (by omega)]
      decide
  have hE0 : EE ≠ [] := by
    intro h
    have h0 : EE.length = 0 := by rw [h]; rfl
    rw [hElen] at h0
    omega
  have hget : ∀ m i, m < k → i < nR →
      EE.getD (m * nR + i) 0
        = text.getD (i * k + (columnar_get_key_order key).indexOf m) 88 := by
    intro m i hm hi
    rw [hEE]
    rw [flatten_blocks_getD nR _ m i 0 hblockslen (by simpa using hm) hi]
    rw [getD_map_range _ _ hm, getD_map_range _ _ hi]
  have hccE : EE.filter isAlpha = EE := List.filter_eq_self.mpr hEalpha
  simp only [columnar_decrypt]
  rw [if_neg hk, hccE, if_neg hE0, hElen]
  have hnR2 : (k * nR + k - 1) / k = nR := by
    rw [show k * nR + k - 1 = k * nR + (k - 1) from by omega]
    rw [Nat.mul_add_div (by omega), Nat.div_eq_of_lt (by omega)]
    omega
  rw [hnR2]
  
  have hexc : nR * k - k * nR = 0 := by
    rw [Nat.mul_comm]
    omega
  rw [hexc]
  have hcpc : cpcList k nR 0 = List.replicate k nR := by
    unfold cpcList
    rw [List.range_zero]
    rfl
  rw [hcpc]
  have hgrid0 : List.replicate nR (List.replicate k (none : Option Nat))
      = (List.range nR).map (fun _ => (List.range k).map (fun _ => none)) := by
    rw [replicate_eq_range_map]
    exact List.map_congr_left (fun _ _ => replicate_eq_range_map k none)
  rw [hgrid0]
  rw [fillCols_range_spec (columnar_get_key_order key) k nR EE
    (fun i j => text.getD (i * k + j) 88) hElen
    (fun p hp => (hU12 p hp).1) (fun p hp => (hU12 p hp).2) hU4 hget k (le_refl k)]
  dsimp only
  have hfin : ((List.range nR).map (fun i => (List.range k).map (fun j =>
      if (columnar_get_key_order key).getD j 0 < k
      then some (text.getD (i * k + j) 88) else none))).map
        (fun row => row.filterMap id)
      = (List.range nR).map (fun i => (List.range k).map
          (fun j => text.getD (i * k + j) 88)) := by
    rw [List.map_map]
    refine List.map_congr_left (fun i _ => ?_)
    simp only [Function.comp_apply]
    have hrow : (List.range k).map (fun j =>
        if (columnar_get_key_order key).getD j 0 < k
        then some (text.getD (i * k + j) 88) else none)
        = (List.range k).map (fun j => some (text.getD (i * k + j) 88)) := by
      refine List.map_congr_left (fun j hj => ?_)
      rw [List.mem_range] at hj
      rw [if_pos (hU3 j hj)]
    rw [hrow, filterMap_id_map_some]
  rw [hfin]
  rw [flatten_range_map k (fun n => text.getD n 88) nR]
  have hsplit : nR * k = text.length + (nR * k - text.length) := by
    rw [Nat.mul_comm]
    omega
  rw [hsplit, List.range_add, List.map_append, List.map_map]
  have hfirst : (List.range text.length).map (fun n => text.getD n 88) = text :=
    map_getD_self text 88
  have hsecond : (List.range (nR * k - text.length)).map
      ((fun n => text.getD n 88) ∘ (fun x => text.length + x))
      = List.replicate (nR * k - text.length) 88 := by
    have h1 : (List.range (nR * k - text.length)).map
        ((fun n => text.getD n 88) ∘ (fun x => text.length + x))
        = (List.range (nR * k - text.length)).map (fun _ => 88) := by
      refine List.map_congr_left (fun n _ => ?_)
      show text.getD (text.length + n) 88 = 88
      rw [List.getD_eq_default _ _ (by omega)]
    rw [h1, ← replicate_eq_range_map]
  rw [hfirst, hsecond, rstripX_append_replicate, rstripX_eq_self text hlast]

/-- Witness for C10 at text `"HELLO"` and key `"KEY"`. -/
theorem claim_C10_witness :
    ([75, 69, 89] : Str) ≠ [] ∧ ([72, 69, 76, 76, 79] : Str) ≠ [] ∧
    (∀ ch ∈ ([72, 69, 76, 76, 79] : Str), isAlpha ch = true) ∧
    ([72, 69, 76, 76, 79] : Str).getLastD 0 ≠ 88 ∧
    columnar_decrypt (columnar_encrypt [72, 69, 76, 76, 79] [75, 69, 89]) [75, 69, 89]
      = [72, 69, 76, 76, 79] :=
  ⟨by decide, by decide, by decide, by decide,
    claim_C10_columnar_roundtrip [72, 69, 76, 76, 79] [75, 69, 89]
      (by decide) (by decide) (by decide) (by decide)⟩

/- ----------------------------------------------------------------
   Route (spiral) cipher  (src/app.py lines 634-726)
   ---------------------------------------------------------------- -/

/-- The direction table `[(0,1),(1,0),(0,-1),(-1,0)]` (right, down,
left, up), indexed by `dir_idx % 4`. -/
def rdir : Nat → Int × Int
  | 0 => (0, 1)
  | 1 => (1, 0)
  | 2 => (0, -1)
  | _ => (-1, 0)

/-- The state of the spiral walker: current cell, current direction
index, and the visited predicate.  The source keeps `visited` as a
rows×cols boolean matrix that it only ever indexes in bounds (the bounds
test short-circuits before the `visited` lookup), so a total predicate
that is `false` off the grid is a faithful model. -/
structure RState where
  row : Int
  col : Int
  dirIdx : Nat
  vis : Int → Int → Bool

/-- The turn condition of the spiral walk:
`next_row < 0 or next_row >= rows or next_col < 0 or next_col >= cols or
visited[next_row][next_col]`. -/
def rBlocked (rows cols : Int) (vis : Int → Int → Bool) (r c : Int) : Bool :=
  decide (r < 0) || decide (rows ≤ r) || decide (c < 0) || decide (cols ≤ c) || vis r c

/-- One iteration of the spiral loop: mark the current cell visited,
probe the next cell in the current direction, and turn (exactly once,
without re-probing) if it is blocked. -/
def rStep (rows cols : Int) (s : RState) : RState :=
  let vis2 := fun r c => if r = s.row ∧ c = s.col then true else s.vis r c
  let d := rdir s.dirIdx
  if rBlocked rows cols vis2 (s.row + d.1) (s.col + d.2) then
    let d2 := rdir ((s.dirIdx + 1) % 4)
    ⟨s.row + d2.1, s.col + d2.2, (s.dirIdx + 1) % 4, vis2⟩
  else
    ⟨s.row + d.1, s.col + d.2, s.dirIdx, vis2⟩

/-- The list of cells visited by `fuel` iterations of the spiral loop
(the source appends `grid[row][col]` at the top of each iteration, so
the output characters are exactly the grid reads along this path). -/
def rPath (rows cols : Int) : Nat → RState → List (Int × Int)
  | 0, _ => []
  | n + 1, s => (s.row, s.col) :: rPath rows cols n (rStep rows cols s)

/-- The state after `fuel` iterations of the spiral loop. -/
def rIter (rows cols : Int) : Nat → RState → RState
  | 0, s => s
  | n + 1, s => rIter rows cols n (rStep rows cols s)

/-- The initial walker state: cell (0,0), direction "right", nothing
visited. -/
def rInit : RState := ⟨0, 0, 0, fun _ _ => false⟩

/-- `route_encrypt`: ljust-pad the text with 'X' to the grid size, place
it row-major on the grid (`grid[i][j] = text_padded[i*cols+j]`), and
read the grid along the spiral path.  `text_clean` is `text` itself
(the join over all characters). -/
def route_encrypt (text : Str) (rows cols : Int) : Str :=
  if rows < 1 ∨ cols < 1 then text
  else
    let gsize := (rows * cols).toNat
    let tp := text ++ List.replicate (gsize - text.length) 88
    (rPath rows cols gsize rInit).map (fun p => tp.getD (p.1 * cols + p.2).toNat 88)

/-- Sequential writes `grid[row][col] = ch` along a list of
(cell, character) pairs, the grid being modelled as a total function
into `Option` (the source grid starts as all-`None`; in-bounds writing
is proved rather than enforced by the model). -/
def rwrites : List ((Int × Int) × Nat) → (Int × Int → Option Nat) → Int × Int → Option Nat
  | [], g => g
  | pc :: rest, g => rwrites rest (fun q => if q = pc.1 then some pc.2 else g q)

/-- `route_decrypt`: pad (or truncate) the cipher to the grid size,
write it into the grid along the spiral path — the source walks the very
same path as `route_encrypt`, merely skipping the pointless advance
after the final write — then read the grid row-major, dropping unwritten
(`None`) cells, and strip trailing 'X'. -/
def route_decrypt (cipher : Str) (rows cols : Int) : Str :=
  if rows < 1 ∨ cols < 1 then cipher
  else
    let gsize := (rows * cols).toNat
    let cp := if cipher.length < gsize
      then cipher ++ List.replicate (gsize - cipher.length) 88
      else cipher.take gsize
    let grid := rwrites ((rPath rows cols gsize rInit).zip cp) (fun _ => none)
    rstripX (((List.range rows.toNat).map (fun (i : Nat) =>
      ((List.range cols.toNat).map
        (fun (j : Nat) => grid ((i : Int), (j : Int)))).filterMap id)).flatten)

/-- C9: with `rails < 2` or empty input the rail-fence functions return
the input unchanged, and with `rows < 1` or `cols < 1` the route
functions return the input unchanged; all four take the early
passthrough return, so no error can be raised. -/
theorem claim_C9_edge_passthrough (text : Str) (rails rows cols : Int)
    (hrf : rails < 2 ∨ text = []) (hrt : rows < 1 ∨ cols < 1) :
    rail_fence_encrypt text rails = text ∧ rail_fence_decrypt text rails = text ∧
    route_encrypt text rows cols = text ∧ route_decrypt text rows cols = text := by
  have hrf' : rails < 2 ∨ text.length = 0 := by
    rcases hrf with h | h
    · exact Or.inl h
    · exact Or.inr (by rw [h]; rfl)
  refine ⟨?_, ?_, ?_, ?_⟩
  · rw [rail_fence_encrypt, if_pos hrf']
  · rw [rail_fence_decrypt, if_pos hrf']
  · rw [route_encrypt, if_pos hrt]
  · rw [route_decrypt, if_pos hrt]

/-- Witness for C9 at text `"HI"`, `rails = 1`, `rows = 0`, `cols = 3`. -/
theorem claim_C9_witness :
    ((1 : Int) < 2 ∨ ([72, 73] : Str) = []) ∧ ((0 : Int) < 1 ∨ (3 : Int) < 1) ∧
    rail_fence_encrypt [72, 73] 1 = [72, 73] ∧
    rail_fence_decrypt [72, 73] 1 = [72, 73] ∧
    route_encrypt [72, 73] 0 3 = [72, 73] ∧
    route_decrypt [72, 73] 0 3 = [72, 73] :=
  ⟨Or.inl (by decide), Or.inl (by decide),
    claim_C9_edge_passthrough [72, 73] 1 0 3 (Or.inl (by decide)) (Or.inl (by decide))⟩

/-- C3 (amended): an empty key is not reported as an error by any of the
keyed classical ciphers.  Vigenère, Vernam, Playfair and Columnar
encryption and decryption all return the input unchanged, and
`hill_decrypt` fails — the empty key yields the all-'A' (all-zero)
matrix, whose determinant 0 is not invertible mod 26 — but
`hill_encrypt` happily produces transformed output with that same
matrix (every block is mapped to `"AA"`), contradicting the claimed
"no transformed text is returned". -/
theorem claim_C3_empty_key (text : Str) :
    vigenere_encrypt text [] = text ∧ vigenere_decrypt text [] = text ∧
    vernam_encrypt text [] = text ∧ vernam_decrypt text [] = text ∧
    playfair_encrypt text [] = text ∧ playfair_decrypt text [] = text ∧
    columnar_encrypt text [] = text ∧ columnar_decrypt text [] = text ∧
    hill_decrypt text [] 2 = none ∧
    hill_encrypt [65, 66] [] 2 = [65, 65] := by
  refine ⟨?_, ?_, ?_, ?_, ?_, ?_, ?_, ?_, ?_, by decide⟩
  · rw [vigenere_encrypt, if_pos rfl]
  · rw [vigenere_decrypt, if_pos rfl]
  · rw [vernam_encrypt, if_pos rfl]
  · rw [vernam_decrypt, vernam_encrypt, if_pos rfl]
  · rw [playfair_encrypt, if_pos (Or.inl rfl)]
  · rw [playfair_decrypt, if_pos (Or.inl rfl)]
  · rw [columnar_encrypt, if_pos rfl]
  · rw [columnar_decrypt, if_pos rfl]
  · rw [hill_decrypt]
    have h1 : hill_matrix_inverse (hill_create_matrix [] (if (2:Int) < 2 ∨ 3 < (2:Int) then 2 else (2:Int).toNat)) = none := by decide
    rw [h1]

/-- Counterexample to C3 as stated: invoked with an empty key,
`hill_encrypt` returns transformed text (no error), and the other keyed
ciphers return the input unchanged rather than reporting an error. -/
theorem claim_C3_counterexample :
    hill_encrypt [65, 66] [] 2 = [65, 65] ∧ ([65, 65] : Str) ≠ [65, 66] ∧
    vigenere_encrypt [65, 66] [] = [65, 66] := by
  refine ⟨by decide, by decide, by decide⟩

/- Spiral-walk lemmas. -/

lemma rPath_length (rows cols : Int) : ∀ (n : Nat) (s : RState),
    (rPath rows cols n s).length = n := by
  intro n
  induction n with
  | zero => intro s; rfl
  | succ m ih =>
    intro s
    rw [rPath, List.length_cons, ih]

lemma rIter_add (rows cols : Int) : ∀ (a b : Nat) (s : RState),
    rIter rows cols (a + b) s = rIter rows cols b (rIter rows cols a s) := by
  intro a
  induction a with
  | zero => intro b s; rw [Nat.zero_add]; rfl
  | succ m ih =>
    intro b s
    rw [show m + 1 + b = (m + b) + 1 from by omega]
    rw [rIter, ih, rIter]

lemma rPath_add (rows cols : Int) : ∀ (a b : Nat) (s : RState),
    rPath rows cols (a + b) s
      = rPath rows cols a s ++ rPath rows cols b (rIter rows cols a s) := by
  intro a
  induction a with
  | zero => intro b s; rw [Nat.zero_add]; rfl
  | succ m ih =>
    intro b s
    rw [show m + 1 + b = (m + b) + 1 from by omega]
    rw [rPath, rPath, ih, rIter]
    rfl

lemma rBlocked_congr {R C : Int} {v1 v2 : Int → Int → Bool} {r c : Int}
    (h : v1 r c = v2 r c) : rBlocked R C v1 r c = rBlocked R C v2 r c := by
  unfold rBlocked
  rw [h]

/-- The visited predicate after walking a straight segment of `m` cells
from `(r, c)` with step `δ`: the segment cells are marked on top of the
base predicate. -/
def segMarks (r c : Int) (δ : Int × Int) (m : Nat) (vis : Int → Int → Bool) :
    Int → Int → Bool :=
  fun a b => (List.range m).any
    (fun (t : Nat) => decide (a = r + (t : Int) * δ.1) && decide (b = c + (t : Int) * δ.2))
    || vis a b

lemma segMarks_zero (r c : Int) (δ : Int × Int) (vis : Int → Int → Bool) :
    segMarks r c δ 0 vis = vis := by
  funext a b
  simp [segMarks]

lemma segMarks_eq_true_iff (r c : Int) (δ : Int × Int) (m : Nat)
    (vis : Int → Int → Bool) (a b : Int) :
    segMarks r c δ m vis a b = true
      ↔ (∃ t : Nat, t < m ∧ a = r + (t : Int) * δ.1 ∧ b = c + (t : Int) * δ.2)
        ∨ vis a b = true := by
  unfold segMarks
  rw [Bool.or_eq_true]
  constructor
  · rintro (h | h)
    · rw [List.any_eq_true] at h
      obtain ⟨t, ht, hb⟩ := h
      rw [List.mem_range] at ht
      rw [Bool.and_eq_true, decide_eq_true_iff, decide_eq_true_iff] at hb
      exact Or.inl ⟨t, ht, hb.1, hb.2⟩
    · exact Or.inr h
  · rintro (⟨t, ht, h1, h2⟩ | h)
    · refine Or.inl ?_
      rw [List.any_eq_true]
      refine ⟨t, List.mem_range.mpr ht, ?_⟩
      rw [Bool.and_eq_true, decide_eq_true_iff, decide_eq_true_iff]
      exact ⟨h1, h2⟩
    · exact Or.inr h

lemma rdir_ne_zero {d : Nat} (t : Nat) (ht : 1 ≤ t) :
    ¬((t : Int) * (rdir d).1 = 0 ∧ (t : Int) * (rdir d).2 = 0) := by
  match d with
  | 0 => simp [rdir]; omega
  | 1 => simp [rdir]; omega
  | 2 => simp [rdir]; omega
  | n + 3 => simp [rdir]; omega

/-- Walking a straight segment: if the `m` cells ahead in direction `d`
are in bounds and unvisited, the walker advances `m` cells without
turning, records exactly those cells, and marks them visited. -/
lemma rSeg (R C : Int) (d : Nat) :
    ∀ (m : Nat) (r c : Int) (vis : Int → Int → Bool),
    (∀ t : Nat, 1 ≤ t → t ≤ m →
      rBlocked R C vis (r + (t : Int) * (rdir d).1) (c + (t : Int) * (rdir d).2) = false) →
    rIter R C m ⟨r, c, d, vis⟩
      = ⟨r + (m : Int) * (rdir d).1, c + (m : Int) * (rdir d).2, d,
         segMarks r c (rdir d) m vis⟩
    ∧ rPath R C m ⟨r, c, d, vis⟩
      = (List.range m).map
          (fun (t : Nat) => (r + (t : Int) * (rdir d).1, c + (t : Int) * (rdir d).2)) := by
  intro m
  induction m with
  | zero =>
    intro r c vis _
    refine ⟨?_, by simp [rPath]⟩
    show (⟨r, c, d, vis⟩ : RState) = _
    rw [segMarks_zero]
    have h1 : r + ((0 : Nat) : Int) * (rdir d).1 = r := by push_cast; ring
    have h2 : c + ((0 : Nat) : Int) * (rdir d).2 = c := by push_cast; ring
    rw [h1, h2]
  | succ m ih =>
    intro r c vis hfree
    have hb1 : rBlocked R C vis (r + (rdir d).1) (c + (rdir d).2) = false := by
      have := hfree 1 (le_refl 1) (by omega)
      simpa using this
    have hmark1 : (fun a b => if a = r ∧ b = c then true else vis a b)
        (r + (rdir d).1) (c + (rdir d).2) = vis (r + (rdir d).1) (c + (rdir d).2) := by
      have hne := rdir_ne_zero (d := d) 1 (le_refl 1)
      exact if_neg (by
        rintro ⟨h1, h2⟩
        exact hne ⟨by push_cast; omega, by push_cast; omega⟩)
    have hstep : rStep R C ⟨r, c, d, vis⟩
        = ⟨r + (rdir d).1, c + (rdir d).2, d,
           fun a b => if a = r ∧ b = c then true else vis a b⟩ := by
      simp only [rStep]
      rw [if_neg (by
        rw [rBlocked_congr hmark1, hb1]
        simp)]
    have hfree' : ∀ t : Nat, 1 ≤ t → t ≤ m →
        rBlocked R C (fun a b => if a = r ∧ b = c then true else vis a b)
          ((r + (rdir d).1) + (t : Int) * (rdir d).1)
          ((c + (rdir d).2) + (t : Int) * (rdir d).2) = false := by
      intro t h1 h2
      have hne := rdir_ne_zero (d := d) (t + 1) (by omega)
      have hmk : (fun a b => if a = r ∧ b = c then true else vis a b)
          ((r + (rdir d).1) + (t : Int) * (rdir d).1)
          ((c + (rdir d).2) + (t : Int) * (rdir d).2)
          = vis ((r + (rdir d).1) + (t : Int) * (rdir d).1)
              ((c + (rdir d).2) + (t : Int) * (rdir d).2) :=
        if_neg (by
          rintro ⟨ha, hb⟩
          refine hne ⟨?_, ?_⟩
          · push_cast
            push_cast at ha
            linarith [ha]
          · push_cast
            push_cast at hb
            linarith [hb])
      rw [rBlocked_congr hmk]
      have heq1 : (r + (rdir d).1) + (t : Int) * (rdir d).1
          = r + ((t + 1 : Nat) : Int) * (rdir d).1 := by push_cast; ring
      have heq2 : (c + (rdir d).2) + (t : Int) * (rdir d).2
          = c + ((t + 1 : Nat) : Int) * (rdir d).2 := by push_cast; ring
      rw [heq1, heq2]
      exact hfree (t + 1) (by omega) (by omega)
    obtain ⟨hIs, hIp⟩ := ih (r + (rdir d).1) (c + (rdir d).2)
      (fun a b => if a = r ∧ b = c then true else vis a b) hfree'
    constructor
    · show rIter R C m (rStep R C ⟨r, c, d, vis⟩) = _
      rw [hstep, hIs]
      have h1 : (r + (rdir d).1) + (m : Int) * (rdir d).1
          = r + ((m + 1 : Nat) : Int) * (rdir d).1 := by push_cast; ring
      have h2 : (c + (rdir d).2) + (m : Int) * (rdir d).2
          = c + ((m + 1 : Nat) : Int) * (rdir d).2 := by push_cast; ring
      rw [h1, h2]
      have h3 : segMarks (r + (rdir d).1) (c + (rdir d).2) (rdir d) m
          (fun a b => if a = r ∧ b = c then true else vis a b)
          = segMarks r c (rdir d) (m + 1) vis := by
        funext a b
        rw [Bool.eq_iff_iff, segMarks_eq_true_iff, segMarks_eq_true_iff]
        constructor
        · rintro (⟨t, ht, ha, hb⟩ | h)
          · refine Or.inl ⟨t + 1, by omega, ?_, ?_⟩
            · rw [ha]; push_cast; ring
            · rw [hb]; push_cast; ring
          · have h' : (if a = r ∧ b = c then true else vis a b) = true := h
            by_cases hrc : a = r ∧ b = c
            · refine Or.inl ⟨0, by omega, ?_, ?_⟩
              · rw [hrc.1]; push_cast; ring
              · rw [hrc.2]; push_cast; ring
            · rw [if_neg hrc] at h'
              exact Or.inr h'
        · rintro (⟨t, ht, ha, hb⟩ | h)
          · match t with
            | 0 =>
              refine Or.inr ?_
              show (if a = r ∧ b = c then true else vis a b) = true
              rw [if_pos ⟨by rw [ha]; push_cast; ring, by rw [hb]; push_cast; ring⟩]
            | t' + 1 =>
              refine Or.inl ⟨t', by omega, ?_, ?_⟩
              · rw [ha]; push_cast; ring
              · rw [hb]; push_cast; ring
          · refine Or.inr ?_
            show (if a = r ∧ b = c then true else vis a b) = true
            by_cases hrc : a = r ∧ b = c
            · rw [if_pos hrc]
            · rw [if_neg hrc]
              exact h
      rw [h3]
    · show rPath R C (m + 1) ⟨r, c, d, vis⟩ = _
      rw [rPath, hstep, hIp]
      rw [List.range_succ_eq_map, List.map_cons, List.map_map]
      congr 1
      · show (r, c) = _
        have h1 : r + ((0 : Nat) : Int) * (rdir d).1 = r := by push_cast; ring
        have h2 : c + ((0 : Nat) : Int) * (rdir d).2 = c := by push_cast; ring
        rw [h1, h2]
      · refine List.map_congr_left (fun t _ => ?_)
        show ((r + (rdir d).1) + (t : Int) * (rdir d).1,
              (c + (rdir d).2) + (t : Int) * (rdir d).2) = _
        have h1 : (r + (rdir d).1) + (t : Int) * (rdir d).1
            = r + ((Nat.succ t : Nat) : Int) * (rdir d).1 := by push_cast; ring
        have h2 : (c + (rdir d).2) + (t : Int) * (rdir d).2
            = c + ((Nat.succ t : Nat) : Int) * (rdir d).2 := by push_cast; ring
        rw [h1, h2]
        rfl

lemma rBlocked_eq_false {R C : Int} {vis : Int → Int → Bool} {r c : Int}
    (h1 : 0 ≤ r) (h2 : r < R) (h3 : 0 ≤ c) (h4 : c < C) (h5 : vis r c = false) :
    rBlocked R C vis r c = false := by
  unfold rBlocked
  rw [decide_eq_false (by omega : ¬(r < 0)), decide_eq_false (by omega : ¬(R ≤ r)),
    decide_eq_false (by omega : ¬(c < 0)), decide_eq_false (by omega : ¬(C ≤ c)), h5]
  rfl

lemma rBlocked_of_col_hi {R C : Int} {vis : Int → Int → Bool} {r c : Int}
    (h : C ≤ c) : rBlocked R C vis r c = true := by
  unfold rBlocked
  rw [decide_eq_true h]
  simp

lemma rBlocked_of_row_hi {R C : Int} {vis : Int → Int → Bool} {r c : Int}
    (h : R ≤ r) : rBlocked R C vis r c = true := by
  unfold rBlocked
  rw [decide_eq_true h]
  simp

lemma rBlocked_of_col_lo {R C : Int} {vis : Int → Int → Bool} {r c : Int}
    (h : c < 0) : rBlocked R C vis r c = true := by
  unfold rBlocked
  rw [decide_eq_true h]
  simp

lemma rBlocked_of_vis {R C : Int} {vis : Int → Int → Bool} {r c : Int}
    (h : vis r c = true) : rBlocked R C vis r c = true := by
  unfold rBlocked
  rw [h]
  simp

/-- A blocked probe makes the walker turn once and move in the new
direction. -/
lemma rStep_turn (R C : Int) (r c : Int) (d : Nat) (vis : Int → Int → Bool)
    (hblk : rBlocked R C (fun a b => if a = r ∧ b = c then true else vis a b)
      (r + (rdir d).1) (c + (rdir d).2) = true) :
    rStep R C ⟨r, c, d, vis⟩
      = ⟨r + (rdir ((d + 1) % 4)).1, c + (rdir ((d + 1) % 4)).2, (d + 1) % 4,
         fun a b => if a = r ∧ b = c then true else vis a b⟩ := by
  simp only [rStep]
  rw [if_pos hblk]

/-- Simulation of the walk on the inner grid: a walker on the
`R × C` grid whose position is offset by `(1,1)` from a walker on the
`(R-2) × (C-2)` grid, and whose blocked predicate agrees pointwise under
that offset, follows the offset of the inner walker's path. -/
lemma rSim (R C : Int) :
    ∀ (fuel : Nat) (sIn sOut : RState),
    sOut.row = sIn.row + 1 → sOut.col = sIn.col + 1 → sOut.dirIdx = sIn.dirIdx →
    (∀ a b : Int, rBlocked R C sOut.vis (a + 1) (b + 1)
      = rBlocked (R - 2) (C - 2) sIn.vis a b) →
    rPath R C fuel sOut
      = (rPath (R - 2) (C - 2) fuel sIn).map (fun p => (p.1 + 1, p.2 + 1)) := by
  intro fuel
  induction fuel with
  | zero => intro sIn sOut _ _ _ _; rfl
  | succ n ih =>
    intro sIn sOut hr hc hd hv
    have hv2 : ∀ a b : Int,
        rBlocked R C (fun a b => if a = sOut.row ∧ b = sOut.col then true else sOut.vis a b)
          (a + 1) (b + 1)
        = rBlocked (R - 2) (C - 2)
            (fun a b => if a = sIn.row ∧ b = sIn.col then true else sIn.vis a b) a b := by
      intro a b
      by_cases h : a = sIn.row ∧ b = sIn.col
      · have hOut : (fun a b => if a = sOut.row ∧ b = sOut.col then true else sOut.vis a b)
            (a + 1) (b + 1) = true := if_pos ⟨by rw [h.1, hr], by rw [h.2, hc]⟩
        have hIn : (fun a b => if a = sIn.row ∧ b = sIn.col then true else sIn.vis a b)
            a b = true := if_pos h
        rw [rBlocked_of_vis hOut, rBlocked_of_vis hIn]
      · have h1 : (fun a b => if a = sOut.row ∧ b = sOut.col then true else sOut.vis a b)
            (a + 1) (b + 1) = sOut.vis (a + 1) (b + 1) := if_neg (by
          rw [hr, hc]
          intro hcon
          exact h ⟨by omega, by omega⟩)
        have h2 : (fun a b => if a = sIn.row ∧ b = sIn.col then true else sIn.vis a b)
            a b = sIn.vis a b := if_neg h
        exact (rBlocked_congr h1).trans ((hv a b).trans (rBlocked_congr h2).symm)
    have hbr : rBlocked R C
        (fun a b => if a = sOut.row ∧ b = sOut.col then true else sOut.vis a b)
        (sOut.row + (rdir sOut.dirIdx).1) (sOut.col + (rdir sOut.dirIdx).2)
        = rBlocked (R - 2) (C - 2)
            (fun a b => if a = sIn.row ∧ b = sIn.col then true else sIn.vis a b)
            (sIn.row + (rdir sIn.dirIdx).1) (sIn.col + (rdir sIn.dirIdx).2) := by
      have h := hv2 (sIn.row + (rdir sIn.dirIdx).1) (sIn.col + (rdir sIn.dirIdx).2)
      rw [show sOut.row + (rdir sOut.dirIdx).1 = (sIn.row + (rdir sIn.dirIdx).1) + 1 from by
          rw [hr, hd]; ring,
        show sOut.col + (rdir sOut.dirIdx).2 = (sIn.col + (rdir sIn.dirIdx).2) + 1 from by
          rw [hc, hd]; ring]
      exact h
    rw [rPath, rPath, List.map_cons]
    congr 1
    · rw [hr, hc]
    · refine ih (rStep (R - 2) (C - 2) sIn) (rStep R C sOut) ?_ ?_ ?_ ?_
      all_goals
        by_cases hB : rBlocked (R - 2) (C - 2)
            (fun a b => if a = sIn.row ∧ b = sIn.col then true else sIn.vis a b)
            (sIn.row + (rdir sIn.dirIdx).1) (sIn.col + (rdir sIn.dirIdx).2) = true
      · simp only [rStep]
        rw [if_pos (by rw [hbr]; exact hB), if_pos hB]
        show sOut.row + _ = sIn.row + _ + 1
        rw [hr, hd]
        ring
      · simp only [rStep]
        rw [if_neg (by rw [hbr]; exact hB), if_neg hB]
        show sOut.row + _ = sIn.row + _ + 1
        rw [hr, hd]
        ring
      · simp only [rStep]
        rw [if_pos (by rw [hbr]; exact hB), if_pos hB]
        show sOut.col + _ = sIn.col + _ + 1
        rw [hc, hd]
        ring
      · simp only [rStep]
        rw [if_neg (by rw [hbr]; exact hB), if_neg hB]
        show sOut.col + _ = sIn.col + _ + 1
        rw [hc, hd]
        ring
      · simp only [rStep]
        rw [if_pos (by rw [hbr]; exact hB), if_pos hB]
        show (sOut.dirIdx + 1) % 4 = (sIn.dirIdx + 1) % 4
        rw [hd]
      · simp only [rStep]
        rw [if_neg (by rw [hbr]; exact hB), if_neg hB]
        exact hd
      · simp only [rStep]
        rw [if_pos (by rw [hbr]; exact hB), if_pos hB]
        exact hv2
      · simp only [rStep]
        rw [if_neg (by rw [hbr]; exact hB), if_neg hB]
        exact hv2

/-- The outer ring of an `R × C` grid (`R, C ≥ 3`): starting at `(0,0)`
heading right, the walker traverses the whole ring in `2R + 2C - 4`
steps, finishing at `(1,1)` heading right with exactly the ring cells
visited, and the ring cells are all on the recorded path. -/
lemma rRing (R C : Nat) (hR : 3 ≤ R) (hC : 3 ≤ C) :
    ∃ visF : Int → Int → Bool,
      rIter (R : Int) (C : Int) (2 * R + 2 * C - 4) rInit = ⟨1, 1, 0, visF⟩
      ∧ (∀ a b : Int, visF a b = true ↔
          (0 ≤ a ∧ a < (R : Int) ∧ 0 ≤ b ∧ b < (C : Int) ∧
            (a = 0 ∨ a = (R : Int) - 1 ∨ b = 0 ∨ b = (C : Int) - 1)))
      ∧ (∀ a b : Int, 0 ≤ a → a < (R : Int) → 0 ≤ b → b < (C : Int) →
          (a = 0 ∨ a = (R : Int) - 1 ∨ b = 0 ∨ b = (C : Int) - 1) →
          (a, b) ∈ rPath (R : Int) (C : Int) (2 * R + 2 * C - 4) rInit) := by
  have hfuel : 2 * R + 2 * C - 4
      = (C - 1) + (1 + ((R - 2) + (1 + ((C - 2) + (1 + ((R - 3) + 1)))))) := by omega
  have i1 : ∀ s : RState, rIter (R : Int) (C : Int) 1 s = rStep (R : Int) (C : Int) s :=
    fun s => rfl
  have p1 : ∀ s : RState, rPath (R : Int) (C : Int) 1 s = [(s.row, s.col)] :=
    fun s => rfl
  -- Phase 1: along the top row.
  have hfree1 : ∀ t : Nat, 1 ≤ t → t ≤ C - 1 →
      rBlocked (R : Int) (C : Int) (fun _ _ => false)
        ((0 : Int) + (t : Int) * (rdir 0).1) ((0 : Int) + (t : Int) * (rdir 0).2) = false := by
    intro t h1 h2
    have e1 : (0 : Int) + (t : Int) * (rdir 0).1 = 0 := by simp [rdir]
    have e2 : (0 : Int) + (t : Int) * (rdir 0).2 = (t : Int) := by simp [rdir]
    rw [e1, e2]
    exact rBlocked_eq_false (by omega) (by omega) (by omega) (by omega) rfl
  obtain ⟨h1s, h1p⟩ := rSeg (R : Int) (C : Int) 0 (C - 1) 0 0 (fun _ _ => false) hfree1
  have e11 : (0 : Int) + ((C - 1 : Nat) : Int) * (rdir 0).1 = 0 := by simp [rdir]
  have e12 : (0 : Int) + ((C - 1 : Nat) : Int) * (rdir 0).2 = ((C - 1 : Nat) : Int) := by
    simp [rdir]
  rw [e11, e12] at h1s
  set v1 : Int → Int → Bool := segMarks 0 0 (rdir 0) (C - 1) (fun _ _ => false) with hv1def
  have hv1 : ∀ a b : Int, v1 a b = true ↔ (a = 0 ∧ 0 ≤ b ∧ b < ((C - 1 : Nat) : Int)) := by
    intro a b
    rw [hv1def, segMarks_eq_true_iff]
    constructor
    · rintro (⟨t, ht, ha, hb⟩ | h)
      · have e1 : (0 : Int) + (t : Int) * (rdir 0).1 = 0 := by simp [rdir]
        have e2 : (0 : Int) + (t : Int) * (rdir 0).2 = (t : Int) := by simp [rdir]
        rw [e1] at ha
        rw [e2] at hb
        omega
      · exact absurd h (by simp)
    · rintro ⟨ha, hb1, hb2⟩
      refine Or.inl ⟨b.toNat, by omega, ?_, ?_⟩
      · have e1 : (0 : Int) + ((b.toNat : Nat) : Int) * (rdir 0).1 = 0 := by simp [rdir]
        rw [e1]
        omega
      · have e2 : (0 : Int) + ((b.toNat : Nat) : Int) * (rdir 0).2 = ((b.toNat : Nat) : Int) := by
          simp [rdir]
        rw [e2]
        omega
  -- Corner 1: top-right.
  have hblk1 : rBlocked (R : Int) (C : Int)
      (fun a b => if a = 0 ∧ b = ((C - 1 : Nat) : Int) then true else v1 a b)
      ((0 : Int) + (rdir 0).1) (((C - 1 : Nat) : Int) + (rdir 0).2) = true := by
    refine rBlocked_of_col_hi ?_
    have e : (rdir 0).2 = 1 := rfl
    rw [e]
    omega
  have hc1 := rStep_turn (R : Int) (C : Int) 0 ((C - 1 : Nat) : Int) 0 v1 hblk1
  rw [show (0 + 1) % 4 = 1 from rfl] at hc1
  rw [show (0 : Int) + (rdir 1).1 = 1 from by simp [rdir]] at hc1
  rw [show ((C - 1 : Nat) : Int) + (rdir 1).2 = ((C - 1 : Nat) : Int) from by simp [rdir]] at hc1
  set v1' : Int → Int → Bool :=
    fun a b => if a = 0 ∧ b = ((C - 1 : Nat) : Int) then true else v1 a b with hv1'def
  have hv1' : ∀ a b : Int, v1' a b = true ↔ (a = 0 ∧ 0 ≤ b ∧ b < (C : Int)) := by
    intro a b
    show (if a = 0 ∧ b = ((C - 1 : Nat) : Int) then true else v1 a b) = true ↔ _
    by_cases h : a = 0 ∧ b = ((C - 1 : Nat) : Int)
    · rw [if_pos h]
      constructor
      · intro _
        omega
      · intro _
        rfl
    · rw [if_neg h, hv1 a b]
      omega
  -- Phase 2: down the right column.
  have hfree2 : ∀ t : Nat, 1 ≤ t → t ≤ R - 2 →
      rBlocked (R : Int) (C : Int) v1'
        ((1 : Int) + (t : Int) * (rdir 1).1)
        (((C - 1 : Nat) : Int) + (t : Int) * (rdir 1).2) = false := by
    intro t h1 h2
    have e1 : (1 : Int) + (t : Int) * (rdir 1).1 = 1 + (t : Int) := by simp [rdir]
    have e2 : ((C - 1 : Nat) : Int) + (t : Int) * (rdir 1).2 = ((C - 1 : Nat) : Int) := by
      simp [rdir]
    rw [e1, e2]
    refine rBlocked_eq_false (by omega) (by omega) (by omega) (by omega) ?_
    rw [Bool.eq_false_iff]
    intro hcon
    rw [hv1'] at hcon
    omega
  obtain ⟨h2s, h2p⟩ := rSeg (R : Int) (C : Int) 1 (R - 2) 1 ((C - 1 : Nat) : Int) v1' hfree2
  rw [show (1 : Int) + ((R - 2 : Nat) : Int) * (rdir 1).1 = ((R - 1 : Nat) : Int) from by
    simp [rdir]; omega] at h2s
  rw [show ((C - 1 : Nat) : Int) + ((R - 2 : Nat) : Int) * (rdir 1).2 = ((C - 1 : Nat) : Int)
    from by simp [rdir]] at h2s
  set v2 : Int → Int → Bool := segMarks 1 ((C - 1 : Nat) : Int) (rdir 1) (R - 2) v1' with hv2def
  have hv2 : ∀ a b : Int, v2 a b = true ↔
      ((b = ((C - 1 : Nat) : Int) ∧ 1 ≤ a ∧ a < ((R - 1 : Nat) : Int))
        ∨ (a = 0 ∧ 0 ≤ b ∧ b < (C : Int))) := by
    intro a b
    rw [hv2def, segMarks_eq_true_iff]
    constructor
    · rintro (⟨t, ht, ha, hb⟩ | h)
      · have e1 : (1 : Int) + (t : Int) * (rdir 1).1 = 1 + (t : Int) := by simp [rdir]
        have e2 : ((C - 1 : Nat) : Int) + (t : Int) * (rdir 1).2 = ((C - 1 : Nat) : Int) := by
          simp [rdir]
        rw [e1] at ha
        rw [e2] at hb
        omega
      · rw [hv1'] at h
        omega
    · rintro (⟨hb, h1, h2⟩ | hreg)
      · refine Or.inl ⟨(a - 1).toNat, by omega, ?_, ?_⟩
        · have e1 : (1 : Int) + (((a - 1).toNat : Nat) : Int) * (rdir 1).1
              = 1 + (((a - 1).toNat : Nat) : Int) := by simp [rdir]
          rw [e1]
          omega
        · have e2 : ((C - 1 : Nat) : Int) + (((a - 1).toNat : Nat) : Int) * (rdir 1).2
              = ((C - 1 : Nat) : Int) := by simp [rdir]
          rw [e2]
          omega
      · exact Or.inr ((hv1' a b).mpr (by omega))
  -- Corner 2: bottom-right.
  have hblk2 : rBlocked (R : Int) (C : Int)
      (fun a b => if a = ((R - 1 : Nat) : Int) ∧ b = ((C - 1 : Nat) : Int) then true else v2 a b)
      (((R - 1 : Nat) : Int) + (rdir 1).1) (((C - 1 : Nat) : Int) + (rdir 1).2) = true := by
    refine rBlocked_of_row_hi ?_
    have e : (rdir 1).1 = 1 := rfl
    rw [e]
    omega
  have hc2 := rStep_turn (R : Int) (C : Int) ((R - 1 : Nat) : Int) ((C - 1 : Nat) : Int) 1 v2 hblk2
  rw [show (1 + 1) % 4 = 2 from rfl] at hc2
  rw [show ((R - 1 : Nat) : Int) + (rdir 2).1 = ((R - 1 : Nat) : Int) from by simp [rdir]] at hc2
  rw [show ((C - 1 : Nat) : Int) + (rdir 2).2 = ((C - 2 : Nat) : Int) from by
    simp [rdir]; omega] at hc2
  set v2' : Int → Int → Bool :=
    fun a b => if a = ((R - 1 : Nat) : Int) ∧ b = ((C - 1 : Nat) : Int) then true else v2 a b
    with hv2'def
  have hv2' : ∀ a b : Int, v2' a b = true ↔
      ((b = ((C - 1 : Nat) : Int) ∧ 1 ≤ a ∧ a ≤ ((R - 1 : Nat) : Int))
        ∨ (a = 0 ∧ 0 ≤ b ∧ b < (C : Int))) := by
    intro a b
    show (if a = ((R - 1 : Nat) : Int) ∧ b = ((C - 1 : Nat) : Int) then true else v2 a b)
      = true ↔ _
    by_cases h : a = ((R - 1 : Nat) : Int) ∧ b = ((C - 1 : Nat) : Int)
    · rw [if_pos h]
      constructor
      · intro _
        omega
      · intro _
        rfl
    · rw [if_neg h, hv2 a b]
      omega
  -- Phase 3: along the bottom row, right to left.
  have hfree3 : ∀ t : Nat, 1 ≤ t → t ≤ C - 2 →
      rBlocked (R : Int) (C : Int) v2'
        (((R - 1 : Nat) : Int) + (t : Int) * (rdir 2).1)
        (((C - 2 : Nat) : Int) + (t : Int) * (rdir 2).2) = false := by
    intro t h1 h2
    have e1 : ((R - 1 : Nat) : Int) + (t : Int) * (rdir 2).1 = ((R - 1 : Nat) : Int) := by
      simp [rdir]
    have e2 : ((C - 2 : Nat) : Int) + (t : Int) * (rdir 2).2
        = ((C - 2 : Nat) : Int) - (t : Int) := by
      simp [rdir]
      ring
    rw [e1, e2]
    refine rBlocked_eq_false (by omega) (by omega) (by omega) (by omega) ?_
    rw [Bool.eq_false_iff]
    intro hcon
    rw [hv2'] at hcon
    omega
  obtain ⟨h3s, h3p⟩ := rSeg (R : Int) (C : Int) 2 (C - 2)
    ((R - 1 : Nat) : Int) ((C - 2 : Nat) : Int) v2' hfree3
  rw [show ((R - 1 : Nat) : Int) + ((C - 2 : Nat) : Int) * (rdir 2).1 = ((R - 1 : Nat) : Int)
    from by simp [rdir]] at h3s
  rw [show ((C - 2 : Nat) : Int) + ((C - 2 : Nat) : Int) * (rdir 2).2 = 0 from by
    simp [rdir]] at h3s
  set v3 : Int → Int → Bool :=
    segMarks ((R - 1 : Nat) : Int) ((C - 2 : Nat) : Int) (rdir 2) (C - 2) v2' with hv3def
  have hv3 : ∀ a b : Int, v3 a b = true ↔
      ((a = ((R - 1 : Nat) : Int) ∧ 1 ≤ b ∧ b ≤ ((C - 2 : Nat) : Int))
        ∨ (b = ((C - 1 : Nat) : Int) ∧ 1 ≤ a ∧ a ≤ ((R - 1 : Nat) : Int))
        ∨ (a = 0 ∧ 0 ≤ b ∧ b < (C : Int))) := by
    intro a b
    rw [hv3def, segMarks_eq_true_iff]
    constructor
    · rintro (⟨t, ht, ha, hb⟩ | h)
      · have e1 : ((R - 1 : Nat) : Int) + (t : Int) * (rdir 2).1 = ((R - 1 : Nat) : Int) := by
          simp [rdir]
        have e2 : ((C - 2 : Nat) : Int) + (t : Int) * (rdir 2).2
            = ((C - 2 : Nat) : Int) - (t : Int) := by
          simp [rdir]
          ring
        rw [e1] at ha
        rw [e2] at hb
        omega
      · rw [hv2'] at h
        omega
    · rintro (⟨ha, h1, h2⟩ | hreg | hreg)
      · refine Or.inl ⟨(((C - 2 : Nat) : Int) - b).toNat, by omega, ?_, ?_⟩
        · have e1 : ((R - 1 : Nat) : Int)
              + (((((C - 2 : Nat) : Int) - b).toNat : Nat) : Int) * (rdir 2).1
              = ((R - 1 : Nat) : Int) := by simp [rdir]
          rw [e1]
          omega
        · have e2 : ((C - 2 : Nat) : Int)
              + (((((C - 2 : Nat) : Int) - b).toNat : Nat) : Int) * (rdir 2).2
              = ((C - 2 : Nat) : Int) - (((((C - 2 : Nat) : Int) - b).toNat : Nat) : Int) := by
            simp [rdir]
            ring
          rw [e2]
          omega
      · exact Or.inr ((hv2' a b).mpr (Or.inl hreg))
      · exact Or.inr ((hv2' a b).mpr (Or.inr hreg))
  -- Corner 3: bottom-left.
  have hblk3 : rBlocked (R : Int) (C : Int)
      (fun a b => if a = ((R - 1 : Nat) : Int) ∧ b = 0 then true else v3 a b)
      (((R - 1 : Nat) : Int) + (rdir 2).1) ((0 : Int) + (rdir 2).2) = true := by
    refine rBlocked_of_col_lo ?_
    have e : (rdir 2).2 = -1 := rfl
    rw [e]
    omega
  have hc3 := rStep_turn (R : Int) (C : Int) ((R - 1 : Nat) : Int) 0 2 v3 hblk3
  rw [show (2 + 1) % 4 = 3 from rfl] at hc3
  rw [show ((R - 1 : Nat) : Int) + (rdir 3).1 = ((R - 2 : Nat) : Int) from by
    simp [rdir]; omega] at hc3
  rw [show (0 : Int) + (rdir 3).2 = 0 from by simp [rdir]] at hc3
  set v3' : Int → Int → Bool :=
    fun a b => if a = ((R - 1 : Nat) : Int) ∧ b = 0 then true else v3 a b with hv3'def
  have hv3' : ∀ a b : Int, v3' a b = true ↔
      ((a = ((R - 1 : Nat) : Int) ∧ 0 ≤ b ∧ b ≤ ((C - 2 : Nat) : Int))
        ∨ (b = ((C - 1 : Nat) : Int) ∧ 1 ≤ a ∧ a ≤ ((R - 1 : Nat) : Int))
        ∨ (a = 0 ∧ 0 ≤ b ∧ b < (C : Int))) := by
    intro a b
    show (if a = ((R - 1 : Nat) : Int) ∧ b = 0 then true else v3 a b) = true ↔ _
    by_cases h : a = ((R - 1 : Nat) : Int) ∧ b = 0
    · rw [if_pos h]
      constructor
      · intro _
        omega
      · intro _
        rfl
    · rw [if_neg h, hv3 a b]
      omega
  -- Phase 4: up the left column.
  have hfree4 : ∀ t : Nat, 1 ≤ t → t ≤ R - 3 →
      rBlocked (R : Int) (C : Int) v3'
        (((R - 2 : Nat) : Int) + (t : Int) * (rdir 3).1)
        ((0 : Int) + (t : Int) * (rdir 3).2) = false := by
    intro t h1 h2
    have e1 : ((R - 2 : Nat) : Int) + (t : Int) * (rdir 3).1
        = ((R - 2 : Nat) : Int) - (t : Int) := by
      simp [rdir]
      ring
    have e2 : (0 : Int) + (t : Int) * (rdir 3).2 = 0 := by simp [rdir]
    rw [e1, e2]
    refine rBlocked_eq_false (by omega) (by omega) (by omega) (by omega) ?_
    rw [Bool.eq_false_iff]
    intro hcon
    rw [hv3'] at hcon
    omega
  obtain ⟨h4s, h4p⟩ := rSeg (R : Int) (C : Int) 3 (R - 3) ((R - 2 : Nat) : Int) 0 v3' hfree4
  rw [show ((R - 2 : Nat) : Int) + ((R - 3 : Nat) : Int) * (rdir 3).1 = 1 from by
    simp [rdir]; omega] at h4s
  rw [show (0 : Int) + ((R - 3 : Nat) : Int) * (rdir 3).2 = 0 from by simp [rdir]] at h4s
  set v4 : Int → Int → Bool := segMarks ((R - 2 : Nat) : Int) 0 (rdir 3) (R - 3) v3' with hv4def
  have hv4 : ∀ a b : Int, v4 a b = true ↔
      ((b = 0 ∧ 2 ≤ a ∧ a ≤ ((R - 2 : Nat) : Int))
        ∨ (a = ((R - 1 : Nat) : Int) ∧ 0 ≤ b ∧ b ≤ ((C - 2 : Nat) : Int))
        ∨ (b = ((C - 1 : Nat) : Int) ∧ 1 ≤ a ∧ a ≤ ((R - 1 : Nat) : Int))
        ∨ (a = 0 ∧ 0 ≤ b ∧ b < (C : Int))) := by
    intro a b
    rw [hv4def, segMarks_eq_true_iff]
    constructor
    · rintro (⟨t, ht, ha, hb⟩ | h)
      · have e1 : ((R - 2 : Nat) : Int) + (t : Int) * (rdir 3).1
            = ((R - 2 : Nat) : Int) - (t : Int) := by
          simp [rdir]
          ring
        have e2 : (0 : Int) + (t : Int) * (rdir 3).2 = 0 := by simp [rdir]
        rw [e1] at ha
        rw [e2] at hb
        omega
      · rw [hv3'] at h
        omega
    · rintro (⟨hb, h1, h2⟩ | hreg)
      · refine Or.inl ⟨(((R - 2 : Nat) : Int) - a).toNat, by omega, ?_, ?_⟩
        · have e1 : ((R - 2 : Nat) : Int)
              + (((((R - 2 : Nat) : Int) - a).toNat : Nat) : Int) * (rdir 3).1
              = ((R - 2 : Nat) : Int) - (((((R - 2 : Nat) : Int) - a).toNat : Nat) : Int) := by
            simp [rdir]
            ring
          rw [e1]
          omega
        · have e2 : (0 : Int)
              + (((((R - 2 : Nat) : Int) - a).toNat : Nat) : Int) * (rdir 3).2 = 0 := by
            simp [rdir]
          rw [e2]
          omega
      · exact Or.inr ((hv3' a b).mpr hreg)
  -- Corner 4: back at (1,0), turning into the interior.
  have hblk4 : rBlocked (R : Int) (C : Int)
      (fun a b => if a = 1 ∧ b = 0 then true else v4 a b)
      ((1 : Int) + (rdir 3).1) ((0 : Int) + (rdir 3).2) = true := by
    refine rBlocked_of_vis ?_
    have e1 : (1 : Int) + (rdir 3).1 = 0 := by simp [rdir]
    have e2 : (0 : Int) + (rdir 3).2 = 0 := by simp [rdir]
    rw [e1, e2]
    show (if (0 : Int) = 1 ∧ (0 : Int) = 0 then true else v4 0 0) = true
    rw [if_neg (by omega)]
    exact (hv4 0 0).mpr (by omega)
  have hc4 := rStep_turn (R : Int) (C : Int) 1 0 3 v4 hblk4
  rw [show (3 + 1) % 4 = 0 from rfl] at hc4
  rw [show (1 : Int) + (rdir 0).1 = 1 from by simp [rdir]] at hc4
  rw [show (0 : Int) + (rdir 0).2 = 1 from by simp [rdir]] at hc4
  set v4' : Int → Int → Bool := fun a b => if a = 1 ∧ b = 0 then true else v4 a b with hv4'def
  have hv4' : ∀ a b : Int, v4' a b = true ↔
      (0 ≤ a ∧ a < (R : Int) ∧ 0 ≤ b ∧ b < (C : Int) ∧
        (a = 0 ∨ a = (R : Int) - 1 ∨ b = 0 ∨ b = (C : Int) - 1)) := by
    intro a b
    show (if a = 1 ∧ b = 0 then true else v4 a b) = true ↔ _
    by_cases h : a = 1 ∧ b = 0
    · rw [if_pos h]
      constructor
      · intro _
        omega
      · intro _
        rfl
    · rw [if_neg h, hv4 a b]
      omega
  -- Assemble the iteration.
  have hiter : rIter (R : Int) (C : Int) (2 * R + 2 * C - 4) rInit = ⟨1, 1, 0, v4'⟩ := by
    rw [hfuel, rIter_add]
    rw [show rInit = (⟨0, 0, 0, fun _ _ => false⟩ : RState) from rfl]
    rw [h1s, rIter_add, i1, hc1]
    rw [rIter_add, h2s, rIter_add, i1, hc2]
    rw [rIter_add, h3s, rIter_add, i1, hc3]
    rw [rIter_add, h4s, i1, hc4]
  refine ⟨v4', hiter, hv4', ?_⟩
  -- Path coverage of the ring.
  intro a b ha0 haR hb0 hbC hring
  rw [hfuel, rPath_add]
  rw [show rInit = (⟨0, 0, 0, fun _ _ => false⟩ : RState) from rfl]
  rw [h1p, h1s]
  rw [rPath_add, p1, i1, hc1]
  rw [rPath_add, h2p, h2s]
  rw [rPath_add, p1, i1, hc2]
  rw [rPath_add, h3p, h3s]
  rw [rPath_add, p1, i1, hc3]
  rw [rPath_add, h4p, h4s]
  rw [p1]
  by_cases hTop : a = 0
  · by_cases hTR : b = ((C - 1 : Nat) : Int)
    · refine List.mem_append_right _ (List.mem_append_left _ ?_)
      have : (a, b) = ((⟨0, ((C - 1 : Nat) : Int), 0, v1⟩ : RState).row,
          (⟨0, ((C - 1 : Nat) : Int), 0, v1⟩ : RState).col) := by
        show (a, b) = (0, ((C - 1 : Nat) : Int))
        rw [hTop, hTR]
      rw [this]
      exact List.mem_singleton_self _
    · refine List.mem_append_left _ ?_
      refine List.mem_map.mpr ⟨b.toNat, List.mem_range.mpr (by omega), ?_⟩
      show ((0 : Int) + ((b.toNat : Nat) : Int) * (rdir 0).1,
        (0 : Int) + ((b.toNat : Nat) : Int) * (rdir 0).2) = (a, b)
      rw [show (0 : Int) + ((b.toNat : Nat) : Int) * (rdir 0).1 = 0 from by simp [rdir]]
      rw [show (0 : Int) + ((b.toNat : Nat) : Int) * (rdir 0).2 = ((b.toNat : Nat) : Int)
        from by simp [rdir]]
      rw [Prod.mk.injEq]
      omega
  · by_cases hRight : b = (C : Int) - 1
    · by_cases hBR : a = (R : Int) - 1
      · refine List.mem_append_right _ (List.mem_append_right _ (List.mem_append_right _
          (List.mem_append_left _ ?_)))
        have : (a, b) = ((⟨((R - 1 : Nat) : Int), ((C - 1 : Nat) : Int), 1, v2⟩ : RState).row,
            (⟨((R - 1 : Nat) : Int), ((C - 1 : Nat) : Int), 1, v2⟩ : RState).col) := by
          show (a, b) = (((R - 1 : Nat) : Int), ((C - 1 : Nat) : Int))
          rw [Prod.mk.injEq]
          omega
        rw [this]
        exact List.mem_singleton_self _
      · refine List.mem_append_right _ (List.mem_append_right _ (List.mem_append_left _ ?_))
        refine List.mem_map.mpr ⟨(a - 1).toNat, List.mem_range.mpr (by omega), ?_⟩
        show ((1 : Int) + (((a - 1).toNat : Nat) : Int) * (rdir 1).1,
          ((C - 1 : Nat) : Int) + (((a - 1).toNat : Nat) : Int) * (rdir 1).2) = (a, b)
        rw [show (1 : Int) + (((a - 1).toNat : Nat) : Int) * (rdir 1).1
            = 1 + (((a - 1).toNat : Nat) : Int) from by simp [rdir]]
        rw [show ((C - 1 : Nat) : Int) + (((a - 1).toNat : Nat) : Int) * (rdir 1).2
            = ((C - 1 : Nat) : Int) from by simp [rdir]]
        rw [Prod.mk.injEq]
        omega
    · by_cases hBot : a = (R : Int) - 1
      · by_cases hBL : b = 0
        · refine List.mem_append_right _ (List.mem_append_right _ (List.mem_append_right _
            (List.mem_append_right _ (List.mem_append_right _
              (List.mem_append_left _ ?_)))))
          have : (a, b) = ((⟨((R - 1 : Nat) : Int), 0, 2, v3⟩ : RState).row,
              (⟨((R - 1 : Nat) : Int), 0, 2, v3⟩ : RState).col) := by
            show (a, b) = (((R - 1 : Nat) : Int), 0)
            rw [Prod.mk.injEq]
            omega
          rw [this]
          exact List.mem_singleton_self _
        · refine List.mem_append_right _ (List.mem_append_right _ (List.mem_append_right _
            (List.mem_append_right _ (List.mem_append_left _ ?_))))
          refine List.mem_map.mpr ⟨(((C - 2 : Nat) : Int) - b).toNat,
            List.mem_range.mpr (by omega), ?_⟩
          show (((R - 1 : Nat) : Int)
              + (((((C - 2 : Nat) : Int) - b).toNat : Nat) : Int) * (rdir 2).1,
            ((C - 2 : Nat) : Int)
              + (((((C - 2 : Nat) : Int) - b).toNat : Nat) : Int) * (rdir 2).2) = (a, b)
          rw [show ((R - 1 : Nat) : Int)
              + (((((C - 2 : Nat) : Int) - b).toNat : Nat) : Int) * (rdir 2).1
              = ((R - 1 : Nat) : Int) from by simp [rdir]]
          rw [show ((C - 2 : Nat) : Int)
              + (((((C - 2 : Nat) : Int) - b).toNat : Nat) : Int) * (rdir 2).2
              = ((C - 2 : Nat) : Int) - (((((C - 2 : Nat) : Int) - b).toNat : Nat) : Int)
            from by simp [rdir]; ring]
          rw [Prod.mk.injEq]
          omega
      · have hLeft : b = 0 := by omega
        by_cases hC4 : a = 1
        · refine List.mem_append_right _ (List.mem_append_right _ (List.mem_append_right _
            (List.mem_append_right _ (List.mem_append_right _ (List.mem_append_right _
              (List.mem_append_right _ ?_))))))
          have : (a, b) = ((⟨1, 0, 3, v4⟩ : RState).row, (⟨1, 0, 3, v4⟩ : RState).col) := by
            show (a, b) = ((1 : Int), (0 : Int))
            rw [Prod.mk.injEq]
            omega
          rw [this]
          exact List.mem_singleton_self _
        · refine List.mem_append_right _ (List.mem_append_right _ (List.mem_append_right _
            (List.mem_append_right _ (List.mem_append_right _ (List.mem_append_right _
              (List.mem_append_left _ ?_))))))
          refine List.mem_map.mpr ⟨(((R - 2 : Nat) : Int) - a).toNat,
            List.mem_range.mpr (by omega), ?_⟩
          show (((R - 2 : Nat) : Int)
              + (((((R - 2 : Nat) : Int) - a).toNat : Nat) : Int) * (rdir 3).1,
            (0 : Int) + (((((R - 2 : Nat) : Int) - a).toNat : Nat) : Int) * (rdir 3).2) = (a, b)
          rw [show ((R - 2 : Nat) : Int)
              + (((((R - 2 : Nat) : Int) - a).toNat : Nat) : Int) * (rdir 3).1
              = ((R - 2 : Nat) : Int) - (((((R - 2 : Nat) : Int) - a).toNat : Nat) : Int)
            from by simp [rdir]; ring]
          rw [show (0 : Int) + (((((R - 2 : Nat) : Int) - a).toNat : Nat) : Int) * (rdir 3).2 = 0
            from by simp [rdir]]
          rw [Prod.mk.injEq]
          omega

lemma rBlocked_eq_true_iff {R C : Int} {vis : Int → Int → Bool} {r c : Int} :
    rBlocked R C vis r c = true
      ↔ (r < 0 ∨ R ≤ r ∨ c < 0 ∨ C ≤ c ∨ vis r c = true) := by
  unfold rBlocked
  simp [Bool.or_eq_true, decide_eq_true_iff]
  tauto

/-- Coverage of a single-row grid: the walker just runs right along the
row. -/
lemma rCovers_row1 (R C : Nat) (hR : R = 1) (hC : 1 ≤ C) (a b : Int)
    (ha0 : 0 ≤ a) (haR : a < (R : Int)) (hb0 : 0 ≤ b) (hbC : b < (C : Int)) :
    (a, b) ∈ rPath (R : Int) (C : Int) (R * C) rInit := by
  subst hR
  simp only [Nat.cast_one] at haR ⊢
  have p1 : ∀ s : RState, rPath (1 : Int) (C : Int) 1 s = [(s.row, s.col)] :=
    fun s => rfl
  have hfree1 : ∀ t : Nat, 1 ≤ t → t ≤ C - 1 →
      rBlocked (1 : Int) (C : Int) (fun _ _ => false)
        ((0 : Int) + (t : Int) * (rdir 0).1) ((0 : Int) + (t : Int) * (rdir 0).2) = false := by
    intro t h1 h2
    have e1 : (0 : Int) + (t : Int) * (rdir 0).1 = 0 := by simp [rdir]
    have e2 : (0 : Int) + (t : Int) * (rdir 0).2 = (t : Int) := by simp [rdir]
    rw [e1, e2]
    exact rBlocked_eq_false (by omega) (by omega) (by omega) (by omega) rfl
  obtain ⟨h1s, h1p⟩ := rSeg (1 : Int) (C : Int) 0 (C - 1) 0 0 (fun _ _ => false) hfree1
  rw [show (1 : Nat) * C = (C - 1) + 1 from by omega, rPath_add]
  rw [show rInit = (⟨0, 0, 0, fun _ _ => false⟩ : RState) from rfl]
  rw [h1p, h1s, p1]
  have ha : a = 0 := by omega
  by_cases hbc : b < ((C - 1 : Nat) : Int)
  · refine List.mem_append_left _ ?_
    refine List.mem_map.mpr ⟨b.toNat, List.mem_range.mpr (by omega), ?_⟩
    show ((0 : Int) + ((b.toNat : Nat) : Int) * (rdir 0).1,
      (0 : Int) + ((b.toNat : Nat) : Int) * (rdir 0).2) = (a, b)
    rw [show (0 : Int) + ((b.toNat : Nat) : Int) * (rdir 0).1 = 0 from by simp [rdir]]
    rw [show (0 : Int) + ((b.toNat : Nat) : Int) * (rdir 0).2 = ((b.toNat : Nat) : Int)
      from by simp [rdir]]
    rw [Prod.mk.injEq]
    omega
  · refine List.mem_append_right _ ?_
    show (a, b) ∈ [((0 : Int) + ((C - 1 : Nat) : Int) * (rdir 0).1,
      (0 : Int) + ((C - 1 : Nat) : Int) * (rdir 0).2)]
    rw [show (0 : Int) + ((C - 1 : Nat) : Int) * (rdir 0).1 = 0 from by simp [rdir]]
    rw [show (0 : Int) + ((C - 1 : Nat) : Int) * (rdir 0).2 = ((C - 1 : Nat) : Int)
      from by simp [rdir]]
    have hab : (a, b) = ((0 : Int), ((C - 1 : Nat) : Int)) := by
      rw [Prod.mk.injEq]
      omega
    rw [hab]
    exact List.mem_singleton_self _

lemma segMarks_false (r c : Int) (δ : Int × Int) (m : Nat) (vis : Int → Int → Bool)
    (a b : Int)
    (h1 : ¬∃ t : Nat, t < m ∧ a = r + (t : Int) * δ.1 ∧ b = c + (t : Int) * δ.2)
    (h2 : vis a b = false) : segMarks r c δ m vis a b = false := by
  rw [Bool.eq_false_iff]
  intro hc
  rw [segMarks_eq_true_iff] at hc
  rcases hc with h | h
  · exact h1 h
  · rw [h2] at h
    exact absurd h (by simp)

/-- Coverage of a single-column grid: one immediate turn, then straight
down. -/
lemma rCovers_col1 (R C : Nat) (hC : C = 1) (hR : 2 ≤ R) (a b : Int)
    (ha0 : 0 ≤ a) (haR : a < (R : Int)) (hb0 : 0 ≤ b) (hbC : b < (C : Int)) :
    (a, b) ∈ rPath (R : Int) (C : Int) (R * C) rInit := by
  have p1 : ∀ s : RState, rPath (R : Int) (C : Int) 1 s = [(s.row, s.col)] :=
    fun s => rfl
  have i1 : ∀ s : RState, rIter (R : Int) (C : Int) 1 s = rStep (R : Int) (C : Int) s :=
    fun s => rfl
  have hb : b = 0 := by omega
  have hblk0 : rBlocked (R : Int) (C : Int)
      (fun x y => if x = 0 ∧ y = 0 then true else (fun _ _ => false) x y)
      ((0 : Int) + (rdir 0).1) ((0 : Int) + (rdir 0).2) = true := by
    refine rBlocked_of_col_hi ?_
    have e : (rdir 0).2 = 1 := rfl
    rw [e]
    omega
  have hc0 := rStep_turn (R : Int) (C : Int) 0 0 0 (fun _ _ => false) hblk0
  rw [show (0 + 1) % 4 = 1 from rfl] at hc0
  rw [show (0 : Int) + (rdir 1).1 = 1 from by simp [rdir]] at hc0
  rw [show (0 : Int) + (rdir 1).2 = 0 from by simp [rdir]] at hc0
  have hfree2 : ∀ t : Nat, 1 ≤ t → t ≤ R - 2 →
      rBlocked (R : Int) (C : Int)
        (fun x y => if x = 0 ∧ y = 0 then true else (fun _ _ => false) x y)
        ((1 : Int) + (t : Int) * (rdir 1).1) ((0 : Int) + (t : Int) * (rdir 1).2) = false := by
    intro t h1 h2
    have e1 : (1 : Int) + (t : Int) * (rdir 1).1 = 1 + (t : Int) := by simp [rdir]
    have e2 : (0 : Int) + (t : Int) * (rdir 1).2 = 0 := by simp [rdir]
    rw [e1, e2]
    refine rBlocked_eq_false (by omega) (by omega) (by omega) (by omega) ?_
    show (if (1 : Int) + (t : Int) = 0 ∧ (0 : Int) = 0 then true else false) = false
    rw [if_neg (by omega)]
  obtain ⟨h2s, h2p⟩ := rSeg (R : Int) (C : Int) 1 (R - 2) 1 0
    (fun x y => if x = 0 ∧ y = 0 then true else (fun _ _ => false) x y) hfree2
  rw [show (1 : Int) + ((R - 2 : Nat) : Int) * (rdir 1).1 = ((R - 1 : Nat) : Int) from by
    simp [rdir]; omega] at h2s
  rw [show (0 : Int) + ((R - 2 : Nat) : Int) * (rdir 1).2 = 0 from by simp [rdir]] at h2s
  rw [show R * C = 1 + ((R - 2) + 1) from by subst hC; omega, rPath_add]
  rw [show rInit = (⟨0, 0, 0, fun _ _ => false⟩ : RState) from rfl]
  rw [p1, i1, hc0, rPath_add, h2p, h2s, p1]
  by_cases ha1 : a = 0
  · refine List.mem_append_left _ ?_
    show (a, b) ∈ [((0 : Int), (0 : Int))]
    rw [show (a, b) = ((0 : Int), (0 : Int)) from by rw [Prod.mk.injEq]; omega]
    exact List.mem_singleton_self _
  · by_cases ha2 : a < ((R - 1 : Nat) : Int)
    · refine List.mem_append_right _ (List.mem_append_left _ ?_)
      refine List.mem_map.mpr ⟨(a - 1).toNat, List.mem_range.mpr (by omega), ?_⟩
      show ((1 : Int) + (((a - 1).toNat : Nat) : Int) * (rdir 1).1,
        (0 : Int) + (((a - 1).toNat : Nat) : Int) * (rdir 1).2) = (a, b)
      rw [show (1 : Int) + (((a - 1).toNat : Nat) : Int) * (rdir 1).1
          = 1 + (((a - 1).toNat : Nat) : Int) from by simp [rdir]]
      rw [show (0 : Int) + (((a - 1).toNat : Nat) : Int) * (rdir 1).2 = 0 from by simp [rdir]]
      rw [Prod.mk.injEq]
      omega
    · refine List.mem_append_right _ (List.mem_append_right _ ?_)
      show (a, b) ∈ [(((R - 1 : Nat) : Int), (0 : Int))]
      rw [show (a, b) = (((R - 1 : Nat) : Int), (0 : Int)) from by rw [Prod.mk.injEq]; omega]
      exact List.mem_singleton_self _

/-- Coverage of a two-row grid: along the top, two turns at the right
edge, back along the bottom. -/
lemma rCovers_row2 (R C : Nat) (hR : R = 2) (hC : 2 ≤ C) (a b : Int)
    (ha0 : 0 ≤ a) (haR : a < (R : Int)) (hb0 : 0 ≤ b) (hbC : b < (C : Int)) :
    (a, b) ∈ rPath (R : Int) (C : Int) (R * C) rInit := by
  have p1 : ∀ s : RState, rPath (R : Int) (C : Int) 1 s = [(s.row, s.col)] :=
    fun s => rfl
  have i1 : ∀ s : RState, rIter (R : Int) (C : Int) 1 s = rStep (R : Int) (C : Int) s :=
    fun s => rfl
  have hfree1 : ∀ t : Nat, 1 ≤ t → t ≤ C - 1 →
      rBlocked (R : Int) (C : Int) (fun _ _ => false)
        ((0 : Int) + (t : Int) * (rdir 0).1) ((0 : Int) + (t : Int) * (rdir 0).2) = false := by
    intro t h1 h2
    have e1 : (0 : Int) + (t : Int) * (rdir 0).1 = 0 := by simp [rdir]
    have e2 : (0 : Int) + (t : Int) * (rdir 0).2 = (t : Int) := by simp [rdir]
    rw [e1, e2]
    exact rBlocked_eq_false (by omega) (by omega) (by omega) (by omega) rfl
  obtain ⟨h1s, h1p⟩ := rSeg (R : Int) (C : Int) 0 (C - 1) 0 0 (fun _ _ => false) hfree1
  rw [show (0 : Int) + ((C - 1 : Nat) : Int) * (rdir 0).1 = 0 from by simp [rdir]] at h1s
  rw [show (0 : Int) + ((C - 1 : Nat) : Int) * (rdir 0).2 = ((C - 1 : Nat) : Int) from by
    simp [rdir]] at h1s
  set v1 : Int → Int → Bool := segMarks 0 0 (rdir 0) (C - 1) (fun _ _ => false) with hv1def
  have hv1 : ∀ x y : Int, v1 x y = true ↔ (x = 0 ∧ 0 ≤ y ∧ y < ((C - 1 : Nat) : Int)) := by
    intro x y
    rw [hv1def, segMarks_eq_true_iff]
    constructor
    · rintro (⟨t, ht, hx, hy⟩ | h)
      · rw [show (0 : Int) + (t : Int) * (rdir 0).1 = 0 from by simp [rdir]] at hx
        rw [show (0 : Int) + (t : Int) * (rdir 0).2 = (t : Int) from by simp [rdir]] at hy
        omega
      · exact absurd h (by simp)
    · rintro ⟨hx, hy1, hy2⟩
      refine Or.inl ⟨y.toNat, by omega, ?_, ?_⟩
      · rw [show (0 : Int) + ((y.toNat : Nat) : Int) * (rdir 0).1 = 0 from by simp [rdir]]
        omega
      · rw [show (0 : Int) + ((y.toNat : Nat) : Int) * (rdir 0).2 = ((y.toNat : Nat) : Int)
          from by simp [rdir]]
        omega
  have hblk1 : rBlocked (R : Int) (C : Int)
      (fun x y => if x = 0 ∧ y = ((C - 1 : Nat) : Int) then true else v1 x y)
      ((0 : Int) + (rdir 0).1) (((C - 1 : Nat) : Int) + (rdir 0).2) = true := by
    refine rBlocked_of_col_hi ?_
    have e : (rdir 0).2 = 1 := rfl
    rw [e]
    omega
  have hc1 := rStep_turn (R : Int) (C : Int) 0 ((C - 1 : Nat) : Int) 0 v1 hblk1
  rw [show (0 + 1) % 4 = 1 from rfl] at hc1
  rw [show (0 : Int) + (rdir 1).1 = 1 from by simp [rdir]] at hc1
  rw [show ((C - 1 : Nat) : Int) + (rdir 1).2 = ((C - 1 : Nat) : Int) from by
    simp [rdir]] at hc1
  set v1' : Int → Int → Bool :=
    fun x y => if x = 0 ∧ y = ((C - 1 : Nat) : Int) then true else v1 x y with hv1'def
  have hblk2 : rBlocked (R : Int) (C : Int)
      (fun x y => if x = 1 ∧ y = ((C - 1 : Nat) : Int) then true else v1' x y)
      ((1 : Int) + (rdir 1).1) (((C - 1 : Nat) : Int) + (rdir 1).2) = true := by
    refine rBlocked_of_row_hi ?_
    have e : (rdir 1).1 = 1 := rfl
    rw [e]
    omega
  have hc2 := rStep_turn (R : Int) (C : Int) 1 ((C - 1 : Nat) : Int) 1 v1' hblk2
  rw [show (1 + 1) % 4 = 2 from rfl] at hc2
  rw [show (1 : Int) + (rdir 2).1 = 1 from by simp [rdir]] at hc2
  rw [show ((C - 1 : Nat) : Int) + (rdir 2).2 = ((C - 2 : Nat) : Int) from by
    simp [rdir]; omega] at hc2
  set v1'' : Int → Int → Bool :=
    fun x y => if x = 1 ∧ y = ((C - 1 : Nat) : Int) then true else v1' x y with hv1''def
  have hfree3 : ∀ t : Nat, 1 ≤ t → t ≤ C - 2 →
      rBlocked (R : Int) (C : Int) v1''
        ((1 : Int) + (t : Int) * (rdir 2).1)
        (((C - 2 : Nat) : Int) + (t : Int) * (rdir 2).2) = false := by
    intro t h1 h2
    have e1 : (1 : Int) + (t : Int) * (rdir 2).1 = 1 := by simp [rdir]
    have e2 : ((C - 2 : Nat) : Int) + (t : Int) * (rdir 2).2
        = ((C - 2 : Nat) : Int) - (t : Int) := by simp [rdir]; ring
    rw [e1, e2]
    refine rBlocked_eq_false (by omega) (by omega) (by omega) (by omega) ?_
    show (if (1 : Int) = 1 ∧ ((C - 2 : Nat) : Int) - (t : Int) = ((C - 1 : Nat) : Int)
        then true
        else v1' 1 (((C - 2 : Nat) : Int) - (t : Int))) = false
    rw [if_neg (by omega)]
    show (if (1 : Int) = 0 ∧ ((C - 2 : Nat) : Int) - (t : Int) = ((C - 1 : Nat) : Int)
        then true
        else v1 1 (((C - 2 : Nat) : Int) - (t : Int))) = false
    rw [if_neg (by omega)]
    rw [Bool.eq_false_iff]
    intro hcon
    rw [hv1] at hcon
    omega
  obtain ⟨h3s, h3p⟩ := rSeg (R : Int) (C : Int) 2 (C - 2) 1 ((C - 2 : Nat) : Int) v1'' hfree3
  rw [show (1 : Int) + ((C - 2 : Nat) : Int) * (rdir 2).1 = 1 from by simp [rdir]] at h3s
  rw [show ((C - 2 : Nat) : Int) + ((C - 2 : Nat) : Int) * (rdir 2).2 = 0 from by
    simp [rdir]] at h3s
  rw [show R * C = (C - 1) + (1 + (1 + ((C - 2) + 1))) from by subst hR; omega, rPath_add]
  rw [show rInit = (⟨0, 0, 0, fun _ _ => false⟩ : RState) from rfl]
  rw [h1p, h1s]
  rw [rPath_add, p1, i1, hc1]
  rw [rPath_add, p1, i1, hc2]
  rw [rPath_add, h3p, h3s, p1]
  have ha01 : a = 0 ∨ a = 1 := by omega
  by_cases hTop : a = 0
  · by_cases hbc : b < ((C - 1 : Nat) : Int)
    · refine List.mem_append_left _ ?_
      refine List.mem_map.mpr ⟨b.toNat, List.mem_range.mpr (by omega), ?_⟩
      show ((0 : Int) + ((b.toNat : Nat) : Int) * (rdir 0).1,
        (0 : Int) + ((b.toNat : Nat) : Int) * (rdir 0).2) = (a, b)
      rw [show (0 : Int) + ((b.toNat : Nat) : Int) * (rdir 0).1 = 0 from by simp [rdir]]
      rw [show (0 : Int) + ((b.toNat : Nat) : Int) * (rdir 0).2 = ((b.toNat : Nat) : Int)
        from by simp [rdir]]
      rw [Prod.mk.injEq]
      omega
    · refine List.mem_append_right _ (List.mem_append_left _ ?_)
      show (a, b) ∈ [((0 : Int), ((C - 1 : Nat) : Int))]
      rw [show (a, b) = ((0 : Int), ((C - 1 : Nat) : Int)) from by rw [Prod.mk.injEq]; omega]
      exact List.mem_singleton_self _
  · have ha1 : a = 1 := by omega
    by_cases hbr : b = ((C - 1 : Nat) : Int)
    · refine List.mem_append_right _ (List.mem_append_right _ (List.mem_append_left _ ?_))
      show (a, b) ∈ [((1 : Int), ((C - 1 : Nat) : Int))]
      rw [show (a, b) = ((1 : Int), ((C - 1 : Nat) : Int)) from by rw [Prod.mk.injEq]; omega]
      exact List.mem_singleton_self _
    · by_cases hb0' : 1 ≤ b
      · refine List.mem_append_right _ (List.mem_append_right _ (List.mem_append_right _
          (List.mem_append_left _ ?_)))
        refine List.mem_map.mpr ⟨(((C - 2 : Nat) : Int) - b).toNat,
          List.mem_range.mpr (by omega), ?_⟩
        show ((1 : Int) + (((((C - 2 : Nat) : Int) - b).toNat : Nat) : Int) * (rdir 2).1,
          ((C - 2 : Nat) : Int)
            + (((((C - 2 : Nat) : Int) - b).toNat : Nat) : Int) * (rdir 2).2) = (a, b)
        rw [show (1 : Int) + (((((C - 2 : Nat) : Int) - b).toNat : Nat) : Int) * (rdir 2).1 = 1
          from by simp [rdir]]
        rw [show ((C - 2 : Nat) : Int)
            + (((((C - 2 : Nat) : Int) - b).toNat : Nat) : Int) * (rdir 2).2
            = ((C - 2 : Nat) : Int) - (((((C - 2 : Nat) : Int) - b).toNat : Nat) : Int)
          from by simp [rdir]; ring]
        rw [Prod.mk.injEq]
        omega
      · refine List.mem_append_right _ (List.mem_append_right _ (List.mem_append_right _
          (List.mem_append_right _ ?_)))
        show (a, b) ∈ [((1 : Int), (0 : Int))]
        rw [show (a, b) = ((1 : Int), (0 : Int)) from by rw [Prod.mk.injEq]; omega]
        exact List.mem_singleton_self _

/-- Coverage of a two-column grid (`R ≥ 3`): one cell right, turn, down
the right column, two turns, up the left column. -/
lemma rCovers_col2 (R C : Nat) (hC : C = 2) (hR : 3 ≤ R) (a b : Int)
    (ha0 : 0 ≤ a) (haR : a < (R : Int)) (hb0 : 0 ≤ b) (hbC : b < (C : Int)) :
    (a, b) ∈ rPath (R : Int) (C : Int) (R * C) rInit := by
  have p1 : ∀ s : RState, rPath (R : Int) (C : Int) 1 s = [(s.row, s.col)] :=
    fun s => rfl
  have i1 : ∀ s : RState, rIter (R : Int) (C : Int) 1 s = rStep (R : Int) (C : Int) s :=
    fun s => rfl
  have hfree1 : ∀ t : Nat, 1 ≤ t → t ≤ 1 →
      rBlocked (R : Int) (C : Int) (fun _ _ => false)
        ((0 : Int) + (t : Int) * (rdir 0).1) ((0 : Int) + (t : Int) * (rdir 0).2) = false := by
    intro t h1 h2
    have e1 : (0 : Int) + (t : Int) * (rdir 0).1 = 0 := by simp [rdir]
    have e2 : (0 : Int) + (t : Int) * (rdir 0).2 = (t : Int) := by simp [rdir]
    rw [e1, e2]
    exact rBlocked_eq_false (by omega) (by omega) (by omega) (by omega) rfl
  obtain ⟨h1s, h1p⟩ := rSeg (R : Int) (C : Int) 0 1 0 0 (fun _ _ => false) hfree1
  rw [show (0 : Int) + ((1 : Nat) : Int) * (rdir 0).1 = 0 from by simp [rdir]] at h1s
  rw [show (0 : Int) + ((1 : Nat) : Int) * (rdir 0).2 = 1 from by simp [rdir]] at h1s
  set v1 : Int → Int → Bool := segMarks 0 0 (rdir 0) 1 (fun _ _ => false) with hv1def
  have hv1 : ∀ x y : Int, v1 x y = true ↔ (x = 0 ∧ y = 0) := by
    intro x y
    rw [hv1def, segMarks_eq_true_iff]
    constructor
    · rintro (⟨t, ht, hx, hy⟩ | h)
      · rw [show (0 : Int) + (t : Int) * (rdir 0).1 = 0 from by simp [rdir]] at hx
        rw [show (0 : Int) + (t : Int) * (rdir 0).2 = (t : Int) from by simp [rdir]] at hy
        omega
      · exact absurd h (by simp)
    · rintro ⟨hx, hy⟩
      refine Or.inl ⟨0, by omega, ?_, ?_⟩
      · rw [show (0 : Int) + ((0 : Nat) : Int) * (rdir 0).1 = 0 from by simp [rdir]]
        omega
      · rw [show (0 : Int) + ((0 : Nat) : Int) * (rdir 0).2 = 0 from by simp [rdir]]
        omega
  have hblk1 : rBlocked (R : Int) (C : Int)
      (fun x y => if x = 0 ∧ y = 1 then true else v1 x y)
      ((0 : Int) + (rdir 0).1) ((1 : Int) + (rdir 0).2) = true := by
    refine rBlocked_of_col_hi ?_
    have e : (rdir 0).2 = 1 := rfl
    rw [e]
    omega
  have hc1 := rStep_turn (R : Int) (C : Int) 0 1 0 v1 hblk1
  rw [show (0 + 1) % 4 = 1 from rfl] at hc1
  rw [show (0 : Int) + (rdir 1).1 = 1 from by simp [rdir]] at hc1
  rw [show (1 : Int) + (rdir 1).2 = 1 from by simp [rdir]] at hc1
  set v1' : Int → Int → Bool := fun x y => if x = 0 ∧ y = 1 then true else v1 x y with hv1'def
  have hfree2 : ∀ t : Nat, 1 ≤ t → t ≤ R - 2 →
      rBlocked (R : Int) (C : Int) v1'
        ((1 : Int) + (t : Int) * (rdir 1).1) ((1 : Int) + (t : Int) * (rdir 1).2) = false := by
    intro t h1 h2
    have e1 : (1 : Int) + (t : Int) * (rdir 1).1 = 1 + (t : Int) := by simp [rdir]
    have e2 : (1 : Int) + (t : Int) * (rdir 1).2 = 1 := by simp [rdir]
    rw [e1, e2]
    refine rBlocked_eq_false (by omega) (by omega) (by omega) (by omega) ?_
    show (if (1 : Int) + (t : Int) = 0 ∧ (1 : Int) = 1 then true
      else v1 (1 + (t : Int)) 1) = false
    rw [if_neg (by omega)]
    rw [Bool.eq_false_iff]
    intro hcon
    rw [hv1] at hcon
    omega
  obtain ⟨h2s, h2p⟩ := rSeg (R : Int) (C : Int) 1 (R - 2) 1 1 v1' hfree2
  rw [show (1 : Int) + ((R - 2 : Nat) : Int) * (rdir 1).1 = ((R - 1 : Nat) : Int) from by
    simp [rdir]; omega] at h2s
  rw [show (1 : Int) + ((R - 2 : Nat) : Int) * (rdir 1).2 = 1 from by simp [rdir]] at h2s
  set v2 : Int → Int → Bool := segMarks 1 1 (rdir 1) (R - 2) v1' with hv2def
  have hv2 : ∀ x y : Int, v2 x y = true ↔
      ((y = 1 ∧ 1 ≤ x ∧ x < ((R - 1 : Nat) : Int)) ∨ (x = 0 ∧ (y = 0 ∨ y = 1))) := by
    intro x y
    rw [hv2def, segMarks_eq_true_iff]
    constructor
    · rintro (⟨t, ht, hx, hy⟩ | h)
      · rw [show (1 : Int) + (t : Int) * (rdir 1).1 = 1 + (t : Int) from by
          simp [rdir]] at hx
        rw [show (1 : Int) + (t : Int) * (rdir 1).2 = 1 from by simp [rdir]] at hy
        omega
      · show _ ∨ _
        by_cases hm : x = 0 ∧ y = 1
        · exact Or.inr ⟨hm.1, Or.inr hm.2⟩
        · have h' : (if x = 0 ∧ y = 1 then true else v1 x y) = true := h
          rw [if_neg hm, hv1] at h'
          exact Or.inr ⟨h'.1, Or.inl h'.2⟩
    · rintro (⟨hy, hx1, hx2⟩ | ⟨hx, hy01⟩)
      · refine Or.inl ⟨(x - 1).toNat, by omega, ?_, ?_⟩
        · rw [show (1 : Int) + (((x - 1).toNat : Nat) : Int) * (rdir 1).1
              = 1 + (((x - 1).toNat : Nat) : Int) from by simp [rdir]]
          omega
        · rw [show (1 : Int) + (((x - 1).toNat : Nat) : Int) * (rdir 1).2 = 1 from by
            simp [rdir]]
          omega
      · refine Or.inr ?_
        show (if x = 0 ∧ y = 1 then true else v1 x y) = true
        rcases hy01 with hy | hy
        · rw [if_neg (by omega), hv1]
          omega
        · rw [if_pos ⟨hx, hy⟩]
  have hblk2 : rBlocked (R : Int) (C : Int)
      (fun x y => if x = ((R - 1 : Nat) : Int) ∧ y = 1 then true else v2 x y)
      (((R - 1 : Nat) : Int) + (rdir 1).1) ((1 : Int) + (rdir 1).2) = true := by
    refine rBlocked_of_row_hi ?_
    have e : (rdir 1).1 = 1 := rfl
    rw [e]
    omega
  have hc2 := rStep_turn (R : Int) (C : Int) ((R - 1 : Nat) : Int) 1 1 v2 hblk2
  rw [show (1 + 1) % 4 = 2 from rfl] at hc2
  rw [show ((R - 1 : Nat) : Int) + (rdir 2).1 = ((R - 1 : Nat) : Int) from by
    simp [rdir]] at hc2
  rw [show (1 : Int) + (rdir 2).2 = 0 from by simp [rdir]] at hc2
  set v2' : Int → Int → Bool :=
    fun x y => if x = ((R - 1 : Nat) : Int) ∧ y = 1 then true else v2 x y with hv2'def
  have hblk3 : rBlocked (R : Int) (C : Int)
      (fun x y => if x = ((R - 1 : Nat) : Int) ∧ y = 0 then true else v2' x y)
      (((R - 1 : Nat) : Int) + (rdir 2).1) ((0 : Int) + (rdir 2).2) = true := by
    refine rBlocked_of_col_lo ?_
    have e : (rdir 2).2 = -1 := rfl
    rw [e]
    omega
  have hc3 := rStep_turn (R : Int) (C : Int) ((R - 1 : Nat) : Int) 0 2 v2' hblk3
  rw [show (2 + 1) % 4 = 3 from rfl] at hc3
  rw [show ((R - 1 : Nat) : Int) + (rdir 3).1 = ((R - 2 : Nat) : Int) from by
    simp [rdir]; omega] at hc3
  rw [show (0 : Int) + (rdir 3).2 = 0 from by simp [rdir]] at hc3
  set v3' : Int → Int → Bool :=
    fun x y => if x = ((R - 1 : Nat) : Int) ∧ y = 0 then true else v2' x y with hv3'def
  have hfree4 : ∀ t : Nat, 1 ≤ t → t ≤ R - 3 →
      rBlocked (R : Int) (C : Int) v3'
        (((R - 2 : Nat) : Int) + (t : Int) * (rdir 3).1)
        ((0 : Int) + (t : Int) * (rdir 3).2) = false := by
    intro t h1 h2
    have e1 : ((R - 2 : Nat) : Int) + (t : Int) * (rdir 3).1
        = ((R - 2 : Nat) : Int) - (t : Int) := by simp [rdir]; ring
    have e2 : (0 : Int) + (t : Int) * (rdir 3).2 = 0 := by simp [rdir]
    rw [e1, e2]
    refine rBlocked_eq_false (by omega) (by omega) (by omega) (by omega) ?_
    show (if ((R - 2 : Nat) : Int) - (t : Int) = ((R - 1 : Nat) : Int) ∧ (0 : Int) = 0
        then true
        else v2' (((R - 2 : Nat) : Int) - (t : Int)) 0) = false
    rw [if_neg (by omega)]
    show (if ((R - 2 : Nat) : Int) - (t : Int) = ((R - 1 : Nat) : Int) ∧ (0 : Int) = 1
        then true
        else v2 (((R - 2 : Nat) : Int) - (t : Int)) 0) = false
    rw [if_neg (by omega)]
    rw [Bool.eq_false_iff]
    intro hcon
    rw [hv2] at hcon
    omega
  obtain ⟨h4s, h4p⟩ := rSeg (R : Int) (C : Int) 3 (R - 3) ((R - 2 : Nat) : Int) 0 v3' hfree4
  rw [show ((R - 2 : Nat) : Int) + ((R - 3 : Nat) : Int) * (rdir 3).1 = 1 from by
    simp [rdir]; omega] at h4s
  rw [show (0 : Int) + ((R - 3 : Nat) : Int) * (rdir 3).2 = 0 from by simp [rdir]] at h4s
  rw [show R * C = 1 + (1 + ((R - 2) + (1 + (1 + ((R - 3) + 1))))) from by subst hC; omega, rPath_add]
  rw [show rInit = (⟨0, 0, 0, fun _ _ => false⟩ : RState) from rfl]
  rw [h1p, h1s]
  rw [rPath_add, p1, i1, hc1]
  rw [rPath_add, h2p, h2s]
  rw [rPath_add, p1, i1, hc2]
  rw [rPath_add, p1, i1, hc3]
  rw [rPath_add, h4p, h4s, p1]
  by_cases hbv : b = 1
  · by_cases ha0' : a = 0
    · refine List.mem_append_right _ (List.mem_append_left _ ?_)
      show (a, b) ∈ [((0 : Int), (1 : Int))]
      rw [show (a, b) = ((0 : Int), (1 : Int)) from by rw [Prod.mk.injEq]; omega]
      exact List.mem_singleton_self _
    · by_cases ha2 : a < ((R - 1 : Nat) : Int)
      · refine List.mem_append_right _ (List.mem_append_right _ (List.mem_append_left _ ?_))
        refine List.mem_map.mpr ⟨(a - 1).toNat, List.mem_range.mpr (by omega), ?_⟩
        show ((1 : Int) + (((a - 1).toNat : Nat) : Int) * (rdir 1).1,
          (1 : Int) + (((a - 1).toNat : Nat) : Int) * (rdir 1).2) = (a, b)
        rw [show (1 : Int) + (((a - 1).toNat : Nat) : Int) * (rdir 1).1
            = 1 + (((a - 1).toNat : Nat) : Int) from by simp [rdir]]
        rw [show (1 : Int) + (((a - 1).toNat : Nat) : Int) * (rdir 1).2 = 1 from by
          simp [rdir]]
        rw [Prod.mk.injEq]
        omega
      · refine List.mem_append_right _ (List.mem_append_right _ (List.mem_append_right _
          (List.mem_append_left _ ?_)))
        show (a, b) ∈ [(((R - 1 : Nat) : Int), (1 : Int))]
        rw [show (a, b) = (((R - 1 : Nat) : Int), (1 : Int)) from by
          rw [Prod.mk.injEq]; omega]
        exact List.mem_singleton_self _
  · have hb0' : b = 0 := by omega
    by_cases ha0' : a = 0
    · refine List.mem_append_left _ ?_
      refine List.mem_map.mpr ⟨0, List.mem_range.mpr (by omega), ?_⟩
      show ((0 : Int) + ((0 : Nat) : Int) * (rdir 0).1,
        (0 : Int) + ((0 : Nat) : Int) * (rdir 0).2) = (a, b)
      rw [show (0 : Int) + ((0 : Nat) : Int) * (rdir 0).1 = 0 from by simp [rdir]]
      rw [show (0 : Int) + ((0 : Nat) : Int) * (rdir 0).2 = 0 from by simp [rdir]]
      rw [Prod.mk.injEq]
      omega
    · by_cases haR1 : a = ((R - 1 : Nat) : Int)
      · refine List.mem_append_right _ (List.mem_append_right _ (List.mem_append_right _
          (List.mem_append_right _ (List.mem_append_left _ ?_))))
        show (a, b) ∈ [(((R - 1 : Nat) : Int), (0 : Int))]
        rw [show (a, b) = (((R - 1 : Nat) : Int), (0 : Int)) from by
          rw [Prod.mk.injEq]; omega]
        exact List.mem_singleton_self _
      · by_cases ha1 : a = 1
        · refine List.mem_append_right _ (List.mem_append_right _ (List.mem_append_right _
            (List.mem_append_right _ (List.mem_append_right _ (List.mem_append_right _ ?_)))))
          show (a, b) ∈ [((1 : Int), (0 : Int))]
          rw [show (a, b) = ((1 : Int), (0 : Int)) from by rw [Prod.mk.injEq]; omega]
          exact List.mem_singleton_self _
        · refine List.mem_append_right _ (List.mem_append_right _ (List.mem_append_right _
            (List.mem_append_right _ (List.mem_append_right _ (List.mem_append_left _ ?_)))))
          refine List.mem_map.mpr ⟨(((R - 2 : Nat) : Int) - a).toNat,
            List.mem_range.mpr (by omega), ?_⟩
          show (((R - 2 : Nat) : Int)
              + (((((R - 2 : Nat) : Int) - a).toNat : Nat) : Int) * (rdir 3).1,
            (0 : Int) + (((((R - 2 : Nat) : Int) - a).toNat : Nat) : Int) * (rdir 3).2) = (a, b)
          rw [show ((R - 2 : Nat) : Int)
              + (((((R - 2 : Nat) : Int) - a).toNat : Nat) : Int) * (rdir 3).1
              = ((R - 2 : Nat) : Int) - (((((R - 2 : Nat) : Int) - a).toNat : Nat) : Int)
            from by simp [rdir]; ring]
          rw [show (0 : Int)
              + (((((R - 2 : Nat) : Int) - a).toNat : Nat) : Int) * (rdir 3).2 = 0
            from by simp [rdir]]
          rw [Prod.mk.injEq]
          omega

/-- Full coverage of the spiral walk: on an `R × C` grid (`R, C ≥ 1`)
the walk of `R*C` steps from the origin visits every cell.  Induction on
`R + C`: thin grids are walked directly, and a grid with `R, C ≥ 3`
walks its outer ring and then behaves on the interior exactly like the
walk on the `(R-2) × (C-2)` grid shifted by `(1,1)`. -/
lemma rCovers : ∀ (n R C : Nat), R + C ≤ n → 1 ≤ R → 1 ≤ C →
    ∀ a b : Int, 0 ≤ a → a < (R : Int) → 0 ≤ b → b < (C : Int) →
    (a, b) ∈ rPath (R : Int) (C : Int) (R * C) rInit := by
  intro n
  induction n with
  | zero =>
    intro R C hn hR
    omega
  | succ n ih =>
    intro R C hn hR hC a b ha0 haR hb0 hbC
    by_cases hR1 : R = 1
    · exact rCovers_row1 R C hR1 hC a b ha0 haR hb0 hbC
    by_cases hC1 : C = 1
    · exact rCovers_col1 R C hC1 (by omega) a b ha0 haR hb0 hbC
    by_cases hR2 : R = 2
    · exact rCovers_row2 R C hR2 (by omega) a b ha0 haR hb0 hbC
    by_cases hC2 : C = 2
    · exact rCovers_col2 R C hC2 (by omega) a b ha0 haR hb0 hbC
    have hR3 : 3 ≤ R := by omega
    have hC3 : 3 ≤ C := by omega
    obtain ⟨visF, hiter, hvisF, hcover⟩ := rRing R C hR3 hC3
    have hfuel : R * C = (2 * R + 2 * C - 4) + (R - 2) * (C - 2) := by
      obtain ⟨R', rfl⟩ : ∃ R', R = R' + 3 := ⟨R - 3, by omega⟩
      obtain ⟨C', rfl⟩ : ∃ C', C = C' + 3 := ⟨C - 3, by omega⟩
      have h1 : (R' + 3) * (C' + 3) = R' * C' + 3 * R' + 3 * C' + 9 := by ring
      have h2 : (R' + 3 - 2) * (C' + 3 - 2) = R' * C' + R' + C' + 1 := by
        rw [show R' + 3 - 2 = R' + 1 from by omega, show C' + 3 - 2 = C' + 1 from by omega]
        ring
      omega
    rw [hfuel, rPath_add]
    by_cases hring : a = 0 ∨ a = (R : Int) - 1 ∨ b = 0 ∨ b = (C : Int) - 1
    · exact List.mem_append_left _ (hcover a b ha0 haR hb0 hbC hring)
    · refine List.mem_append_right _ ?_
      rw [hiter]
      have hsim := rSim (R : Int) (C : Int) ((R - 2) * (C - 2))
        ⟨0, 0, 0, fun _ _ => false⟩ ⟨1, 1, 0, visF⟩
        (show (1 : Int) = 0 + 1 from by omega)
        (show (1 : Int) = 0 + 1 from by omega) rfl
        (by
          intro x y
          rw [Bool.eq_iff_iff, rBlocked_eq_true_iff, rBlocked_eq_true_iff]
          rw [hvisF]
          rw [show ((⟨0, 0, 0, fun _ _ => false⟩ : RState)).vis x y = false from rfl]
          simp only [Bool.false_eq_true, or_false]
          omega)
      rw [hsim]
      rw [show ((R : Int) - 2) = ((R - 2 : Nat) : Int) from by omega]
      rw [show ((C : Int) - 2) = ((C - 2 : Nat) : Int) from by omega]
      have hmem := ih (R - 2) (C - 2) (by omega) (by omega) (by omega)
        (a - 1) (b - 1) (by omega) (by omega) (by omega) (by omega)
      refine List.mem_map.mpr ⟨(a - 1, b - 1), hmem, ?_⟩
      show (a - 1 + 1, b - 1 + 1) = (a, b)
      rw [Prod.mk.injEq]
      omega

lemma zip_map_self {α β : Type} (f : α → β) (l : List α) :
    l.zip (l.map f) = l.map (fun x => (x, f x)) := by
  have h := List.zip_map' id f l
  simpa using h

lemma rwrites_mapped (F : Int × Int → Nat) :
    ∀ (l : List (Int × Int)) (g : Int × Int → Option Nat) (q : Int × Int),
      rwrites (l.map (fun p => (p, F p))) g q
        = if q ∈ l then some (F q) else g q := by
  intro l
  induction l with
  | nil =>
    intro g q
    rw [List.map_nil, rwrites, if_neg (List.not_mem_nil q)]
  | cons p rest ih =>
    intro g q
    rw [List.map_cons, rwrites, ih]
    show (if q ∈ rest then some (F q)
        else if q = (p, F p).1 then some ((p, F p).2) else g q)
      = if q ∈ p :: rest then some (F q) else g q
    by_cases hq : q ∈ rest
    · rw [if_pos hq, if_pos (List.mem_cons_of_mem p hq)]
    · rw [if_neg hq]
      by_cases hqp : q = p
      · rw [if_pos (show q = (p, F p).1 from hqp), if_pos (List.mem_cons.mpr (Or.inl hqp))]
        show some (F p) = some (F q)
        rw [hqp]
      · rw [if_neg (show ¬q = (p, F p).1 from hqp)]
        rw [if_neg (by
          intro hcon
          rcases List.mem_cons.mp hcon with h | h
          · exact hqp h
          · exact hq h)]

/-- C4: for `rows, cols ≥ 1` and `len(text) ≤ rows*cols`, the route
round trip returns the text padded with 'X' to the grid size with the
trailing padding stripped.  The spiral path covers every grid cell, and
the value `route_decrypt` writes at a cell is exactly the padded text's
character at that cell, so the row-major read recovers the padded text. -/
theorem claim_C4_route_roundtrip (text : Str) (rows cols : Int)
    (hr : 1 ≤ rows) (hc : 1 ≤ cols) (hlen : text.length ≤ (rows * cols).toNat) :
    route_decrypt (route_encrypt text rows cols) rows cols
      = rstripX (text ++ List.replicate ((rows * cols).toNat - text.length) 88) := by
  obtain ⟨R, rfl⟩ : ∃ R : Nat, rows = (R : Int) :=
    ⟨rows.toNat, (Int.toNat_of_nonneg (by omega)).symm⟩
  obtain ⟨C, rfl⟩ : ∃ C : Nat, cols = (C : Int) :=
    ⟨cols.toNat, (Int.toNat_of_nonneg (by omega)).symm⟩
  have hR1 : 1 ≤ R := by exact_mod_cast hr
  have hC1 : 1 ≤ C := by exact_mod_cast hc
  have hg : ((R : Int) * (C : Int)).toNat = R * C := by
    rw [← Nat.cast_mul, Int.toNat_natCast]
  rw [hg] at hlen
  have hguard : ¬((R : Int) < 1 ∨ (C : Int) < 1) := by omega
  simp only [route_encrypt, route_decrypt, if_neg hguard]
  rw [hg]
  set tp := text ++ List.replicate (R * C - text.length) 88 with htp
  have htplen : tp.length = R * C := by
    rw [htp, List.length_append, List.length_replicate]
    omega
  set path := rPath (R : Int) (C : Int) (R * C) rInit with hpath
  have hplen : path.length = R * C := by
    rw [hpath, rPath_length]
  have hElen : (path.map (fun p => tp.getD ((p.1 * (C : Int) + p.2).toNat) 88)).length
      = R * C := by
    rw [List.length_map, hplen]
  rw [if_neg (by rw [hElen]; omega)]
  rw [show (path.map (fun p => tp.getD ((p.1 * (C : Int) + p.2).toNat) 88)).take (R * C)
      = path.map (fun p => tp.getD ((p.1 * (C : Int) + p.2).toNat) 88) from by
    rw [← hElen]
    exact List.take_length _]
  rw [zip_map_self (fun p => tp.getD ((p.1 * (C : Int) + p.2).toNat) 88) path]
  rw [show ((R : Int)).toNat = R from Int.toNat_natCast R]
  rw [show ((C : Int)).toNat = C from Int.toNat_natCast C]
  have hcov : ∀ i j : Nat, i < R → j < C → (((i : Nat) : Int), ((j : Nat) : Int)) ∈ path := by
    intro i j hi hj
    rw [hpath]
    exact rCovers (R + C) R C (le_refl _) hR1 hC1 (i : Int) (j : Int)
      (by omega) (by exact_mod_cast hi) (by omega) (by exact_mod_cast hj)
  have hgridvals : ∀ i j : Nat, i < R → j < C →
      rwrites (path.map (fun p => (p, tp.getD ((p.1 * (C : Int) + p.2).toNat) 88)))
        (fun _ => none) (((i : Nat) : Int), ((j : Nat) : Int))
      = some (tp.getD (i * C + j) 88) := by
    intro i j hi hj
    rw [rwrites_mapped (fun p => tp.getD ((p.1 * (C : Int) + p.2).toNat) 88) path
      (fun _ => none) ((i : Int), (j : Int))]
    rw [if_pos (hcov i j hi hj)]
    have e : (((i : Int), (j : Int)) : Int × Int).1 * (C : Int)
        + (((i : Int), (j : Int)) : Int × Int).2 = ((i * C + j : Nat) : Int) := by
      push_cast
      ring
    rw [e, Int.toNat_natCast]
  have hread : (List.range R).map (fun i =>
      ((List.range C).map (fun j =>
        rwrites (path.map (fun p => (p, tp.getD ((p.1 * (C : Int) + p.2).toNat) 88)))
          (fun _ => none) (((i : Nat) : Int), ((j : Nat) : Int)))).filterMap id)
      = (List.range R).map (fun i => (List.range C).map (fun j => tp.getD (i * C + j) 88)) := by
    refine List.map_congr_left (fun i hi => ?_)
    rw [List.mem_range] at hi
    have hrow : (List.range C).map (fun j =>
        rwrites (path.map (fun p => (p, tp.getD ((p.1 * (C : Int) + p.2).toNat) 88)))
          (fun _ => none) (((i : Nat) : Int), ((j : Nat) : Int)))
        = (List.range C).map (fun j => some (tp.getD (i * C + j) 88)) := by
      refine List.map_congr_left (fun j hj => ?_)
      rw [List.mem_range] at hj
      exact hgridvals i j hi hj
    rw [hrow, filterMap_id_map_some]
  rw [hread]
  rw [flatten_range_map C (fun n => tp.getD n 88) R]
  rw [show (List.range (R * C)).map (fun n => tp.getD n 88) = tp from by
    rw [← htplen]
    exact map_getD_self tp 88]

/-- Witness for C4 at text `"AB"`, `rows = 2`, `cols = 2`. -/
theorem claim_C4_witness :
    (1 : Int) ≤ 2 ∧ ([65, 66] : Str).length ≤ ((2 : Int) * 2).toNat ∧
    route_decrypt (route_encrypt [65, 66] 2 2) 2 2
      = rstripX (([65, 66] : Str) ++ List.replicate (((2 : Int) * 2).toNat - 2) 88) :=
  ⟨by decide, by decide,
    claim_C4_route_roundtrip [65, 66] 2 2 (by decide) (by decide) (by decide)⟩

end Crypto
